import Mathlib

/-!
A verification development for the polynomial compiler (`parser.h`, `parser.cc`).

The recursive-descent parser, its four semantic checks, the polynomial
evaluator and the instruction interpreter are embedded as Lean functions over
an explicit `Parser` state.  C++ `int` is `Int`, with an explicit wrap to 32
bits after every arithmetic operation on polynomial values; the counters
`next_available`, `current_input_index` and the argument count only count
tokens or instructions read and are left unwrapped.  `std::vector` is `List`;
a raw pointer is an inductive with a `null` constructor; `exit(1)` is an
`Except` error.
-/

namespace PolyLang

/-! ## Machine integers and `atoi` -/

/-- Two's-complement wrap of an integer into the range of a 32-bit `int`. -/
def wrap32 (z : Int) : Int := (z + 2147483648) % 4294967296 - 2147483648

/-- The digit loop of `atoi`: accumulates decimal digits, stops at the first
character that is not a digit. -/
def atoiDigits : List Char → Int → Int
  | [], acc => acc
  | c :: cs, acc =>
    if c.isDigit then atoiDigits cs (acc * 10 + ((c.toNat : Int) - 48)) else acc

/-- The result of `strtol` for the exact value `z`: a value outside the type
`long` (64 bits) is replaced by `LONG_MAX` or `LONG_MIN`. -/
def clamp64 (z : Int) : Int :=
  if z > 9223372036854775807 then 9223372036854775807
  else if z < -9223372036854775808 then -9223372036854775808
  else z

/-- The C library `atoi` on a lexeme, which is `(int) strtol(s, NULL, 10)`:
leading white space, an optional sign, decimal digits; the value saturates
at the bounds of `long` and is then cut to the 32 bits of `int`. -/
def atoi (s : String) : Int :=
  match s.toList.dropWhile Char.isWhitespace with
  | '-' :: r => wrap32 (clamp64 (-(atoiDigits r 0)))
  | '+' :: r => wrap32 (clamp64 (atoiDigits r 0))
  | r => wrap32 (clamp64 (atoiDigits r 0))

/-! ## Tokens and the token source -/

/-- The token types the parser tests for. -/
inductive TokenType where
  | END_OF_FILE | TASKS | POLY | EXECUTE | INPUT | OUTPUT | INPUTS
  | ID | NUM | LPAREN | RPAREN | PLUS | MINUS | POWER | EQUAL | COMMA | SEMICOLON
  deriving DecidableEq, Repr

open TokenType

/-- A token: its type, its literal text and its source line. -/
structure Token where
  token_type : TokenType
  lexeme : String
  line_no : Int
  deriving DecidableEq, Repr

/-- Modelled from the spec: the token source (`lexer.h` is not among the
sources).  It holds the finite sequence of tokens still to be read; once the
sequence is used up every read yields an `END_OF_FILE` token. -/
abbrev LexicalAnalyzer := List Token

/-- Modelled from the spec: the token the token source yields at the end of
the input. -/
def eofToken : Token := ⟨END_OF_FILE, "", 0⟩

/-- Modelled from the spec: `lexer.peek(k)`, the `k`-th token ahead (from 1),
not consumed. -/
def LexicalAnalyzer.peek (l : LexicalAnalyzer) (k : Nat) : Token :=
  (l.get? (k - 1)).getD eofToken

/-- Modelled from the spec: `lexer.GetToken()`, the next token together with
the token source after consuming it. -/
def LexicalAnalyzer.GetToken (l : LexicalAnalyzer) : Token × LexicalAnalyzer :=
  (l.peek 1, l.tail)

/-! ## The data model of `parser.h` -/

inductive PrimaryKind where
  | VAR | TERM_LIST
  deriving DecidableEq, Repr

inductive OpType where
  | OP_PLUS | OP_MINUS
  deriving DecidableEq, Repr

mutual
/-- The C++ type `struct term_list*`: a possibly null link to a list node. -/
inductive term_list where
  | null
  | node (term : Term) (op : OpType) (next : term_list) (monomial_list : monomial_list)
/-- The C++ type `struct monomial_list*`: a possibly null link to a list node. -/
inductive monomial_list where
  | null
  | node (monomial : Monomial) (next : monomial_list)
/-- The C++ type `struct Term`. -/
inductive Term where
  | mk (coefficient : Int) (is_constant : Bool) (var : String) (exponent : Int)
      (monomial_list : monomial_list)
/-- The C++ type `struct Monomial`. -/
inductive Monomial where
  | mk (primary : Primary) (exponent : Int)
/-- The C++ type `Primary*`: a possibly null link to a primary. -/
inductive Primary where
  | null
  | node (kind : PrimaryKind) (var : Int) (t_list : term_list)
end

def Term.coefficient : Term → Int
  | .mk c _ _ _ _ => c

def Term.is_constant : Term → Bool
  | .mk _ b _ _ _ => b

def Term.var : Term → String
  | .mk _ _ v _ _ => v

def Term.exponent : Term → Int
  | .mk _ _ _ e _ => e

def Term.monomial_list : Term → PolyLang.monomial_list
  | .mk _ _ _ _ m => m

/-- The assignment `term.exponent = e`. -/
def Term.set_exponent : Term → Int → Term
  | .mk c b v _ m, e => .mk c b v e m

/-- The assignment `term.coefficient = c`. -/
def Term.set_coefficient : Term → Int → Term
  | .mk _ b v e m, c => .mk c b v e m

structure PolynomialDecl where
  name : String := ""
  line_no : Int := 0
  parameters : List String := []
  has_explicit_params : Bool := false
  terms : List Term := []

structure SemanticError where
  lines : List Int := []
  has_errors : Bool := false

structure VariableInfo where
  location : Int
  name : String

structure PolyEvaluation where
  target_var : String := ""
  poly_name : String := ""
  arg_vars : List String := []

inductive InstructionType where
  | INPUT | OUTPUT | EVAL
  deriving DecidableEq, Repr

structure Instruction where
  type : InstructionType
  var_name : String := ""
  eval : PolyEvaluation := {}

structure ParsedPolynomial where
  name : String := ""
  terms : List Term := []
  params : List String := []

/-- The members of `class Parser` that `parser.cc` reads or writes. -/
structure Parser where
  lexer : LexicalAnalyzer
  symbol_table : List VariableInfo := []
  mem : List Int := []
  input_values : List Int := []
  instructions : List Instruction := []
  polynomial_table : List PolynomialDecl := []
  current_args : List String := []
  parsed_polynomials : List ParsedPolynomial := []
  current_coefficient : Int := 1
  current_poly : ParsedPolynomial := {}
  in_inputs_section : Bool := false
  next_available : Int := 0
  current_input_index : Int := 0
  semantic_error : SemanticError := {}
  semantic_error2 : SemanticError := {}
  semantic_error3 : SemanticError := {}
  semantic_error4 : SemanticError := {}

/-- The constructor `Parser::Parser()`, over the given token source. -/
def Parser.new (tokens : LexicalAnalyzer) : Parser := { lexer := tokens }

/-- How a run ends other than by returning: the three ways the process calls
`exit(1)`, the model running out of fuel, and C++ undefined behaviour (an
index outside a vector). -/
inductive Exit where
  | syntax_error
  | semantic_error (code : Int) (lines : List Int)
  | not_enough_input
  | out_of_fuel
  | undefined
  deriving DecidableEq, Repr

abbrev Res (α : Type) := Except Exit α

deriving instance DecidableEq for Except

/-! ## Polynomial evaluation -/

/-- The loop `for (i = 0; i < n; i++) result *= base`, started at `result`. -/
def pow_loop (base : Int) : Nat → Int → Int
  | 0, result => result
  | n + 1, result => pow_loop base n (wrap32 (result * base))

mutual
def evaluate_primary (primary : Primary) (params : List String) (args : List Int) : Int :=
  match primary with
  | .null => 0
  | .node kind var t_list =>
    if kind = PrimaryKind.VAR then
      if 0 ≤ var ∧ var < (args.length : Int) then args.getD var.toNat 0 else 0
    else evaluate_term_list t_list params args

def evaluate_monomial (monomial : Monomial) (params : List String) (args : List Int) : Int :=
  match monomial with
  | .mk .null _ => 1
  | .mk (.node kind var t_list) exponent =>
    let base := evaluate_primary (.node kind var t_list) params args
    pow_loop base exponent.toNat 1

def evaluate_monomial_list (list : monomial_list) (params : List String) (args : List Int) :
    Int :=
  match list with
  | .null => 1
  | .node monomial next =>
    let current := evaluate_monomial monomial params args
    let rest := evaluate_monomial_list next params args
    wrap32 (current * rest)

def evaluate_term (term : Term) (params : List String) (args : List Int) : Int :=
  match term with
  | .mk coefficient is_constant var exponent ml =>
    if is_constant then coefficient
    else if var ≠ "" then
      let index := params.indexOf var
      if index < params.length then
        if index < args.length then
          let base := args.getD index 0
          let powered := pow_loop base exponent.toNat 1
          wrap32 (coefficient * powered)
        else coefficient
      else coefficient
    else
      match ml with
      | .null => coefficient
      | .node monomial next =>
        wrap32 (coefficient * evaluate_monomial_list (.node monomial next) params args)

def evaluate_term_list (list : term_list) (params : List String) (args : List Int) : Int :=
  match list with
  | .null => 0
  | .node term op next _ =>
    let term_val := evaluate_term term params args
    match next with
    | .null => term_val
    | .node t o n m =>
      let next_val := evaluate_term_list (.node t o n m) params args
      if op = OpType.OP_PLUS then wrap32 (term_val + next_val) else wrap32 (term_val - next_val)
end

/-- Function `Parser::evaluate_polynomial`: the first stored polynomial of that name,
its terms added up from 0; 0 when there is none. -/
def evaluate_polynomial (s : Parser) (poly_name : String) (args : List Int) : Int :=
  match s.parsed_polynomials.find? (fun p => p.name == poly_name) with
  | some p => p.terms.foldl (fun result term => wrap32 (result + evaluate_term term p.params args)) 0
  | none => 0

/-! ## Parser primitives and bookkeeping -/

/-- Function `Parser::syntax_error`: prints the diagnostic and exits. -/
def syntax_error {α : Type} : Res α := .error .syntax_error

/-- Function `Parser::expect`. -/
def expect (expected_type : TokenType) (s : Parser) : Res (Token × Parser) :=
  let t := s.lexer.GetToken
  if t.1.token_type ≠ expected_type then syntax_error
  else .ok (t.1, { s with lexer := t.2 })

/-- The element `v.back()` of a vector (a default value on an empty one, where
C++ leaves it undefined; the parser only reads it on non-empty vectors). -/
def back {α : Type} [Inhabited α] (v : List α) : α := v.getLast?.getD default

/-- An update of `v.back()` in place (nothing on an empty vector). -/
def modify_back {α : Type} (v : List α) (f : α → α) : List α :=
  match v.getLast? with
  | some a => v.dropLast ++ [f a]
  | none => v

instance : Inhabited PolynomialDecl := ⟨{}⟩

instance : Inhabited ParsedPolynomial := ⟨{}⟩

/-- Function `Parser::allocate_variable`. -/
def allocate_variable (var_name : String) (s : Parser) : Int × Parser :=
  match s.symbol_table.find? (fun var => var.name == var_name) with
  | some var => (var.location, s)
  | none =>
    (s.next_available,
      { s with
        symbol_table := s.symbol_table ++ [{ location := s.next_available, name := var_name }]
        next_available := s.next_available + 1 })

/-- Function `Parser::store_input_value`. -/
def store_input_value (num_lexeme : String) (s : Parser) : Parser :=
  { s with input_values := s.input_values ++ [atoi num_lexeme] }

/-- Function `Parser::get_next_input`. -/
def get_next_input (s : Parser) : Res (Int × Parser) :=
  if 0 ≤ s.current_input_index ∧ s.current_input_index < (s.input_values.length : Int) then
    .ok (s.input_values.getD s.current_input_index.toNat 0,
      { s with current_input_index := s.current_input_index + 1 })
  else .error .not_enough_input

/-! ## Semantic checks -/

/-- The library call `std::sort` on a vector of `int`. -/
def sort (v : List Int) : List Int := v.insertionSort (· ≤ ·)

/-- Function `SemanticError::reportError`: returns on an empty record, otherwise prints
the sorted lines under the code and exits. -/
def SemanticError.reportError (e : SemanticError) (code : Int) : Res Unit :=
  if e.lines.isEmpty then .ok ()
  else .error (.semantic_error code (sort e.lines))

/-- Function `Parser::check_duplicate_polynomial`. -/
def check_duplicate_polynomial (name : String) (line_no : Int) (s : Parser) : Parser :=
  if s.polynomial_table.any (fun poly => poly.name == name) then
    { s with semantic_error := { s.semantic_error with lines := s.semantic_error.lines ++ [line_no] } }
  else s

/-- Function `Parser::is_valid_monomial`. -/
def is_valid_monomial (monomial_name : String) (poly : PolynomialDecl) : Bool :=
  if !poly.has_explicit_params then monomial_name == "x"
  else poly.parameters.contains monomial_name

/-- Function `Parser::check_invalid_monomial`. -/
def check_invalid_monomial (monomial_name : String) (current_poly : PolynomialDecl)
    (line_no : Int) (s : Parser) : Parser :=
  if !is_valid_monomial monomial_name current_poly then
    { s with semantic_error2 := { s.semantic_error2 with lines := s.semantic_error2.lines ++ [line_no] } }
  else s

/-- Function `Parser::check_undeclared_polynomial`. -/
def check_undeclared_polynomial (name : String) (line_no : Int) (s : Parser) : Parser :=
  let found := s.polynomial_table.any (fun poly => poly.name == name)
  if !found then
    { s with semantic_error3 := { s.semantic_error3 with lines := s.semantic_error3.lines ++ [line_no] } }
  else s

/-- Function `Parser::check_wrong_number_of_arguments`. -/
def check_wrong_number_of_arguments (name : String) (line_no : Int) (get_num : Int)
    (s : Parser) : Parser :=
  match s.polynomial_table.find? (fun poly => poly.name == name) with
  | some poly =>
    if (poly.parameters.length : Int) ≠ get_num then
      { s with semantic_error4 := { s.semantic_error4 with lines := s.semantic_error4.lines ++ [line_no] } }
    else s
  | none => s

/-! ## The recursive-descent parser

Every recursive parsing function takes a fuel argument that decreases at each
call; `out_of_fuel` is the model's only artefact.  A function that does not
recurse passes its fuel on unchanged. -/

/-- Function `Parser::parse_num_list`. -/
def parse_num_list : Nat → Parser → Res Parser
  | 0, _ => .error .out_of_fuel
  | fuel + 1, s => do
    let (t, s) ← expect NUM s
    let s := if s.in_inputs_section then store_input_value t.lexeme s else s
    let next := s.lexer.peek 1
    if next.token_type = NUM then parse_num_list fuel s else pure s

/-- Function `Parser::parse_tasks_section`. -/
def parse_tasks_section (fuel : Nat) (s : Parser) : Res Parser := do
  let (_, s) ← expect TASKS s
  parse_num_list fuel s

/-- Function `Parser::parse_poly_name`. -/
def parse_poly_name (s : Parser) : Res Parser := do
  let (_, s) ← expect ID s
  pure s

/-- Function `Parser::parse_id_list`, called on `polynomial_table.back().parameters`. -/
def parse_id_list : Nat → Parser → Res Parser
  | 0, _ => .error .out_of_fuel
  | fuel + 1, s => do
    let (t, s) ← expect ID s
    let s := { s with
      polynomial_table :=
        modify_back s.polynomial_table
          (fun d => { d with parameters := d.parameters ++ [t.lexeme] }) }
    let next := s.lexer.peek 1
    if next.token_type = COMMA then do
      let (_, s) ← expect COMMA s
      parse_id_list fuel s
    else if next.token_type ≠ RPAREN then syntax_error
    else pure s

/-- Function `Parser::parse_poly_header`. -/
def parse_poly_header (fuel : Nat) (s : Parser) : Res Parser := do
  let s ← parse_poly_name s
  let t := s.lexer.peek 1
  if t.token_type = LPAREN then do
    let s := { s with
      polynomial_table :=
        modify_back s.polynomial_table (fun d => { d with has_explicit_params := true }) }
    let (_, s) ← expect LPAREN s
    let s ← parse_id_list fuel s
    let (_, s) ← expect RPAREN s
    pure s
  else
    pure { s with
      polynomial_table :=
        modify_back s.polynomial_table
          (fun d => { d with has_explicit_params := false, parameters := ["x"] }) }

/-- Function `Parser::parse_coefficient`.  The constant term it stores leaves its
`var` empty and its `monomial_list` unset (null here). -/
def parse_coefficient (s : Parser) : Res Parser := do
  let (t, s) ← expect NUM s
  let s := { s with current_coefficient := atoi t.lexeme }
  if (s.lexer.peek 1).token_type ≠ ID ∧ (s.lexer.peek 1).token_type ≠ LPAREN then
    let term : Term := .mk s.current_coefficient true "" 0 .null
    pure { s with current_poly := { s.current_poly with terms := s.current_poly.terms ++ [term] } }
  else pure s

/-- Function `Parser::parse_exponent`. -/
def parse_exponent (s : Parser) : Res Parser := do
  let (_, s) ← expect POWER s
  let (t, s) ← expect NUM s
  if ¬ s.current_poly.terms.isEmpty then
    pure { s with
      current_poly := { s.current_poly with
        terms :=
          modify_back s.current_poly.terms (fun term => term.set_exponent (atoi t.lexeme)) } }
  else pure s

/-- Function `Parser::parse_add_operator`. -/
def parse_add_operator (s : Parser) : Res Parser :=
  let t := s.lexer.GetToken
  let s := { s with lexer := t.2 }
  if t.1.token_type ≠ PLUS ∧ t.1.token_type ≠ MINUS then syntax_error
  else if t.1.token_type = MINUS ∧ s.current_poly.terms.length > 0 then
    pure { s with
      current_poly := { s.current_poly with
        terms :=
          modify_back s.current_poly.terms
            (fun term => term.set_coefficient (wrap32 (term.coefficient * (-1)))) } }
  else pure s

mutual
/-- Function `Parser::parse_term_list`. -/
def parse_term_list : Nat → Parser → Res Parser
  | 0, _ => .error .out_of_fuel
  | fuel + 1, s => do
    let s ← parse_term fuel s
    let t := s.lexer.peek 1
    if t.token_type = PLUS ∨ t.token_type = MINUS then do
      let s ← parse_add_operator s
      parse_term_list fuel s
    else pure s

/-- Function `Parser::parse_term`. -/
def parse_term : Nat → Parser → Res Parser
  | 0, _ => .error .out_of_fuel
  | fuel + 1, s =>
    let t := s.lexer.peek 1
    if t.token_type = NUM then do
      let s ← parse_coefficient s
      let t := s.lexer.peek 1
      if t.token_type = ID ∨ t.token_type = LPAREN then parse_monomial_list fuel s
      else pure s
    else
      parse_monomial_list fuel { s with current_coefficient := 1 }

/-- Function `Parser::parse_monomial_list`. -/
def parse_monomial_list : Nat → Parser → Res Parser
  | 0, _ => .error .out_of_fuel
  | fuel + 1, s => do
    let s ← parse_monomial fuel s
    let t := s.lexer.peek 1
    if t.token_type = ID ∨ t.token_type = LPAREN then parse_monomial_list fuel s
    else pure s

/-- Function `Parser::parse_monomial`. -/
def parse_monomial : Nat → Parser → Res Parser
  | 0, _ => .error .out_of_fuel
  | fuel + 1, s => do
    let s ← parse_primary fuel s
    let t := s.lexer.peek 1
    if t.token_type = POWER then parse_exponent s else pure s

/-- Function `Parser::parse_primary`.  The term it stores leaves `monomial_list` unset
(null here). -/
def parse_primary : Nat → Parser → Res Parser
  | 0, _ => .error .out_of_fuel
  | fuel + 1, s =>
    let t := s.lexer.peek 1
    if t.token_type = ID then do
      let (id_token, s) ← expect ID s
      let s :=
        if ¬ s.polynomial_table.isEmpty then
          check_invalid_monomial id_token.lexeme (back s.polynomial_table) id_token.line_no s
        else s
      let term : Term := .mk s.current_coefficient false id_token.lexeme 1 .null
      pure { s with current_poly := { s.current_poly with terms := s.current_poly.terms ++ [term] } }
    else if t.token_type = LPAREN then do
      let (_, s) ← expect LPAREN s
      let s ← parse_term_list fuel s
      let (_, s) ← expect RPAREN s
      pure s
    else syntax_error
end

/-- Function `Parser::parse_poly_body`. -/
def parse_poly_body (fuel : Nat) (s : Parser) : Res Parser :=
  parse_term_list fuel s

/-- Function `Parser::parse_poly_decl`. -/
def parse_poly_decl (fuel : Nat) (s : Parser) : Res Parser := do
  let name_token := s.lexer.peek 1
  let s := check_duplicate_polynomial name_token.lexeme name_token.line_no s
  let s := { s with current_poly := { name := name_token.lexeme }, current_coefficient := 1 }
  let new_poly : PolynomialDecl := { name := name_token.lexeme, line_no := name_token.line_no }
  let s := { s with polynomial_table := s.polynomial_table ++ [new_poly] }
  let s ← parse_poly_header fuel s
  let (_, s) ← expect EQUAL s
  let s ← parse_poly_body fuel s
  let (_, s) ← expect SEMICOLON s
  let s := { s with
    current_poly := { s.current_poly with params := (back s.polynomial_table).parameters } }
  pure { s with parsed_polynomials := s.parsed_polynomials ++ [s.current_poly] }

/-- Function `Parser::parse_poly_decl_list`. -/
def parse_poly_decl_list : Nat → Parser → Res Parser
  | 0, _ => .error .out_of_fuel
  | fuel + 1, s => do
    let s ← parse_poly_decl fuel s
    let t := s.lexer.peek 1
    if t.token_type = ID then parse_poly_decl_list fuel s else pure s

/-- Function `Parser::parse_poly_section`. -/
def parse_poly_section (fuel : Nat) (s : Parser) : Res Parser := do
  let (_, s) ← expect POLY s
  parse_poly_decl_list fuel s

/-- Function `Parser::parse_input_statement`. -/
def parse_input_statement (s : Parser) : Res Parser := do
  let (_, s) ← expect INPUT s
  let (var_token, s) ← expect ID s
  let (_, s) ← expect SEMICOLON s
  let s := (allocate_variable var_token.lexeme s).2
  let inst : Instruction := { type := .INPUT, var_name := var_token.lexeme }
  pure { s with instructions := s.instructions ++ [inst] }

/-- Function `Parser::parse_output_statement`. -/
def parse_output_statement (s : Parser) : Res Parser := do
  let (_, s) ← expect OUTPUT s
  let (var_token, s) ← expect ID s
  let (_, s) ← expect SEMICOLON s
  let inst : Instruction := { type := .OUTPUT, var_name := var_token.lexeme }
  pure { s with instructions := s.instructions ++ [inst] }

mutual
/-- Function `Parser::parse_poly_evaluation`. -/
def parse_poly_evaluation : Nat → Parser → Res Parser
  | 0, _ => .error .out_of_fuel
  | fuel + 1, s => do
    let (name_token, s) ← expect ID s
    let s := check_undeclared_polynomial name_token.lexeme name_token.line_no s
    let (_, s) ← expect LPAREN s
    let (get_num, s) ← parse_argument_list fuel s
    let (_, s) ← expect RPAREN s
    pure (check_wrong_number_of_arguments name_token.lexeme name_token.line_no get_num s)

/-- Function `Parser::parse_argument_list`: returns the number of arguments. -/
def parse_argument_list : Nat → Parser → Res (Int × Parser)
  | 0, _ => .error .out_of_fuel
  | fuel + 1, s => do
    let count : Int := 1
    let s ← parse_argument fuel s
    let t := s.lexer.peek 1
    if t.token_type = COMMA then do
      let (_, s) ← expect COMMA s
      let (rest, s) ← parse_argument_list fuel s
      pure (count + rest, s)
    else pure (count, s)

/-- Function `Parser::parse_argument`. -/
def parse_argument : Nat → Parser → Res Parser
  | 0, _ => .error .out_of_fuel
  | fuel + 1, s =>
    let t := s.lexer.peek 1
    if t.token_type = ID then
      let t2 := s.lexer.peek 2
      if t2.token_type = LPAREN then parse_poly_evaluation fuel s
      else do
        let (arg, s) ← expect ID s
        pure { s with current_args := s.current_args ++ [arg.lexeme] }
    else if t.token_type = NUM then do
      let (_, s) ← expect NUM s
      pure s
    else parse_poly_evaluation fuel s
end

/-- Function `Parser::parse_assign_statement`. -/
def parse_assign_statement (fuel : Nat) (s : Parser) : Res Parser := do
  let (target, s) ← expect ID s
  let (_, s) ← expect EQUAL s
  let poly_name := s.lexer.peek 1
  let s ← parse_poly_evaluation fuel s
  let (_, s) ← expect SEMICOLON s
  let inst : Instruction :=
    { type := .EVAL
      eval := { target_var := target.lexeme, poly_name := poly_name.lexeme,
                arg_vars := s.current_args } }
  let s := { s with instructions := s.instructions ++ [inst] }
  let s := (allocate_variable target.lexeme s).2
  pure { s with current_args := [] }

/-- Function `Parser::parse_statement`. -/
def parse_statement (fuel : Nat) (s : Parser) : Res Parser :=
  let t := s.lexer.peek 1
  if t.token_type = INPUT then parse_input_statement s
  else if t.token_type = OUTPUT then parse_output_statement s
  else if t.token_type = ID then parse_assign_statement fuel s
  else syntax_error

/-- Function `Parser::parse_statement_list`. -/
def parse_statement_list : Nat → Parser → Res Parser
  | 0, _ => .error .out_of_fuel
  | fuel + 1, s => do
    let s ← parse_statement fuel s
    let t := s.lexer.peek 1
    if t.token_type = INPUT ∨ t.token_type = OUTPUT ∨ t.token_type = ID then
      parse_statement_list fuel s
    else pure s

/-- Function `Parser::parse_execute_section`. -/
def parse_execute_section (fuel : Nat) (s : Parser) : Res Parser := do
  let (_, s) ← expect EXECUTE s
  parse_statement_list fuel s

/-- Function `Parser::parse_inputs_section`. -/
def parse_inputs_section (fuel : Nat) (s : Parser) : Res Parser := do
  let (_, s) ← expect INPUTS s
  let s := { s with in_inputs_section := true }
  let s ← parse_num_list fuel s
  pure { s with in_inputs_section := false }

/-- The first part of `Parser::ConsumeAllInput`: the four sections and the end
of the input. -/
def parse_phase (fuel : Nat) (s : Parser) : Res Parser := do
  let s ← parse_tasks_section fuel s
  let s ← parse_poly_section fuel s
  let s ← parse_execute_section fuel s
  let s ← parse_inputs_section fuel s
  let (_, s) ← expect END_OF_FILE s
  pure s

/-- The second part of `Parser::ConsumeAllInput`: the four guarded calls of
`reportError`, in the order of the codes. -/
def report_phase (s : Parser) : Res Parser := do
  if ¬ s.semantic_error.lines.isEmpty then s.semantic_error.reportError 1
  if ¬ s.semantic_error2.lines.isEmpty then s.semantic_error2.reportError 2
  if ¬ s.semantic_error3.lines.isEmpty then s.semantic_error3.reportError 3
  if ¬ s.semantic_error4.lines.isEmpty then s.semantic_error4.reportError 4
  pure s

/-- Function `Parser::ConsumeAllInput`. -/
def ConsumeAllInput (fuel : Nat) (s : Parser) : Res Parser := do
  let s ← parse_phase fuel s
  report_phase s

/-! ## Execution -/

/-- The call `v.resize(n, x)`. -/
def resize (v : List Int) (n : Nat) (x : Int) : List Int :=
  v.take n ++ List.replicate (n - v.length) x

/-- A read `v[i]` of a vector; undefined outside the vector. -/
def vec_read (v : List Int) (i : Int) : Res Int :=
  if 0 ≤ i ∧ i < (v.length : Int) then .ok (v.getD i.toNat 0) else .error .undefined

/-- A write `v[i] = x` of a vector; undefined outside the vector. -/
def vec_write (v : List Int) (i : Int) (x : Int) : Res (List Int) :=
  if 0 ≤ i ∧ i < (v.length : Int) then .ok (v.set i.toNat x) else .error .undefined

/-- The first symbol-table entry of that name, as the scanning loops of
`execute_program` find it. -/
def lookup_var (s : Parser) (name : String) : Option VariableInfo :=
  s.symbol_table.find? (fun var => var.name == name)

/-- The argument loop of the `EVAL` case: the memory values of the argument
names that have a symbol-table entry, in order. -/
def collect_arg_values (s : Parser) : List String → Res (List Int)
  | [] => .ok []
  | arg_name :: rest =>
    match lookup_var s arg_name with
    | some var => do
      let x ← vec_read s.mem var.location
      let xs ← collect_arg_values s rest
      pure (x :: xs)
    | none => collect_arg_values s rest

/-- One iteration of the loop of `Parser::execute_program`, on the parser
state and the lines printed so far. -/
def execute_instruction (st : Parser × List Int) (inst : Instruction) :
    Res (Parser × List Int) :=
  let s := st.1
  match inst.type with
  | .INPUT =>
    match lookup_var s inst.var_name with
    | some var => do
      let x ← vec_read s.input_values s.current_input_index
      let s := { s with current_input_index := s.current_input_index + 1 }
      let mem ← vec_write s.mem var.location x
      pure ({ s with mem := mem }, st.2)
    | none => pure st
  | .OUTPUT =>
    match lookup_var s inst.var_name with
    | some var => do
      let x ← vec_read s.mem var.location
      pure (s, st.2 ++ [x])
    | none => pure st
  | .EVAL => do
    let arg_values ← collect_arg_values s inst.eval.arg_vars
    match lookup_var s inst.eval.target_var with
    | some var => do
      let mem ← vec_write s.mem var.location (evaluate_polynomial s inst.eval.poly_name arg_values)
      pure ({ s with mem := mem }, st.2)
    | none => pure st

/-- Function `Parser::execute_program`, returning the final state and the printed
output lines. -/
def execute_program (s : Parser) : Res (Parser × List Int) :=
  let s := { s with mem := resize s.mem 1000 0, current_input_index := 0 }
  s.instructions.foldlM execute_instruction (s, [])

/-- The function `main` up to the two diagnostic dumps: parse, report,
execute. -/
def main (fuel : Nat) (tokens : LexicalAnalyzer) : Res (Parser × List Int) := do
  let s ← ConsumeAllInput fuel (Parser.new tokens)
  execute_program s

/-! ## The grammar of polynomial bodies

Syntax trees for the productions `term_list`, `term`, `monomial_list`,
`monomial` and `primary`, each with the token sequence it stands for.  A
`Lex` is the text and the line of one token; the production fixes its type. -/

/-- The text and line of a token whose type is fixed by the grammar. -/
structure Lex where
  lexeme : String
  line_no : Int

/-- The token of type `ty` with that text and line. -/
def Lex.tok (x : Lex) (ty : TokenType) : Token := ⟨ty, x.lexeme, x.line_no⟩

mutual
/-- Production `term_list ::= term ( ('+'|'-') term )*`. -/
inductive GTermList where
  | single (t : GTerm)
  | cons (t : GTerm) (minus : Bool) (op : Lex) (rest : GTermList)
/-- Production `term ::= NUM [ monomial_list ] | monomial_list`. -/
inductive GTerm where
  | num (c : Lex)
  | numMon (c : Lex) (ml : GMonomialList)
  | mon (ml : GMonomialList)
/-- Production `monomial_list ::= monomial+`. -/
inductive GMonomialList where
  | single (m : GMonomial)
  | cons (m : GMonomial) (rest : GMonomialList)
/-- Production `monomial ::= primary [ '^' NUM ]`. -/
inductive GMonomial where
  | plain (p : GPrimary)
  | pow (p : GPrimary) (hat : Lex) (e : Lex)
/-- Production `primary ::= ID | '(' term_list ')'`. -/
inductive GPrimary where
  | id (x : Lex)
  | paren (lp : Lex) (tl : GTermList) (rp : Lex)
end

mutual
def GTermList.tokens : GTermList → List Token
  | .single t => t.tokens
  | .cons t minus op rest => t.tokens ++ op.tok (if minus then MINUS else PLUS) :: rest.tokens
def GTerm.tokens : GTerm → List Token
  | .num c => [c.tok NUM]
  | .numMon c ml => c.tok NUM :: ml.tokens
  | .mon ml => ml.tokens
def GMonomialList.tokens : GMonomialList → List Token
  | .single m => m.tokens
  | .cons m rest => m.tokens ++ rest.tokens
def GMonomial.tokens : GMonomial → List Token
  | .plain p => p.tokens
  | .pow p hat e => p.tokens ++ [hat.tok POWER, e.tok NUM]
def GPrimary.tokens : GPrimary → List Token
  | .id x => [x.tok ID]
  | .paren lp tl rp => lp.tok LPAREN :: (tl.tokens ++ [rp.tok RPAREN])
end

mutual
/-- Fuel that suffices to parse the tree. -/
def GTermList.need : GTermList → Nat
  | .single t => t.need + 1
  | .cons t _ _ rest => t.need + rest.need + 1
def GTerm.need : GTerm → Nat
  | .num _ => 1
  | .numMon _ ml => ml.need + 1
  | .mon ml => ml.need + 1
def GMonomialList.need : GMonomialList → Nat
  | .single m => m.need + 1
  | .cons m rest => m.need + rest.need + 1
def GMonomial.need : GMonomial → Nat
  | .plain p => p.need + 1
  | .pow p _ _ => p.need + 1
def GPrimary.need : GPrimary → Nat
  | .id _ => 1
  | .paren _ tl _ => tl.need + 1
end

/-- The negation `coefficient *= -1` of `parse_add_operator`. -/
def negate (term : Term) : Term := term.set_coefficient (wrap32 (term.coefficient * (-1)))

mutual
/-- What parsing the tree does to the pair (`current_coefficient`,
`current_poly.terms`). -/
def GTermList.eff : GTermList → Int × List Term → Int × List Term
  | .single t, a => t.eff a
  | .cons t minus _ rest, a =>
    let b := t.eff a
    rest.eff (b.1, if minus = true ∧ b.2.length > 0 then modify_back b.2 negate else b.2)
def GTerm.eff : GTerm → Int × List Term → Int × List Term
  | .num c, a => (atoi c.lexeme, a.2 ++ [.mk (atoi c.lexeme) true "" 0 .null])
  | .numMon c ml, a => ml.eff (atoi c.lexeme, a.2)
  | .mon ml, a => ml.eff (1, a.2)
def GMonomialList.eff : GMonomialList → Int × List Term → Int × List Term
  | .single m, a => m.eff a
  | .cons m rest, a => rest.eff (m.eff a)
def GMonomial.eff : GMonomial → Int × List Term → Int × List Term
  | .plain p, a => p.eff a
  | .pow p _ e, a =>
    let b := p.eff a
    (b.1, if ¬ b.2.isEmpty then modify_back b.2 (fun term => term.set_exponent (atoi e.lexeme))
          else b.2)
def GPrimary.eff : GPrimary → Int × List Term → Int × List Term
  | .id x, a => (a.1, a.2 ++ [.mk a.1 false x.lexeme 1 .null])
  | .paren _ tl _, a => tl.eff a
end

mutual
/-- The identifier occurrences of the tree, in source order. -/
def GTermList.ids : GTermList → List Lex
  | .single t => t.ids
  | .cons t _ _ rest => t.ids ++ rest.ids
def GTerm.ids : GTerm → List Lex
  | .num _ => []
  | .numMon _ ml => ml.ids
  | .mon ml => ml.ids
def GMonomialList.ids : GMonomialList → List Lex
  | .single m => m.ids
  | .cons m rest => m.ids ++ rest.ids
def GMonomial.ids : GMonomial → List Lex
  | .plain p => p.ids
  | .pow p _ _ => p.ids
def GPrimary.ids : GPrimary → List Lex
  | .id x => [x]
  | .paren _ tl _ => tl.ids
end

/-- The category-2 lines the identifier occurrences `xs` contribute: the lines
of those that are not valid for the last declaration of the table. -/
def monomial_errors (tbl : List PolynomialDecl) (xs : List Lex) : List Int :=
  if tbl.isEmpty then []
  else (xs.filter (fun x => ¬ is_valid_monomial x.lexeme (back tbl))).map (·.line_no)

/-- The parser state `s` with the four members a polynomial body touches
replaced. -/
def Parser.withBody (s : Parser) (lx : List Token) (cc : Int) (ts : List Term)
    (e2 : List Int) : Parser :=
  { s with
    lexer := lx
    current_coefficient := cc
    current_poly := { s.current_poly with terms := ts }
    semantic_error2 := { s.semantic_error2 with lines := e2 } }

/-- The type of the next token of a token sequence. -/
def headType (l : List Token) : TokenType := (LexicalAnalyzer.peek l 1).token_type

/-- What may follow a monomial list (and a term): no `^`, no identifier, no
`(`. -/
abbrev FollowML (rest : List Token) : Prop :=
  headType rest ≠ POWER ∧ headType rest ≠ ID ∧ headType rest ≠ LPAREN

/-- What may follow a term list: nothing that continues a term or adds one. -/
abbrev FollowTL (rest : List Token) : Prop :=
  FollowML rest ∧ headType rest ≠ PLUS ∧ headType rest ≠ MINUS

/-! ## The grammar of the POLY section -/

/-- Production `id_list ::= ID (',' ID)*`. -/
inductive GIdList where
  | single (x : Lex)
  | cons (x : Lex) (comma : Lex) (rest : GIdList)

def GIdList.tokens : GIdList → List Token
  | .single x => [x.tok ID]
  | .cons x comma rest => x.tok ID :: comma.tok COMMA :: rest.tokens

/-- The identifiers of the list, in order. -/
def GIdList.names : GIdList → List String
  | .single x => [x.lexeme]
  | .cons x _ rest => x.lexeme :: rest.names

def GIdList.need : GIdList → Nat
  | .single _ => 1
  | .cons _ _ rest => rest.need + 1

/-- Production `poly_decl ::= poly_header '=' term_list ';'` with
`poly_header ::= ID [ '(' id_list ')' ]`. -/
structure GPolyDecl where
  name : Lex
  params : Option (Lex × GIdList × Lex)
  eq : Lex
  body : GTermList
  semi : Lex

def GPolyDecl.header_tokens (d : GPolyDecl) : List Token :=
  d.name.tok ID ::
    match d.params with
    | none => []
    | some (lp, ids, rp) => lp.tok LPAREN :: (ids.tokens ++ [rp.tok RPAREN])

def GPolyDecl.tokens (d : GPolyDecl) : List Token :=
  d.header_tokens ++ d.eq.tok EQUAL :: (d.body.tokens ++ [d.semi.tok SEMICOLON])

def GPolyDecl.need (d : GPolyDecl) : Nat :=
  (match d.params with
    | none => 0
    | some (_, ids, _) => ids.need) + d.body.need

/-- The parameters of the declaration: the written list, or the single
implicit parameter `x`. -/
def GPolyDecl.parameters (d : GPolyDecl) : List String :=
  match d.params with
  | none => ["x"]
  | some (_, ids, _) => ids.names

/-- The entry of the declaration table the declaration leaves. -/
def GPolyDecl.entry (d : GPolyDecl) : PolynomialDecl :=
  { name := d.name.lexeme, line_no := d.name.line_no, parameters := d.parameters,
    has_explicit_params := d.params.isSome, terms := [] }

/-- The stored polynomial the declaration leaves. -/
def GPolyDecl.parsed (d : GPolyDecl) : ParsedPolynomial :=
  { name := d.name.lexeme, terms := (d.body.eff (1, [])).2, params := d.parameters }

/-- The category-2 lines of the declaration: the lines of the identifier
occurrences of its body that `is_valid_monomial` rejects. -/
def GPolyDecl.errors2 (d : GPolyDecl) : List Int :=
  (d.body.ids.filter (fun x => ¬ is_valid_monomial x.lexeme d.entry)).map (·.line_no)

/-- The parser state after the declaration `d` has been parsed in state `s`,
up to the token source. -/
def apply_decl (d : GPolyDecl) (s : Parser) : Parser :=
  { s with
    semantic_error := { s.semantic_error with
      lines := s.semantic_error.lines ++
        (if s.polynomial_table.any (fun poly => poly.name == d.name.lexeme) then [d.name.line_no]
         else []) }
    current_poly := d.parsed
    current_coefficient := (d.body.eff (1, [])).1
    polynomial_table := s.polynomial_table ++ [d.entry]
    parsed_polynomials := s.parsed_polynomials ++ [d.parsed]
    semantic_error2 := { s.semantic_error2 with lines := s.semantic_error2.lines ++ d.errors2 } }

/-- The tokens of a sequence of declarations. -/
def decls_tokens : List GPolyDecl → List Token
  | [] => []
  | d :: ds => d.tokens ++ decls_tokens ds

def decls_need : List GPolyDecl → Nat
  | [] => 0
  | d :: ds => d.need + decls_need ds + 1

/-- The parser state after the declarations have been parsed in turn, up to
the token source. -/
def apply_decls : List GPolyDecl → Parser → Parser
  | [], s => s
  | d :: ds, s => apply_decls ds (apply_decl d s)

/-! ## The grammar of the EXECUTE section -/

mutual
/-- Production `arg ::= ID | NUM | poly_eval`. -/
inductive GArg where
  | id (x : Lex)
  | num (n : Lex)
  | call (e : GEval)
/-- The argument list `arg (',' arg)*`. -/
inductive GArgList where
  | single (a : GArg)
  | cons (a : GArg) (comma : Lex) (rest : GArgList)
/-- Production `poly_eval ::= ID '(' arg (',' arg)* ')'`. -/
inductive GEval where
  | mk (name : Lex) (lp : Lex) (args : GArgList) (rp : Lex)
end

mutual
def GArg.tokens : GArg → List Token
  | .id x => [x.tok ID]
  | .num n => [n.tok NUM]
  | .call e => e.tokens
def GArgList.tokens : GArgList → List Token
  | .single a => a.tokens
  | .cons a comma rest => a.tokens ++ comma.tok COMMA :: rest.tokens
def GEval.tokens : GEval → List Token
  | .mk name lp args rp => name.tok ID :: lp.tok LPAREN :: (args.tokens ++ [rp.tok RPAREN])
end

mutual
def GArg.need : GArg → Nat
  | .id _ => 1
  | .num _ => 1
  | .call e => e.need + 1
def GArgList.need : GArgList → Nat
  | .single a => a.need + 1
  | .cons a _ rest => a.need + rest.need + 1
def GEval.need : GEval → Nat
  | .mk _ _ args _ => args.need + 1
end

/-- The number of arguments written in the list, nested evaluations counting
as one argument each. -/
def GArgList.count : GArgList → Int
  | .single _ => 1
  | .cons _ _ rest => 1 + rest.count

/-- The name token of the evaluation. -/
def GEval.name : GEval → Lex
  | .mk name _ _ _ => name

/-- A call site: the called name, the line of the name token and the number
of arguments written. -/
structure CallSite where
  name : String
  line_no : Int
  argc : Int

mutual
/-- The bare identifier arguments of the tree, in source order, those of
nested evaluations included. -/
def GArg.bare_ids : GArg → List String
  | .id x => [x.lexeme]
  | .num _ => []
  | .call e => e.bare_ids
def GArgList.bare_ids : GArgList → List String
  | .single a => a.bare_ids
  | .cons a _ rest => a.bare_ids ++ rest.bare_ids
def GEval.bare_ids : GEval → List String
  | .mk _ _ args _ => args.bare_ids
end

mutual
/-- The call sites of the tree, an evaluation before the evaluations nested in
its arguments (the order in which their names are read). -/
def GArg.sites : GArg → List CallSite
  | .id _ => []
  | .num _ => []
  | .call e => e.sites
def GArgList.sites : GArgList → List CallSite
  | .single a => a.sites
  | .cons a _ rest => a.sites ++ rest.sites
def GEval.sites : GEval → List CallSite
  | .mk name _ args _ => ⟨name.lexeme, name.line_no, args.count⟩ :: args.sites
end

mutual
/-- The call sites of the tree, an evaluation after the evaluations nested in
its arguments (the order in which their closing parentheses are read). -/
def GArg.sites_post : GArg → List CallSite
  | .id _ => []
  | .num _ => []
  | .call e => e.sites_post
def GArgList.sites_post : GArgList → List CallSite
  | .single a => a.sites_post
  | .cons a _ rest => a.sites_post ++ rest.sites_post
def GEval.sites_post : GEval → List CallSite
  | .mk name _ args _ => args.sites_post ++ [⟨name.lexeme, name.line_no, args.count⟩]
end

/-- The category-3 lines of the call sites under the declaration table: the
lines of the sites whose name no entry has. -/
def errors3 (tbl : List PolynomialDecl) (sites : List CallSite) : List Int :=
  (sites.filter (fun c => ¬ tbl.any (fun poly => poly.name == c.name))).map (·.line_no)

/-- The category-4 lines of the call sites under the declaration table: the
lines of the sites whose name has an entry, the first of which has another
number of parameters than the site has arguments. -/
def errors4 (tbl : List PolynomialDecl) (sites : List CallSite) : List Int :=
  (sites.filter (fun c =>
    match tbl.find? (fun poly => poly.name == c.name) with
    | some poly => decide ((poly.parameters.length : Int) ≠ c.argc)
    | none => false)).map (·.line_no)

/-- The parser state `s` with the four members a polynomial evaluation touches
replaced. -/
def Parser.withEval (s : Parser) (lx : List Token) (args : List String) (e3 e4 : List Int) :
    Parser :=
  { s with
    lexer := lx
    current_args := args
    semantic_error3 := { s.semantic_error3 with lines := e3 }
    semantic_error4 := { s.semantic_error4 with lines := e4 } }

/-- Production `stmt ::= 'input' ID ';' | 'output' ID ';' | ID '=' poly_eval ';'`. -/
inductive GStmt where
  | input (kw x semi : Lex)
  | output (kw x semi : Lex)
  | assign (target eq : Lex) (e : GEval) (semi : Lex)

def GStmt.tokens : GStmt → List Token
  | .input kw x semi => [kw.tok INPUT, x.tok ID, semi.tok SEMICOLON]
  | .output kw x semi => [kw.tok OUTPUT, x.tok ID, semi.tok SEMICOLON]
  | .assign target eq e semi =>
    target.tok ID :: eq.tok EQUAL :: (e.tokens ++ [semi.tok SEMICOLON])

def GStmt.need : GStmt → Nat
  | .input _ _ _ => 0
  | .output _ _ _ => 0
  | .assign _ _ e _ => e.need

/-- The call sites of a statement, outer before nested. -/
def GStmt.sites : GStmt → List CallSite
  | .assign _ _ e _ => e.sites
  | _ => []

/-- The call sites of a statement, nested before outer. -/
def GStmt.sites_post : GStmt → List CallSite
  | .assign _ _ e _ => e.sites_post
  | _ => []

/-- The symbol table and the next free slot after `allocate_variable` has been
called for `name`. -/
def alloc (name : String) (table : List VariableInfo) (next : Int) : List VariableInfo × Int :=
  match table.find? (fun var => var.name == name) with
  | some _ => (table, next)
  | none => (table ++ [{ location := next, name := name }], next + 1)

/-- The parser state after the statement has been parsed in state `s`, up to
the token source. -/
def apply_stmt (st : GStmt) (s : Parser) : Parser :=
  match st with
  | .input _ x _ =>
    { s with
      symbol_table := (alloc x.lexeme s.symbol_table s.next_available).1
      next_available := (alloc x.lexeme s.symbol_table s.next_available).2
      instructions := s.instructions ++ [{ type := .INPUT, var_name := x.lexeme }] }
  | .output _ x _ =>
    { s with instructions := s.instructions ++ [{ type := .OUTPUT, var_name := x.lexeme }] }
  | .assign target _ e _ =>
    { s with
      semantic_error3 := { s.semantic_error3 with
        lines := s.semantic_error3.lines ++ errors3 s.polynomial_table e.sites }
      semantic_error4 := { s.semantic_error4 with
        lines := s.semantic_error4.lines ++ errors4 s.polynomial_table e.sites_post }
      instructions := s.instructions ++
        [{ type := .EVAL
           eval := { target_var := target.lexeme, poly_name := e.name.lexeme,
                     arg_vars := s.current_args ++ e.bare_ids } }]
      symbol_table := (alloc target.lexeme s.symbol_table s.next_available).1
      next_available := (alloc target.lexeme s.symbol_table s.next_available).2
      current_args := [] }

def stmts_tokens : List GStmt → List Token
  | [] => []
  | st :: sts => st.tokens ++ stmts_tokens sts

def stmts_need : List GStmt → Nat
  | [] => 0
  | st :: sts => st.need + stmts_need sts + 1

/-- The parser state after the statements have been parsed in turn, up to the
token source. -/
def apply_stmts : List GStmt → Parser → Parser
  | [], s => s
  | st :: sts, s => apply_stmts sts (apply_stmt st s)

/-- What may follow a statement list: no token that starts a statement. -/
abbrev FollowStmts (rest : List Token) : Prop :=
  headType rest ≠ INPUT ∧ headType rest ≠ OUTPUT ∧ headType rest ≠ ID

/-! ## The grammar of a program -/

/-- The tokens of a list of numbers. -/
def nums_tokens (ns : List Lex) : List Token := ns.map (fun n => n.tok NUM)

/-- Production `program ::= TASKS num_list POLY poly_decl+ EXECUTE stmt+ INPUTS num_list`
followed by the end of the input; each non-empty list is given by its first
element and the rest. -/
structure GProgram where
  tasks_kw : Lex
  task0 : Lex
  tasks : List Lex
  poly_kw : Lex
  decl0 : GPolyDecl
  decls : List GPolyDecl
  execute_kw : Lex
  stmt0 : GStmt
  stmts : List GStmt
  inputs_kw : Lex
  input0 : Lex
  inputs : List Lex

/-- The declarations of the POLY section, in order. -/
def GProgram.all_decls (p : GProgram) : List GPolyDecl := p.decl0 :: p.decls

/-- The statements of the EXECUTE section, in order. -/
def GProgram.all_stmts (p : GProgram) : List GStmt := p.stmt0 :: p.stmts

/-- The numbers of the INPUTS section, in order. -/
def GProgram.all_inputs (p : GProgram) : List Lex := p.input0 :: p.inputs

def GProgram.tokens (p : GProgram) : List Token :=
  p.tasks_kw.tok TASKS :: (nums_tokens (p.task0 :: p.tasks) ++
    p.poly_kw.tok POLY :: (decls_tokens p.all_decls ++
      p.execute_kw.tok EXECUTE :: (stmts_tokens p.all_stmts ++
        p.inputs_kw.tok INPUTS :: nums_tokens p.all_inputs)))

def GProgram.need (p : GProgram) : Nat :=
  (p.tasks.length + 1) + decls_need p.all_decls + stmts_need p.all_stmts +
    (p.inputs.length + 1)

/-- The parser state at the end of the parsing phase of the program. -/
def GProgram.final (p : GProgram) : Parser :=
  { apply_stmts p.all_stmts (apply_decls p.all_decls (Parser.new [])) with
    input_values := p.all_inputs.map (fun n => atoi n.lexeme) }

/-! ## The semantic records a program should have

These follow the wording of the four checks, over the syntax tree of the
program, and do not refer to the parser. -/

/-- The declarations of `ds`, each paired with the list of the declarations
before it. -/
def with_earlier (ds : List GPolyDecl) : List (List GPolyDecl × GPolyDecl) :=
  ds.inits.zip ds

/-- The lines of the re-declarations: one entry, the line of its name, for
every declaration whose name an earlier declaration has. -/
def redeclaration_lines (ds : List GPolyDecl) : List Int :=
  ((with_earlier ds).filter
    (fun ed => ed.1.any (fun d' => d'.name.lexeme == ed.2.name.lexeme))).map
    (fun ed => ed.2.name.line_no)

/-- An identifier occurrence `x` is valid in the declaration `d`: it is one of
the parameters when the header has a parameter list, it is `x` when the header
has none. -/
def valid_use (d : GPolyDecl) (x : Lex) : Bool :=
  match d.params with
  | some (_, ids, _) => decide (x.lexeme ∈ ids.names)
  | none => decide (x.lexeme = "x")

/-- The lines of the identifier occurrences of the body of `d` that are not
valid in `d`, in source order. -/
def invalid_use_lines (d : GPolyDecl) : List Int :=
  (d.body.ids.filter (fun x => ¬ valid_use d x)).map (·.line_no)

/-- The call sites of the EXECUTE section in the order their names are read. -/
def GProgram.sites (p : GProgram) : List CallSite := p.all_stmts.flatMap GStmt.sites

/-- The call sites of the EXECUTE section in the order their argument lists
are closed. -/
def GProgram.sites_post (p : GProgram) : List CallSite := p.all_stmts.flatMap GStmt.sites_post

/-- The names declared in the POLY section. -/
def GProgram.declared (p : GProgram) : List String := p.all_decls.map (·.name.lexeme)

/-- The lines of the call sites whose name the POLY section does not declare. -/
def undeclared_call_lines (p : GProgram) : List Int :=
  (p.sites.filter (fun c => decide (c.name ∉ p.declared))).map (·.line_no)

/-- The declared parameter count of `name`: that of its (first) declaration,
1 for a declaration without a parameter list; none for an undeclared name. -/
def GProgram.arity (p : GProgram) (name : String) : Option Nat :=
  (p.all_decls.find? (fun d => d.name.lexeme == name)).map
    (fun d =>
      match d.params with
      | some (_, ids, _) => ids.names.length
      | none => 1)

/-- The lines of the call sites whose name is declared with a parameter count
other than the number of arguments written. -/
def wrong_count_lines (p : GProgram) : List Int :=
  (p.sites_post.filter (fun c =>
    match p.arity c.name with
    | some n => decide ((n : Int) ≠ c.argc)
    | none => false)).map (·.line_no)

/-! ## Single-variable polynomials -/

/-- A non-negative integer literal: its decimal digits, most significant
first, and its line. -/
structure NumLit where
  digits : List (Fin 10)
  line_no : Int

/-- The number the literal denotes. -/
def NumLit.value (n : NumLit) : Nat := n.digits.foldl (fun a d => 10 * a + d.val) 0

/-- The character of a decimal digit. -/
def digit_char (d : Fin 10) : Char := Char.ofNat (48 + d.val)

/-- The text of the literal. -/
def NumLit.lexeme (n : NumLit) : String := String.mk (n.digits.map digit_char)

/-- The `NUM` token text and line of the literal. -/
def NumLit.lex (n : NumLit) : Lex := ⟨n.lexeme, n.line_no⟩

/-- A term of one of the forms `c`, `c x`, `c x^e`, `x`, `x^e`; `x_line` is
the line of the identifier `x`, `hat` the `^` token. -/
inductive SimpleTerm where
  | const (c : NumLit)
  | cx (c : NumLit) (x_line : Int)
  | cxe (c : NumLit) (x_line : Int) (hat : Lex) (e : NumLit)
  | x (x_line : Int)
  | xe (x_line : Int) (hat : Lex) (e : NumLit)

/-- The syntax tree of the term. -/
def SimpleTerm.tree : SimpleTerm → GTerm
  | .const c => .num c.lex
  | .cx c l => .numMon c.lex (.single (.plain (.id ⟨"x", l⟩)))
  | .cxe c l hat e => .numMon c.lex (.single (.pow (.id ⟨"x", l⟩) hat e.lex))
  | .x l => .mon (.single (.plain (.id ⟨"x", l⟩)))
  | .xe l hat e => .mon (.single (.pow (.id ⟨"x", l⟩) hat e.lex))

/-- The coefficient of the term, 1 when none is written. -/
def SimpleTerm.coefficient : SimpleTerm → Nat
  | .const c => c.value
  | .cx c _ => c.value
  | .cxe c _ _ _ => c.value
  | .x _ => 1
  | .xe _ _ _ => 1

/-- The exponent of the term: 0 for a bare number, 1 when none is written. -/
def SimpleTerm.exponent : SimpleTerm → Nat
  | .const _ => 0
  | .cx _ _ => 1
  | .cxe _ _ _ e => e.value
  | .x _ => 1
  | .xe _ _ e => e.value

/-- The literals of the term fit the type `int`. -/
def SimpleTerm.in_range (t : SimpleTerm) : Prop :=
  t.coefficient < 2147483648 ∧ t.exponent < 2147483648

instance (t : SimpleTerm) : Decidable t.in_range := by
  unfold SimpleTerm.in_range
  infer_instance

/-- The term list `t0 + t1 + ... + tn`, each later term with its `+` token. -/
def simple_body : SimpleTerm → List (Lex × SimpleTerm) → GTermList
  | t0, [] => .single t0.tree
  | t0, (plus, t1) :: ts => .cons t0.tree false plus (simple_body t1 ts)

/-- The declaration `name = t0 + t1 + ... + tn ;`, without a parameter list. -/
def simple_decl (name eq semi : Lex) (t0 : SimpleTerm) (ts : List (Lex × SimpleTerm)) :
    GPolyDecl :=
  { name := name, params := none, eq := eq, body := simple_body t0 ts, semi := semi }

/-- The sum over the terms of `c * v^e`, in the integers. -/
def simple_sum (ts : List SimpleTerm) (v : Int) : Int :=
  (ts.map (fun t => (t.coefficient : Int) * v ^ t.exponent)).sum

/-- The term `parse_term` stores for a simple term. -/
def SimpleTerm.stored : SimpleTerm → Term
  | .const c => .mk (atoi c.lexeme) true "" 0 .null
  | .cx c _ => .mk (atoi c.lexeme) false "x" 1 .null
  | .cxe c _ _ e => .mk (atoi c.lexeme) false "x" (atoi e.lexeme) .null
  | .x _ => .mk 1 false "x" 1 .null
  | .xe _ _ e => .mk 1 false "x" (atoi e.lexeme) .null

/-- The body `2x^2 + 3x + 1`. -/
def sample_terms : SimpleTerm × List (Lex × SimpleTerm) :=
  (.cxe ⟨[2], 1⟩ 1 ⟨"^", 1⟩ ⟨[2], 1⟩,
   [(⟨"+", 1⟩, .cx ⟨[3], 1⟩ 1), (⟨"+", 1⟩, .const ⟨[1], 1⟩)])

/-- The literal `4294967296`, which is 2^32, on line 1. -/
def lit_two_pow_32 : NumLit := ⟨[4, 2, 9, 4, 9, 6, 7, 2, 9, 6], 1⟩

/-- The declaration `p = x^4294967296;`. -/
def decl_huge_exponent : GPolyDecl :=
  simple_decl ⟨"p", 1⟩ ⟨"=", 1⟩ ⟨";", 1⟩ (.xe 1 ⟨"^", 1⟩ lit_two_pow_32) []

/-- The declaration `p = 2x;` on line 2. -/
def decl_p_2x : GPolyDecl :=
  simple_decl ⟨"p", 2⟩ ⟨"=", 2⟩ ⟨";", 2⟩ (.cx ⟨[2], 2⟩ 2) []

/-- The declaration `p = x;` on line 1. -/
def decl_p_x_first : GPolyDecl :=
  simple_decl ⟨"p", 1⟩ ⟨"=", 1⟩ ⟨";", 1⟩ (.x 1) []

/-! ## A sample program -/

/-- The program
```
1  TASKS 1
2  POLY
3    p = x;
4    q(a,b) = a y;
5    p = 1;
6  EXECUTE
7    INPUT v;
8    w = q(v, r(1),
9          p(v, v));
10   OUTPUT w;
11 INPUTS 1 2
```
with a re-declaration on line 5, an invalid monomial on line 4, a call of the
undeclared `r` on line 8 and two calls with a wrong number of arguments, `q`
on line 8 and `p` on line 9. -/
def sample_program : GProgram where
  tasks_kw := ⟨"TASKS", 1⟩
  task0 := ⟨"1", 1⟩
  tasks := []
  poly_kw := ⟨"POLY", 2⟩
  decl0 :=
    { name := ⟨"p", 3⟩, params := none, eq := ⟨"=", 3⟩
      body := .single (.mon (.single (.plain (.id ⟨"x", 3⟩)))), semi := ⟨";", 3⟩ }
  decls :=
    [{ name := ⟨"q", 4⟩
       params := some (⟨"(", 4⟩, .cons ⟨"a", 4⟩ ⟨",", 4⟩ (.single ⟨"b", 4⟩), ⟨")", 4⟩)
       eq := ⟨"=", 4⟩
       body := .single (.mon (.cons (.plain (.id ⟨"a", 4⟩)) (.single (.plain (.id ⟨"y", 4⟩)))))
       semi := ⟨";", 4⟩ },
     { name := ⟨"p", 5⟩, params := none, eq := ⟨"=", 5⟩
       body := .single (.num ⟨"1", 5⟩), semi := ⟨";", 5⟩ }]
  execute_kw := ⟨"EXECUTE", 6⟩
  stmt0 := .input ⟨"INPUT", 7⟩ ⟨"v", 7⟩ ⟨";", 7⟩
  stmts :=
    [.assign ⟨"w", 8⟩ ⟨"=", 8⟩
      (.mk ⟨"q", 8⟩ ⟨"(", 8⟩
        (.cons (.id ⟨"v", 8⟩) ⟨",", 8⟩
          (.cons (.call (.mk ⟨"r", 8⟩ ⟨"(", 8⟩ (.single (.num ⟨"1", 8⟩)) ⟨")", 8⟩)) ⟨",", 8⟩
            (.single (.call (.mk ⟨"p", 9⟩ ⟨"(", 9⟩
              (.cons (.id ⟨"v", 9⟩) ⟨",", 9⟩ (.single (.id ⟨"v", 9⟩))) ⟨")", 9⟩)))))
        ⟨")", 9⟩)
      ⟨";", 9⟩,
     .output ⟨"OUTPUT", 10⟩ ⟨"w", 10⟩ ⟨";", 10⟩]
  inputs_kw := ⟨"INPUTS", 11⟩
  input0 := ⟨"1", 11⟩
  inputs := [⟨"2", 11⟩]

/-! ## Programs that show the execution defects -/

/-- The outcome of a run as far as it can be observed: the printed lines, or
the way the run ended. -/
def observed (r : Res (Parser × List Int)) : Except Exit (List Int) := r.map (·.2)

/-- The declaration `p = x;` on line 3. -/
def decl_p_x : GPolyDecl :=
  { name := ⟨"p", 3⟩, params := none, eq := ⟨"=", 3⟩
    body := .single (.mon (.single (.plain (.id ⟨"x", 3⟩)))), semi := ⟨";", 3⟩ }

/-- The program `TASKS 1 POLY p = x; EXECUTE INPUT a; INPUT b; OUTPUT a; INPUTS 7`:
two input statements, one number. -/
def prog_inputs_exhausted : GProgram where
  tasks_kw := ⟨"TASKS", 1⟩
  task0 := ⟨"1", 1⟩
  tasks := []
  poly_kw := ⟨"POLY", 2⟩
  decl0 := decl_p_x
  decls := []
  execute_kw := ⟨"EXECUTE", 4⟩
  stmt0 := .input ⟨"INPUT", 5⟩ ⟨"a", 5⟩ ⟨";", 5⟩
  stmts := [.input ⟨"INPUT", 6⟩ ⟨"b", 6⟩ ⟨";", 6⟩, .output ⟨"OUTPUT", 7⟩ ⟨"a", 7⟩ ⟨";", 7⟩]
  inputs_kw := ⟨"INPUTS", 8⟩
  input0 := ⟨"7", 8⟩
  inputs := []

/-- The program `TASKS 1 POLY p = x; EXECUTE INPUT a; OUTPUT b; OUTPUT a; INPUTS 7`:
the variable `b` occurs in an output statement only. -/
def prog_output_unallocated : GProgram where
  tasks_kw := ⟨"TASKS", 1⟩
  task0 := ⟨"1", 1⟩
  tasks := []
  poly_kw := ⟨"POLY", 2⟩
  decl0 := decl_p_x
  decls := []
  execute_kw := ⟨"EXECUTE", 4⟩
  stmt0 := .input ⟨"INPUT", 5⟩ ⟨"a", 5⟩ ⟨";", 5⟩
  stmts := [.output ⟨"OUTPUT", 6⟩ ⟨"b", 6⟩ ⟨";", 6⟩, .output ⟨"OUTPUT", 7⟩ ⟨"a", 7⟩ ⟨";", 7⟩]
  inputs_kw := ⟨"INPUTS", 8⟩
  input0 := ⟨"7", 8⟩
  inputs := []

/-- The program
`TASKS 1 POLY p(x,y) = x; EXECUTE INPUT c; a = p(b, c); OUTPUT a; INPUTS 9`:
the first argument `b` of the call has never been written. -/
def prog_arg_unallocated : GProgram where
  tasks_kw := ⟨"TASKS", 1⟩
  task0 := ⟨"1", 1⟩
  tasks := []
  poly_kw := ⟨"POLY", 2⟩
  decl0 :=
    { name := ⟨"p", 3⟩
      params := some (⟨"(", 3⟩, .cons ⟨"x", 3⟩ ⟨",", 3⟩ (.single ⟨"y", 3⟩), ⟨")", 3⟩)
      eq := ⟨"=", 3⟩
      body := .single (.mon (.single (.plain (.id ⟨"x", 3⟩)))), semi := ⟨";", 3⟩ }
  decls := []
  execute_kw := ⟨"EXECUTE", 4⟩
  stmt0 := .input ⟨"INPUT", 5⟩ ⟨"c", 5⟩ ⟨";", 5⟩
  stmts :=
    [.assign ⟨"a", 6⟩ ⟨"=", 6⟩
      (.mk ⟨"p", 6⟩ ⟨"(", 6⟩ (.cons (.id ⟨"b", 6⟩) ⟨",", 6⟩ (.single (.id ⟨"c", 6⟩))) ⟨")", 6⟩)
      ⟨";", 6⟩,
     .output ⟨"OUTPUT", 7⟩ ⟨"a", 7⟩ ⟨";", 7⟩]
  inputs_kw := ⟨"INPUTS", 8⟩
  input0 := ⟨"9", 8⟩
  inputs := []

/-! ## Symbol tables in first-use order -/

/-- The list of names with `n` added at the end unless it is there already. -/
def add_name (acc : List String) (n : String) : List String :=
  if n ∈ acc then acc else acc ++ [n]

/-- The names of `acc` followed by the names of the list that were not met
before, in the order of their first use. -/
def names_from (acc : List String) : List String → List String
  | [] => acc
  | n :: ns => names_from (add_name acc n) ns

/-- The symbol table that gives the names the slots `k`, `k + 1`, ... in
order. -/
def table_from (k : Nat) : List String → List VariableInfo
  | [] => []
  | n :: ns => { location := (k : Int), name := n } :: table_from (k + 1) ns

/-- The symbol table that gives the names the slots 0, 1, 2, ... in order. -/
def table_of (names : List String) : List VariableInfo := table_from 0 names

/-- The parser state after `allocate_variable` has been called for each of the
names in turn. -/
def allocate_all : List String → Parser → Parser
  | [], s => s
  | n :: ns, s => allocate_all ns (allocate_variable n s).2

/-! ## Instruction lists and execution prefixes -/

/-- The names for which the parser calls `allocate_variable` while it parses the
statement: the variable of an input statement and the target of an
assignment. -/
def GStmt.allocated : GStmt → List String
  | .input _ x _ => [x.lexeme]
  | .output _ _ _ => []
  | .assign target _ _ _ => [target.lexeme]

/-- The instruction a statement stands for: an assignment carries the bare
identifier arguments of its call. -/
def instruction_of : GStmt → Instruction
  | .input _ x _ => { type := .INPUT, var_name := x.lexeme }
  | .output _ x _ => { type := .OUTPUT, var_name := x.lexeme }
  | .assign target _ e _ =>
    { type := .EVAL
      eval := { target_var := target.lexeme, poly_name := e.name.lexeme,
                arg_vars := e.bare_ids } }

/-- The number of input statements in a list of statements. -/
def count_inputs : List GStmt → Nat
  | [] => 0
  | .input _ _ _ :: sts => count_inputs sts + 1
  | .output _ _ _ :: sts => count_inputs sts
  | .assign _ _ _ _ :: sts => count_inputs sts

/-- The loop of `Parser::execute_program` stopped after its first `k`
iterations. -/
def execute_first (k : Nat) (s : Parser) : Res (Parser × List Int) :=
  let s := { s with mem := resize s.mem 1000 0, current_input_index := 0 }
  (s.instructions.take k).foldlM execute_instruction (s, [])

/-- The program
`TASKS 1 POLY p(x,y) = x; q = x; EXECUTE INPUT c; a = p(b, q(3, c), 4, c); d = q(a); INPUTS 9`. -/
def prog_nested_arguments : GProgram where
  tasks_kw := ⟨"TASKS", 1⟩
  task0 := ⟨"1", 1⟩
  tasks := []
  poly_kw := ⟨"POLY", 2⟩
  decl0 :=
    { name := ⟨"p", 3⟩
      params := some (⟨"(", 3⟩, .cons ⟨"x", 3⟩ ⟨",", 3⟩ (.single ⟨"y", 3⟩), ⟨")", 3⟩)
      eq := ⟨"=", 3⟩
      body := .single (.mon (.single (.plain (.id ⟨"x", 3⟩))))
      semi := ⟨";", 3⟩ }
  decls := [decl_p_x]
  execute_kw := ⟨"EXECUTE", 4⟩
  stmt0 := .input ⟨"INPUT", 5⟩ ⟨"c", 5⟩ ⟨";", 5⟩
  stmts :=
    [.assign ⟨"a", 6⟩ ⟨"=", 6⟩
      (.mk ⟨"p", 6⟩ ⟨"(", 6⟩
        (.cons (.id ⟨"b", 6⟩) ⟨",", 6⟩
          (.cons (.call (.mk ⟨"q", 6⟩ ⟨"(", 6⟩
              (.cons (.num ⟨"3", 6⟩) ⟨",", 6⟩ (.single (.id ⟨"c", 6⟩))) ⟨")", 6⟩)) ⟨",", 6⟩
            (.cons (.num ⟨"4", 6⟩) ⟨",", 6⟩ (.single (.id ⟨"c", 6⟩)))))
        ⟨")", 6⟩) ⟨";", 6⟩,
     .assign ⟨"d", 7⟩ ⟨"=", 7⟩
      (.mk ⟨"q", 7⟩ ⟨"(", 7⟩ (.single (.id ⟨"a", 7⟩)) ⟨")", 7⟩) ⟨";", 7⟩]
  inputs_kw := ⟨"INPUTS", 8⟩
  input0 := ⟨"9", 8⟩
  inputs := []

/-- The state of the loop of `execute_program` between two iterations, as far
as the iterations depend on it: the symbol table, the stored input values, a
memory of 1000 slots, and the input cursor. -/
def Ready (table : List VariableInfo) (values : List Int) (c : Nat) (s : Parser) : Prop :=
  s.symbol_table = table ∧ s.input_values = values ∧ s.mem.length = 1000 ∧
    s.current_input_index = (c : Int)

/-- The state in which the loop of `execute_program` starts: the memory
resized to 1000 slots and the input cursor at 0. -/
def start_state (s : Parser) : Parser :=
  { s with mem := resize s.mem 1000 0, current_input_index := 0 }

/-- The program
`TASKS 1 POLY p = x; EXECUTE INPUT a; INPUT b; a = p(b); OUTPUT a; INPUTS 7 8`. -/
def prog_two_inputs : GProgram where
  tasks_kw := ⟨"TASKS", 1⟩
  task0 := ⟨"1", 1⟩
  tasks := []
  poly_kw := ⟨"POLY", 2⟩
  decl0 := decl_p_x
  decls := []
  execute_kw := ⟨"EXECUTE", 4⟩
  stmt0 := .input ⟨"INPUT", 5⟩ ⟨"a", 5⟩ ⟨";", 5⟩
  stmts :=
    [.input ⟨"INPUT", 6⟩ ⟨"b", 6⟩ ⟨";", 6⟩,
     .assign ⟨"a", 7⟩ ⟨"=", 7⟩
       (.mk ⟨"p", 7⟩ ⟨"(", 7⟩ (.single (.id ⟨"b", 7⟩)) ⟨")", 7⟩) ⟨";", 7⟩,
     .output ⟨"OUTPUT", 8⟩ ⟨"a", 8⟩ ⟨";", 8⟩]
  inputs_kw := ⟨"INPUTS", 9⟩
  input0 := ⟨"7", 9⟩
  inputs := [⟨"8", 9⟩]

/-- The variable name made of `i + 1` letters `a`. -/
def unary_name (i : Nat) : String := String.mk (List.replicate (i + 1) 'a')

/-- The statement `INPUT aa..a;` with `i + 1` letters, on line 5. -/
def input_stmt (i : Nat) : GStmt := .input ⟨"INPUT", 5⟩ ⟨unary_name i, 5⟩ ⟨";", 5⟩

/-- The program `TASKS 1 POLY p = x; EXECUTE INPUT a; INPUT aa; ... INPUTS 1 1 ... 1`
with `n + 1` input statements, each on a variable of its own, and `n + 1`
numbers. -/
def prog_many_inputs (n : Nat) : GProgram where
  tasks_kw := ⟨"TASKS", 1⟩
  task0 := ⟨"1", 1⟩
  tasks := []
  poly_kw := ⟨"POLY", 2⟩
  decl0 := decl_p_x
  decls := []
  execute_kw := ⟨"EXECUTE", 4⟩
  stmt0 := input_stmt 0
  stmts := (List.range n).map (fun i => input_stmt (i + 1))
  inputs_kw := ⟨"INPUTS", 6⟩
  input0 := ⟨"1", 6⟩
  inputs := List.replicate n ⟨"1", 6⟩

/-! ## Term lists as the evaluator reads them -/

/-- A parser state in the middle of the body `2x^3 ...` with the stored terms
`5`, `2x^3` and the operator token `op` next. -/
def state_before_operator (op : Token) : Parser :=
  { lexer := [op, ⟨NUM, "1", 3⟩, ⟨SEMICOLON, ";", 3⟩]
    current_poly :=
      { name := "p"
        terms := [.mk 5 true "" 0 .null, .mk 2 false "x" 3 .null]
        params := ["x"] } }

/-! ## Concrete declarations used as test inputs -/

/-- A token of the given type and text on line 1. -/
def tok (ty : TokenType) (lx : String) : Token := ⟨ty, lx, 1⟩

/-- The declaration `p = x - 1;`. -/
def decl_x_minus_1 : List Token :=
  [tok ID "p", tok EQUAL "=", tok ID "x", tok MINUS "-", tok NUM "1", tok SEMICOLON ";"]

/-- The declaration `p(x,y) = 2xy;`. -/
def decl_2xy : List Token :=
  [tok ID "p", tok LPAREN "(", tok ID "x", tok COMMA ",", tok ID "y", tok RPAREN ")",
   tok EQUAL "=", tok NUM "2", tok ID "x", tok ID "y", tok SEMICOLON ";"]

/-- The declaration `q(x) = (x+1)(x+1);`. -/
def decl_sq_product : List Token :=
  [tok ID "q", tok LPAREN "(", tok ID "x", tok RPAREN ")", tok EQUAL "=",
   tok LPAREN "(", tok ID "x", tok PLUS "+", tok NUM "1", tok RPAREN ")",
   tok LPAREN "(", tok ID "x", tok PLUS "+", tok NUM "1", tok RPAREN ")", tok SEMICOLON ";"]

/-- The declaration `q(x) = (x+1)^2;`. -/
def decl_sq_power : List Token :=
  [tok ID "q", tok LPAREN "(", tok ID "x", tok RPAREN ")", tok EQUAL "=",
   tok LPAREN "(", tok ID "x", tok PLUS "+", tok NUM "1", tok RPAREN ")",
   tok POWER "^", tok NUM "2", tok SEMICOLON ";"]

/-- The value `evaluate_polynomial` gives for `name` and `args` after
`parse_poly_decl` has read the declaration `decl` in a fresh parser. -/
def value_after_decl (decl : List Token) (name : String) (args : List Int) : Res Int :=
  (parse_poly_decl (decl.length + 1) (Parser.new decl)).map
    (fun s => evaluate_polynomial s name args)

/-- The record of category `n` (1 to 4) in a parser state. -/
def record (s : Parser) (n : Int) : List Int :=
  if n = 1 then s.semantic_error.lines
  else if n = 2 then s.semantic_error2.lines
  else if n = 3 then s.semantic_error3.lines
  else if n = 4 then s.semantic_error4.lines
  else []

/-! ## Outcomes of the parsing functions -/

/-- The outcomes a parsing function may have on the tokens `before`: it
returns with a phrase of `lang` consumed, it ends in the syntax fault, or (in
the model only) it runs out of fuel, and then `short` holds. -/
def Recognised (lang : List Token → Prop) (short : Prop) (before : List Token) :
    Res Parser → Prop
  | .ok s' => ∃ ts, lang ts ∧ before = ts ++ s'.lexer
  | .error e => e = .syntax_error ∨ (e = .out_of_fuel ∧ short)

/-- The way a run ended when it did not return. -/
def fault {α : Type} : Res α → Option Exit
  | .ok _ => none
  | .error e => some e

/-- A program with an invalid monomial on line 3 and a call of an undeclared
polynomial on line 5:
`TASKS 1 POLY p = y; EXECUTE a = q(a); INPUTS 1`. -/
def prog_two_categories : List Token :=
  [⟨TASKS, "TASKS", 1⟩, ⟨NUM, "1", 1⟩, ⟨POLY, "POLY", 2⟩,
   ⟨ID, "p", 3⟩, ⟨EQUAL, "=", 3⟩, ⟨ID, "y", 3⟩, ⟨SEMICOLON, ";", 3⟩,
   ⟨EXECUTE, "EXECUTE", 4⟩,
   ⟨ID, "a", 5⟩, ⟨EQUAL, "=", 5⟩, ⟨ID, "q", 5⟩, ⟨LPAREN, "(", 5⟩, ⟨ID, "a", 5⟩,
   ⟨RPAREN, ")", 5⟩, ⟨SEMICOLON, ";", 5⟩,
   ⟨INPUTS, "INPUTS", 6⟩, ⟨NUM, "1", 6⟩]

/-- The program
`TASKS 1 POLY p = x; EXECUTE INPUT a; INPUTS 2147483648 4294967296 9223372036854775808 99999999999999999999`. -/
def prog_large_inputs : List Token :=
  [⟨TASKS, "TASKS", 1⟩, ⟨NUM, "1", 1⟩, ⟨POLY, "POLY", 2⟩,
   ⟨ID, "p", 3⟩, ⟨EQUAL, "=", 3⟩, ⟨ID, "x", 3⟩, ⟨SEMICOLON, ";", 3⟩,
   ⟨EXECUTE, "EXECUTE", 4⟩, ⟨INPUT, "INPUT", 5⟩, ⟨ID, "a", 5⟩, ⟨SEMICOLON, ";", 5⟩,
   ⟨INPUTS, "INPUTS", 6⟩, ⟨NUM, "2147483648", 6⟩, ⟨NUM, "4294967296", 6⟩,
   ⟨NUM, "9223372036854775808", 6⟩, ⟨NUM, "99999999999999999999", 6⟩]

/-- The program `TASKS 1 POLY p = ; EXECUTE INPUT a; INPUTS 1`, whose declaration has
no body. -/
def prog_missing_body : List Token :=
  [⟨TASKS, "TASKS", 1⟩, ⟨NUM, "1", 1⟩, ⟨POLY, "POLY", 2⟩,
   ⟨ID, "p", 3⟩, ⟨EQUAL, "=", 3⟩, ⟨SEMICOLON, ";", 3⟩,
   ⟨EXECUTE, "EXECUTE", 4⟩, ⟨INPUT, "INPUT", 5⟩, ⟨ID, "a", 5⟩, ⟨SEMICOLON, ";", 5⟩,
   ⟨INPUTS, "INPUTS", 6⟩, ⟨NUM, "1", 6⟩]

/-- The tokens of `prog_two_categories` followed by a stray `;` on line 6. -/
def prog_fault_after_violations : List Token :=
  prog_two_categories ++ [⟨SEMICOLON, ";", 6⟩]

/-! ## Theorems -/

/-- C2 (code evaluated at the failing input): `p = x - 1;` evaluated with
`x = 5` gives `-4`, because the `-` negates the term before it. -/
theorem C2_x_minus_1_at_5 : value_after_decl decl_x_minus_1 "p" [5] = .ok (-4) := by
  decide!

/-- C3 (code evaluated at the failing input): `p(x,y) = 2xy;` evaluated with
`(3,4)` gives `14 = 2*3 + 2*4`, not the product `24`. -/
theorem C3_2xy_at_3_4 : value_after_decl decl_2xy "p" [3, 4] = .ok 14 := by
  decide!

/-- C4 (code evaluated at the failing input): with the argument `2`, where
`(v+1)*(v+1) = 9`, `q(x) = (x+1)(x+1);` evaluates to `6` and
`q(x) = (x+1)^2;` evaluates to `3`. -/
theorem C4_squares_at_2 :
    value_after_decl decl_sq_product "q" [2] = .ok 6 ∧
    value_after_decl decl_sq_power "q" [2] = .ok 3 := by
  decide!

/-! ### The deferred report (C9, C10) -/

theorem report_phase_eq (s : Parser) :
    report_phase s =
      if s.semantic_error.lines ≠ [] then .error (.semantic_error 1 (sort s.semantic_error.lines))
      else if s.semantic_error2.lines ≠ [] then
        .error (.semantic_error 2 (sort s.semantic_error2.lines))
      else if s.semantic_error3.lines ≠ [] then
        .error (.semantic_error 3 (sort s.semantic_error3.lines))
      else if s.semantic_error4.lines ≠ [] then
        .error (.semantic_error 4 (sort s.semantic_error4.lines))
      else .ok s := by
  unfold report_phase SemanticError.reportError
  cases h1 : s.semantic_error.lines <;> cases h2 : s.semantic_error2.lines <;>
    cases h3 : s.semantic_error3.lines <;> cases h4 : s.semantic_error4.lines <;> rfl

/-- C9: after a successful parse, if some record is non-empty then the run
ends with the single report of the smallest category `n` whose record is
non-empty (its sorted lines, nothing of the other records) and the program is
not executed; if all four records are empty nothing is reported and `main`
goes on to execute the program. -/
theorem C9_lowest_category_reported (fuel : Nat) (tokens : List Token) (s : Parser)
    (h : parse_phase fuel (Parser.new tokens) = .ok s) :
    (∀ n : Int, 1 ≤ n → n ≤ 4 → record s n ≠ [] →
        (∀ m : Int, 1 ≤ m → m < n → record s m = []) →
        ConsumeAllInput fuel (Parser.new tokens) = .error (.semantic_error n (sort (record s n))) ∧
        main fuel tokens = .error (.semantic_error n (sort (record s n)))) ∧
    ((∀ n : Int, 1 ≤ n → n ≤ 4 → record s n = []) →
        ConsumeAllInput fuel (Parser.new tokens) = .ok s ∧
        main fuel tokens = execute_program s) := by
  have hc : ConsumeAllInput fuel (Parser.new tokens) = report_phase s := by
    simp [ConsumeAllInput, h, bind, Except.bind]
  have hm : main fuel tokens = (report_phase s).bind execute_program := by
    simp [main, hc, bind]
  constructor
  · intro n h1 h4 hn hlow
    have e1 := hlow 1 (by decide)
    have e2 := hlow 2 (by decide)
    have e3 := hlow 3 (by decide)
    rw [hm, hc, report_phase_eq]
    obtain rfl | rfl | rfl | rfl : n = 1 ∨ n = 2 ∨ n = 3 ∨ n = 4 := by omega
    · simp [record] at hn
      simp [record, hn, Except.bind]
    · simp [record] at hn e1
      simp [record, hn, e1, Except.bind]
    · simp [record] at hn e1 e2
      simp [record, hn, e1, e2, Except.bind]
    · simp [record] at hn e1 e2 e3
      simp [record, hn, e1, e2, e3, Except.bind]
  · intro hall
    have e1 := hall 1 (by decide) (by decide)
    have e2 := hall 2 (by decide) (by decide)
    have e3 := hall 3 (by decide) (by decide)
    have e4 := hall 4 (by decide) (by decide)
    simp [record] at e1 e2 e3 e4
    rw [hm, hc, report_phase_eq]
    simp [e1, e2, e3, e4, Except.bind]

/-- C9 at a program whose category-2 and category-3 records are both
non-empty: the report is the one of category 2. -/
theorem C9_lowest_category_reported_witness :
    ∃ s, parse_phase 20 (Parser.new prog_two_categories) = .ok s ∧
      record s 1 = [] ∧ record s 2 = [3] ∧ record s 3 = [5] ∧
      main 20 prog_two_categories = .error (.semantic_error 2 (sort (record s 2))) := by
  have hok : (parse_phase 20 (Parser.new prog_two_categories)).map
      (fun s => (record s 1, record s 2, record s 3)) = .ok ([], [3], [5]) := by decide!
  cases hp : parse_phase 20 (Parser.new prog_two_categories) with
  | error e => rw [hp] at hok; cases hok
  | ok s =>
    rw [hp] at hok
    simp only [Except.map, Except.ok.injEq, Prod.mk.injEq] at hok
    obtain ⟨h1, h2, h3⟩ := hok
    refine ⟨s, rfl, h1, h2, h3, ?_⟩
    refine ((C9_lowest_category_reported 20 prog_two_categories s hp).1 2 (by decide)
      (by decide) (by simp [h2]) ?_).2
    intro m hm1 hm2
    obtain rfl : m = 1 := by omega
    exact h1

/-- C10: on a non-empty record `reportError` prints (and exits with) a
sequence of lines that is sorted ascending and is a permutation of the
recorded lines. -/
theorem C10_report_sorted_permutation (e : SemanticError) (code : Int) (h : e.lines ≠ []) :
    ∃ printed, e.reportError code = .error (.semantic_error code printed) ∧
      printed.Sorted (· ≤ ·) ∧ printed.Perm e.lines := by
  refine ⟨sort e.lines, ?_, List.sorted_insertionSort _ _, List.perm_insertionSort _ _⟩
  cases hl : e.lines with
  | nil => exact absurd hl h
  | cons a l => simp [SemanticError.reportError, hl]

/-- C10 at the record `[7, 3, 7, 1]`: the printed lines are `[1, 3, 7, 7]`. -/
theorem C10_report_sorted_permutation_witness :
    ∃ printed, ({ lines := [7, 3, 7, 1] } : SemanticError).reportError 1
        = .error (.semantic_error 1 printed) ∧
      printed.Sorted (· ≤ ·) ∧ printed.Perm [7, 3, 7, 1] :=
  C10_report_sorted_permutation { lines := [7, 3, 7, 1] } 1 (by decide)

/-! ### Parsing a polynomial body -/

@[simp] theorem peek_cons (t : Token) (l : List Token) : LexicalAnalyzer.peek (t :: l) 1 = t := rfl

@[simp] theorem peek_cons_two (t u : Token) (l : List Token) :
    LexicalAnalyzer.peek (t :: u :: l) 2 = u := rfl

@[simp] theorem peek_nil (k : Nat) : LexicalAnalyzer.peek [] k = eofToken := by
  simp [LexicalAnalyzer.peek]

@[simp] theorem headType_cons (t : Token) (l : List Token) : headType (t :: l) = t.token_type := rfl

@[simp] theorem tok_type (x : Lex) (ty : TokenType) : (x.tok ty).token_type = ty := rfl

@[simp] theorem tok_lexeme (x : Lex) (ty : TokenType) : (x.tok ty).lexeme = x.lexeme := rfl

@[simp] theorem tok_line (x : Lex) (ty : TokenType) : (x.tok ty).line_no = x.line_no := rfl

@[simp] theorem withBody_lexer (s : Parser) (lx : List Token) (cc : Int) (ts : List Term)
    (e2 : List Int) : (s.withBody lx cc ts e2).lexer = lx := rfl

@[simp] theorem withBody_table (s : Parser) (lx : List Token) (cc : Int) (ts : List Term)
    (e2 : List Int) : (s.withBody lx cc ts e2).polynomial_table = s.polynomial_table := rfl

@[simp] theorem withBody_withBody (s : Parser) (lx lx' : List Token) (cc cc' : Int)
    (ts ts' : List Term) (e2 e2' : List Int) :
    (s.withBody lx cc ts e2).withBody lx' cc' ts' e2' = s.withBody lx' cc' ts' e2' := rfl

theorem expect_withBody (ty : TokenType) (s : Parser) (t : Token) (l : List Token) (cc : Int)
    (ts : List Term) (e2 : List Int) :
    expect ty (s.withBody (t :: l) cc ts e2) =
      if t.token_type = ty then .ok (t, s.withBody l cc ts e2) else .error .syntax_error := by
  unfold expect
  by_cases h : t.token_type = ty
  · simp [LexicalAnalyzer.GetToken, h, syntax_error]
    rfl
  · simp [LexicalAnalyzer.GetToken, h, syntax_error]

theorem monomial_errors_nil (tbl : List PolynomialDecl) : monomial_errors tbl [] = [] := by
  simp [monomial_errors]

theorem monomial_errors_append (tbl : List PolynomialDecl) (xs ys : List Lex) :
    monomial_errors tbl (xs ++ ys) = monomial_errors tbl xs ++ monomial_errors tbl ys := by
  unfold monomial_errors
  split <;> simp

theorem headType_primary (p : GPrimary) (rest : List Token) :
    headType (p.tokens ++ rest) = ID ∨ headType (p.tokens ++ rest) = LPAREN := by
  cases p <;> simp [GPrimary.tokens]

theorem headType_monomial (m : GMonomial) (rest : List Token) :
    headType (m.tokens ++ rest) = ID ∨ headType (m.tokens ++ rest) = LPAREN := by
  cases m with
  | plain p => simpa [GMonomial.tokens] using headType_primary p rest
  | pow p hat e => simpa [GMonomial.tokens] using headType_primary p _

theorem headType_monomial_list (ml : GMonomialList) (rest : List Token) :
    headType (ml.tokens ++ rest) = ID ∨ headType (ml.tokens ++ rest) = LPAREN := by
  cases ml with
  | single m => simpa [GMonomialList.tokens] using headType_monomial m rest
  | cons m r => simpa [GMonomialList.tokens] using headType_monomial m _

theorem parse_coefficient_withBody (s : Parser) (c : Lex) (rest : List Token) (cc : Int)
    (ts : List Term) (e2 : List Int) :
    parse_coefficient (s.withBody (c.tok NUM :: rest) cc ts e2) =
      .ok (if headType rest ≠ ID ∧ headType rest ≠ LPAREN then
            s.withBody rest (atoi c.lexeme) (ts ++ [.mk (atoi c.lexeme) true "" 0 .null]) e2
          else s.withBody rest (atoi c.lexeme) ts e2) := by
  unfold parse_coefficient
  simp only [expect_withBody, tok_type, if_true, bind, Except.bind, tok_lexeme]
  by_cases h : headType rest ≠ ID ∧ headType rest ≠ LPAREN
  · rw [if_pos h]
    have h' : ¬ (LexicalAnalyzer.peek rest 1).token_type = ID ∧
        ¬ (LexicalAnalyzer.peek rest 1).token_type = LPAREN := h
    simp [Parser.withBody, h', pure, Except.pure]
  · rw [if_neg h]
    have h' : ¬ (¬ (LexicalAnalyzer.peek rest 1).token_type = ID ∧
        ¬ (LexicalAnalyzer.peek rest 1).token_type = LPAREN) := h
    simp [Parser.withBody, h', pure, Except.pure]

theorem parse_exponent_withBody (s : Parser) (hat e : Lex) (rest : List Token) (cc : Int)
    (ts : List Term) (e2 : List Int) :
    parse_exponent (s.withBody (hat.tok POWER :: e.tok NUM :: rest) cc ts e2) =
      .ok (s.withBody rest cc
        (if ¬ ts.isEmpty then modify_back ts (fun term => term.set_exponent (atoi e.lexeme))
         else ts) e2) := by
  unfold parse_exponent
  simp only [expect_withBody, tok_type, if_true, bind, Except.bind, tok_lexeme]
  by_cases h : ts.isEmpty <;> simp [Parser.withBody, h, pure, Except.pure]

theorem parse_add_operator_withBody (s : Parser) (minus : Bool) (op : Lex) (rest : List Token)
    (cc : Int) (ts : List Term) (e2 : List Int) :
    parse_add_operator (s.withBody (op.tok (if minus then MINUS else PLUS) :: rest) cc ts e2) =
      .ok (s.withBody rest cc
        (if minus = true ∧ ts.length > 0 then modify_back ts negate else ts) e2) := by
  unfold parse_add_operator
  have hn : negate = fun term => term.set_coefficient (wrap32 (-term.coefficient)) := by
    funext term
    simp [negate]
  cases minus <;> by_cases h : ts.length > 0 <;>
    simp [Parser.withBody, LexicalAnalyzer.GetToken, h, pure, Except.pure, hn]

theorem parse_primary_id (f : Nat) (s : Parser) (x : Lex) (rest : List Token) (cc : Int)
    (ts : List Term) (e2 : List Int) :
    parse_primary (f + 1) (s.withBody (x.tok ID :: rest) cc ts e2) =
      .ok (s.withBody rest cc (ts ++ [.mk cc false x.lexeme 1 .null])
        (e2 ++ monomial_errors s.polynomial_table [x])) := by
  rw [parse_primary]
  simp only [withBody_lexer, peek_cons, tok_type, if_true, expect_withBody, bind, Except.bind,
    tok_lexeme, tok_line, withBody_table]
  unfold monomial_errors check_invalid_monomial
  by_cases h1 : s.polynomial_table.isEmpty
  · simp [h1, Parser.withBody, pure, Except.pure]
  · by_cases h2 : is_valid_monomial x.lexeme (back s.polynomial_table)
      <;> simp [h1, h2, Parser.withBody, pure, Except.pure]

mutual
theorem parse_term_list_tree : ∀ (tl : GTermList) (fuel : Nat) (s : Parser) (rest : List Token)
    (cc : Int) (ts : List Term) (e2 : List Int), tl.need ≤ fuel → FollowTL rest →
    parse_term_list fuel (s.withBody (tl.tokens ++ rest) cc ts e2) =
      .ok (s.withBody rest (tl.eff (cc, ts)).1 (tl.eff (cc, ts)).2
        (e2 ++ monomial_errors s.polynomial_table tl.ids))
  | .single t, fuel, s, rest, cc, ts, e2, hf, hr => by
    simp only [GTermList.need] at hf
    obtain ⟨f, rfl⟩ : ∃ f, fuel = f + 1 := ⟨fuel - 1, by omega⟩
    rw [parse_term_list]
    simp only [GTermList.tokens, GTermList.eff, GTermList.ids]
    rw [parse_term_tree t f s rest cc ts e2 (by omega) hr.1]
    have h1 : ¬ ((LexicalAnalyzer.peek rest 1).token_type = PLUS ∨
        (LexicalAnalyzer.peek rest 1).token_type = MINUS) := by
      intro h
      rcases h with h | h
      · exact hr.2.1 h
      · exact hr.2.2 h
    simp [bind, Except.bind, h1, pure, Except.pure]
  | .cons t minus op r, fuel, s, rest, cc, ts, e2, hf, hr => by
    simp only [GTermList.need] at hf
    obtain ⟨f, rfl⟩ : ∃ f, fuel = f + 1 := ⟨fuel - 1, by omega⟩
    rw [parse_term_list]
    simp only [GTermList.tokens, List.append_assoc, List.cons_append]
    rw [parse_term_tree t f s _ cc ts e2 (by omega) (by cases minus <;> simp [FollowML])]
    have h1 : (op.tok (if minus = true then MINUS else PLUS)).token_type = PLUS ∨
        (op.tok (if minus = true then MINUS else PLUS)).token_type = MINUS := by
      cases minus <;> simp
    simp only [bind, Except.bind, withBody_lexer, peek_cons, h1, if_true]
    rw [parse_add_operator_withBody]
    simp only []
    rw [parse_term_list_tree r f s rest _ _ _ (by omega) hr]
    simp [GTermList.eff, GTermList.ids, monomial_errors_append]

theorem parse_term_tree : ∀ (t : GTerm) (fuel : Nat) (s : Parser) (rest : List Token)
    (cc : Int) (ts : List Term) (e2 : List Int), t.need ≤ fuel → FollowML rest →
    parse_term fuel (s.withBody (t.tokens ++ rest) cc ts e2) =
      .ok (s.withBody rest (t.eff (cc, ts)).1 (t.eff (cc, ts)).2
        (e2 ++ monomial_errors s.polynomial_table t.ids))
  | .num c, fuel, s, rest, cc, ts, e2, hf, hr => by
    simp only [GTerm.need] at hf
    obtain ⟨f, rfl⟩ : ∃ f, fuel = f + 1 := ⟨fuel - 1, by omega⟩
    rw [parse_term]
    simp only [GTerm.tokens, List.cons_append, List.nil_append, withBody_lexer, peek_cons,
      tok_type, if_true, parse_coefficient_withBody, bind, Except.bind]
    have h1 : headType rest ≠ ID ∧ headType rest ≠ LPAREN := ⟨hr.2.1, hr.2.2⟩
    have h2 : ¬ ((LexicalAnalyzer.peek rest 1).token_type = ID ∨
        (LexicalAnalyzer.peek rest 1).token_type = LPAREN) := by
      intro h
      rcases h with h | h
      · exact hr.2.1 h
      · exact hr.2.2 h
    simp [h1, h2, GTerm.eff, GTerm.ids, monomial_errors_nil, pure, Except.pure]
  | .numMon c ml, fuel, s, rest, cc, ts, e2, hf, hr => by
    simp only [GTerm.need] at hf
    obtain ⟨f, rfl⟩ : ∃ f, fuel = f + 1 := ⟨fuel - 1, by omega⟩
    rw [parse_term]
    simp only [GTerm.tokens, List.cons_append, withBody_lexer, peek_cons,
      tok_type, if_true, parse_coefficient_withBody, bind, Except.bind]
    have h0 := headType_monomial_list ml rest
    have h1 : ¬ (headType (ml.tokens ++ rest) ≠ ID ∧ headType (ml.tokens ++ rest) ≠ LPAREN) := by
      intro h
      rcases h0 with h0 | h0
      · exact h.1 h0
      · exact h.2 h0
    rw [if_neg h1]
    have h2 : (LexicalAnalyzer.peek (ml.tokens ++ rest) 1).token_type = ID ∨
        (LexicalAnalyzer.peek (ml.tokens ++ rest) 1).token_type = LPAREN := h0
    simp only [withBody_lexer, h2, if_true]
    rw [parse_monomial_list_tree ml f s rest _ _ _ (by omega) hr]
    simp [GTerm.eff, GTerm.ids]
  | .mon ml, fuel, s, rest, cc, ts, e2, hf, hr => by
    simp only [GTerm.need] at hf
    obtain ⟨f, rfl⟩ : ∃ f, fuel = f + 1 := ⟨fuel - 1, by omega⟩
    rw [parse_term]
    have h0 := headType_monomial_list ml rest
    have h1 : ¬ (LexicalAnalyzer.peek (ml.tokens ++ rest) 1).token_type = NUM := by
      intro h
      rcases h0 with h0 | h0
      · rw [headType, h] at h0
        cases h0
      · rw [headType, h] at h0
        cases h0
    simp only [GTerm.tokens, withBody_lexer, h1, if_false]
    show parse_monomial_list f (s.withBody (ml.tokens ++ rest) 1 ts e2) = _
    rw [parse_monomial_list_tree ml f s rest _ _ _ (by omega) hr]
    simp [GTerm.eff, GTerm.ids]

theorem parse_monomial_list_tree : ∀ (ml : GMonomialList) (fuel : Nat) (s : Parser)
    (rest : List Token) (cc : Int) (ts : List Term) (e2 : List Int), ml.need ≤ fuel →
    FollowML rest →
    parse_monomial_list fuel (s.withBody (ml.tokens ++ rest) cc ts e2) =
      .ok (s.withBody rest (ml.eff (cc, ts)).1 (ml.eff (cc, ts)).2
        (e2 ++ monomial_errors s.polynomial_table ml.ids))
  | .single m, fuel, s, rest, cc, ts, e2, hf, hr => by
    simp only [GMonomialList.need] at hf
    obtain ⟨f, rfl⟩ : ∃ f, fuel = f + 1 := ⟨fuel - 1, by omega⟩
    rw [parse_monomial_list]
    simp only [GMonomialList.tokens]
    rw [parse_monomial_tree m f s rest cc ts e2 (by omega) hr.1]
    have h2 : ¬ ((LexicalAnalyzer.peek rest 1).token_type = ID ∨
        (LexicalAnalyzer.peek rest 1).token_type = LPAREN) := by
      intro h
      rcases h with h | h
      · exact hr.2.1 h
      · exact hr.2.2 h
    simp [bind, Except.bind, h2, GMonomialList.eff, GMonomialList.ids, pure, Except.pure]
  | .cons m r, fuel, s, rest, cc, ts, e2, hf, hr => by
    simp only [GMonomialList.need] at hf
    obtain ⟨f, rfl⟩ : ∃ f, fuel = f + 1 := ⟨fuel - 1, by omega⟩
    rw [parse_monomial_list]
    simp only [GMonomialList.tokens, List.append_assoc]
    have h0 := headType_monomial_list r rest
    have hpow : headType (r.tokens ++ rest) ≠ POWER := by
      intro h
      rcases h0 with h0 | h0
      · rw [h] at h0
        cases h0
      · rw [h] at h0
        cases h0
    rw [parse_monomial_tree m f s _ cc ts e2 (by omega) hpow]
    have h2 : (LexicalAnalyzer.peek (r.tokens ++ rest) 1).token_type = ID ∨
        (LexicalAnalyzer.peek (r.tokens ++ rest) 1).token_type = LPAREN := h0
    simp only [bind, Except.bind, withBody_lexer, h2, if_true]
    rw [parse_monomial_list_tree r f s rest _ _ _ (by omega) hr]
    simp [GMonomialList.eff, GMonomialList.ids, monomial_errors_append]

theorem parse_monomial_tree : ∀ (m : GMonomial) (fuel : Nat) (s : Parser)
    (rest : List Token) (cc : Int) (ts : List Term) (e2 : List Int), m.need ≤ fuel →
    headType rest ≠ POWER →
    parse_monomial fuel (s.withBody (m.tokens ++ rest) cc ts e2) =
      .ok (s.withBody rest (m.eff (cc, ts)).1 (m.eff (cc, ts)).2
        (e2 ++ monomial_errors s.polynomial_table m.ids))
  | .plain p, fuel, s, rest, cc, ts, e2, hf, hr => by
    simp only [GMonomial.need] at hf
    obtain ⟨f, rfl⟩ : ∃ f, fuel = f + 1 := ⟨fuel - 1, by omega⟩
    rw [parse_monomial]
    simp only [GMonomial.tokens]
    rw [parse_primary_tree p f s rest cc ts e2 (by omega)]
    have h2 : ¬ (LexicalAnalyzer.peek rest 1).token_type = POWER := hr
    simp [bind, Except.bind, h2, GMonomial.eff, GMonomial.ids, pure, Except.pure]
  | .pow p hat e, fuel, s, rest, cc, ts, e2, hf, _ => by
    simp only [GMonomial.need] at hf
    obtain ⟨f, rfl⟩ : ∃ f, fuel = f + 1 := ⟨fuel - 1, by omega⟩
    rw [parse_monomial]
    simp only [GMonomial.tokens, List.append_assoc, List.cons_append, List.nil_append]
    rw [parse_primary_tree p f s _ cc ts e2 (by omega)]
    simp only [bind, Except.bind, withBody_lexer, peek_cons, tok_type, if_true,
      parse_exponent_withBody]
    simp [GMonomial.eff, GMonomial.ids]

theorem parse_primary_tree : ∀ (p : GPrimary) (fuel : Nat) (s : Parser)
    (rest : List Token) (cc : Int) (ts : List Term) (e2 : List Int), p.need ≤ fuel →
    parse_primary fuel (s.withBody (p.tokens ++ rest) cc ts e2) =
      .ok (s.withBody rest (p.eff (cc, ts)).1 (p.eff (cc, ts)).2
        (e2 ++ monomial_errors s.polynomial_table p.ids))
  | .id x, fuel, s, rest, cc, ts, e2, hf => by
    simp only [GPrimary.need] at hf
    obtain ⟨f, rfl⟩ : ∃ f, fuel = f + 1 := ⟨fuel - 1, by omega⟩
    simp [GPrimary.tokens, parse_primary_id, GPrimary.eff, GPrimary.ids]
  | .paren lp tl rp, fuel, s, rest, cc, ts, e2, hf => by
    simp only [GPrimary.need] at hf
    obtain ⟨f, rfl⟩ : ∃ f, fuel = f + 1 := ⟨fuel - 1, by omega⟩
    rw [parse_primary]
    simp only [GPrimary.tokens, List.cons_append, List.append_assoc, withBody_lexer, peek_cons,
      tok_type, expect_withBody, if_true, bind, Except.bind, List.nil_append]
    rw [parse_term_list_tree tl f s _ _ _ _ (by omega) (by simp [FollowTL, FollowML])]
    simp [expect_withBody, GPrimary.eff, GPrimary.ids, pure, Except.pure]
end

/-! ### Parsing a declaration -/

theorem modify_back_append {α : Type} (v : List α) (a : α) (f : α → α) :
    modify_back (v ++ [a]) f = v ++ [f a] := by
  simp [modify_back]

theorem back_append {α : Type} [Inhabited α] (v : List α) (a : α) : back (v ++ [a]) = a := by
  simp [back]

theorem expect_cons (ty : TokenType) (s : Parser) (t : Token) (l : List Token)
    (h : s.lexer = t :: l) :
    expect ty s =
      if t.token_type = ty then .ok (t, { s with lexer := l }) else .error .syntax_error := by
  unfold expect
  by_cases h' : t.token_type = ty
  · simp [LexicalAnalyzer.GetToken, h, h', syntax_error]
  · simp [LexicalAnalyzer.GetToken, h, h', syntax_error]

theorem parse_id_list_tree : ∀ (ids : GIdList) (fuel : Nat) (s : Parser) (rp : Lex)
    (rest : List Token) (tbl : List PolynomialDecl) (e : PolynomialDecl), ids.need ≤ fuel →
    parse_id_list fuel
        { s with lexer := ids.tokens ++ rp.tok RPAREN :: rest, polynomial_table := tbl ++ [e] } =
      .ok { s with
        lexer := rp.tok RPAREN :: rest
        polynomial_table := tbl ++ [{ e with parameters := e.parameters ++ ids.names }] }
  | .single x, fuel, s, rp, rest, tbl, e, hf => by
    simp only [GIdList.need] at hf
    obtain ⟨f, rfl⟩ : ∃ f, fuel = f + 1 := ⟨fuel - 1, by omega⟩
    rw [parse_id_list]
    rw [expect_cons ID _ (x.tok ID) (rp.tok RPAREN :: rest) rfl]
    simp [bind, Except.bind, modify_back_append, GIdList.names, pure, Except.pure]
  | .cons x comma r, fuel, s, rp, rest, tbl, e, hf => by
    simp only [GIdList.need] at hf
    obtain ⟨f, rfl⟩ : ∃ f, fuel = f + 1 := ⟨fuel - 1, by omega⟩
    rw [parse_id_list]
    rw [expect_cons ID _ (x.tok ID) (comma.tok COMMA :: (r.tokens ++ rp.tok RPAREN :: rest)) rfl]
    simp only [tok_type, if_true, bind, Except.bind, peek_cons, modify_back_append]
    rw [expect_cons COMMA _ (comma.tok COMMA) (r.tokens ++ rp.tok RPAREN :: rest) rfl]
    simp only [tok_type, if_true]
    have := parse_id_list_tree r f s rp rest tbl
      { e with parameters := e.parameters ++ [x.lexeme] } (by omega)
    simp only [GIdList.names, List.append_assoc, List.singleton_append] at this ⊢
    exact this

theorem parse_id_list_state (ids : GIdList) (fuel : Nat) (s : Parser) (rp : Lex)
    (rest : List Token) (tbl : List PolynomialDecl) (e : PolynomialDecl) (hf : ids.need ≤ fuel)
    (h1 : s.lexer = ids.tokens ++ rp.tok RPAREN :: rest) (h2 : s.polynomial_table = tbl ++ [e]) :
    parse_id_list fuel s =
      .ok { s with
        lexer := rp.tok RPAREN :: rest
        polynomial_table := tbl ++ [{ e with parameters := e.parameters ++ ids.names }] } := by
  have key := parse_id_list_tree ids fuel s rp rest tbl e hf
  rw [← h1, ← h2] at key
  exact key

theorem parse_term_list_state (tl : GTermList) (fuel : Nat) (s : Parser) (rest : List Token)
    (hf : tl.need ≤ fuel) (hr : FollowTL rest) (h : s.lexer = tl.tokens ++ rest) :
    parse_term_list fuel s =
      .ok (s.withBody rest (tl.eff (s.current_coefficient, s.current_poly.terms)).1
        (tl.eff (s.current_coefficient, s.current_poly.terms)).2
        (s.semantic_error2.lines ++ monomial_errors s.polynomial_table tl.ids)) := by
  have key := parse_term_list_tree tl fuel s rest s.current_coefficient s.current_poly.terms
    s.semantic_error2.lines hf hr
  have e : s.withBody (tl.tokens ++ rest) s.current_coefficient s.current_poly.terms
      s.semantic_error2.lines = s := by
    rw [← h]
    rfl
  rwa [e] at key

theorem monomial_errors_back (tbl : List PolynomialDecl) (e : PolynomialDecl) (xs : List Lex) :
    monomial_errors (tbl ++ [e]) xs =
      (xs.filter (fun x => ¬ is_valid_monomial x.lexeme e)).map (·.line_no) := by
  simp [monomial_errors, back_append]

theorem check_duplicate_polynomial_eq (name : String) (line_no : Int) (s : Parser) :
    check_duplicate_polynomial name line_no s =
      { s with semantic_error := { s.semantic_error with
          lines := s.semantic_error.lines ++
            (if s.polynomial_table.any (fun poly => poly.name == name) then [line_no] else []) } } := by
  unfold check_duplicate_polynomial
  split <;> simp

theorem parse_poly_decl_tree (d : GPolyDecl) (fuel : Nat) (s : Parser) (rest : List Token)
    (hf : d.need ≤ fuel) (h : s.lexer = d.tokens ++ rest) :
    parse_poly_decl fuel s = .ok { apply_decl d s with lexer := rest } := by
  obtain ⟨name, params, eq, body, semi⟩ := d
  cases s
  simp only at h
  subst h
  unfold parse_poly_decl parse_poly_header parse_poly_name parse_poly_body
  cases params with
  | none =>
    simp only [GPolyDecl.need] at hf
    simp only [check_duplicate_polynomial_eq, GPolyDecl.tokens, GPolyDecl.header_tokens,
      List.cons_append, List.nil_append, List.append_assoc, peek_cons, tok_lexeme, tok_line]
    rw [expect_cons ID _ (name.tok ID) _ rfl]
    have hne : ¬ (EQUAL = LPAREN) := by decide
    simp only [tok_type, if_true, bind, Except.bind, peek_cons, modify_back_append, hne, if_false,
      pure, Except.pure]
    rw [expect_cons EQUAL _ (eq.tok EQUAL) _ rfl]
    simp only [tok_type, if_true]
    rw [parse_term_list_state body fuel _ (semi.tok SEMICOLON :: rest) (by omega)
      (by simp [FollowTL, FollowML]) rfl]
    simp only [expect_withBody, tok_type, if_true]
    simp [Parser.withBody, apply_decl, back_append, GPolyDecl.parsed, GPolyDecl.entry,
      GPolyDecl.parameters, monomial_errors_back, GPolyDecl.errors2]
  | some ps =>
    obtain ⟨lp, ids, rp⟩ := ps
    simp only [GPolyDecl.need] at hf
    simp only [check_duplicate_polynomial_eq, GPolyDecl.tokens, GPolyDecl.header_tokens,
      List.cons_append, List.nil_append, List.append_assoc, peek_cons, tok_lexeme, tok_line]
    rw [expect_cons ID _ (name.tok ID) _ rfl]
    simp only [tok_type, if_true, bind, Except.bind, peek_cons, modify_back_append,
      pure, Except.pure]
    rw [expect_cons LPAREN _ (lp.tok LPAREN) _ rfl]
    simp only [tok_type, if_true]
    rw [parse_id_list_state ids fuel _ rp _ _ _ (by omega) rfl rfl]
    simp only []
    rw [expect_cons RPAREN _ (rp.tok RPAREN) _ rfl]
    simp only [tok_type, if_true]
    rw [expect_cons EQUAL _ (eq.tok EQUAL) _ rfl]
    simp only [tok_type, if_true]
    rw [parse_term_list_state body fuel _ (semi.tok SEMICOLON :: rest) (by omega)
      (by simp [FollowTL, FollowML]) rfl]
    simp only [expect_withBody, tok_type, if_true]
    simp [Parser.withBody, apply_decl, back_append, GPolyDecl.parsed, GPolyDecl.entry,
      GPolyDecl.parameters, monomial_errors_back, GPolyDecl.errors2]

theorem apply_decl_lexer (d : GPolyDecl) (s : Parser) (l : List Token) :
    apply_decl d { s with lexer := l } = { apply_decl d s with lexer := l } := rfl

theorem apply_decls_lexer : ∀ (ds : List GPolyDecl) (s : Parser) (l : List Token),
    apply_decls ds { s with lexer := l } = { apply_decls ds s with lexer := l }
  | [], _, _ => rfl
  | d :: ds, s, l => by
    simp only [apply_decls]
    rw [apply_decl_lexer, apply_decls_lexer ds]

theorem headType_decl (d : GPolyDecl) (rest : List Token) : headType (d.tokens ++ rest) = ID := by
  simp [GPolyDecl.tokens, GPolyDecl.header_tokens]

theorem parse_poly_decl_list_tree : ∀ (ds : List GPolyDecl) (d : GPolyDecl) (fuel : Nat)
    (s : Parser) (rest : List Token), decls_need (d :: ds) ≤ fuel → headType rest ≠ ID →
    s.lexer = decls_tokens (d :: ds) ++ rest →
    parse_poly_decl_list fuel s = .ok { apply_decls (d :: ds) s with lexer := rest }
  | [], d, fuel, s, rest, hf, hr, h => by
    simp only [decls_need] at hf
    obtain ⟨f, rfl⟩ : ∃ f, fuel = f + 1 := ⟨fuel - 1, by omega⟩
    rw [parse_poly_decl_list]
    simp only [decls_tokens, List.append_nil] at h
    rw [parse_poly_decl_tree d f s rest (by omega) h]
    have h1 : ¬ (LexicalAnalyzer.peek rest 1).token_type = ID := hr
    simp [bind, Except.bind, h1, apply_decls, pure, Except.pure]
  | d' :: ds, d, fuel, s, rest, hf, hr, h => by
    simp only [decls_need] at hf
    obtain ⟨f, rfl⟩ : ∃ f, fuel = f + 1 := ⟨fuel - 1, by omega⟩
    rw [parse_poly_decl_list]
    have h' : s.lexer = d.tokens ++ (decls_tokens (d' :: ds) ++ rest) := by
      rw [h]
      simp [decls_tokens]
    rw [parse_poly_decl_tree d f s _ (by omega) h']
    have h1 : (LexicalAnalyzer.peek (decls_tokens (d' :: ds) ++ rest) 1).token_type = ID := by
      have := headType_decl d' (decls_tokens ds ++ rest)
      simpa [decls_tokens, headType] using this
    simp only [bind, Except.bind, h1, if_true]
    rw [parse_poly_decl_list_tree ds d' f _ rest (by simp only [decls_need]; omega) hr rfl]
    have e := apply_decls_lexer (d' :: ds) (apply_decl d s) (decls_tokens (d' :: ds) ++ rest)
    rw [e]
    rfl

/-! ### Parsing a statement -/

@[simp] theorem withEval_lexer (s : Parser) (lx : List Token) (args : List String)
    (e3 e4 : List Int) : (s.withEval lx args e3 e4).lexer = lx := rfl

@[simp] theorem withEval_table (s : Parser) (lx : List Token) (args : List String)
    (e3 e4 : List Int) : (s.withEval lx args e3 e4).polynomial_table = s.polynomial_table := rfl

theorem expect_withEval (ty : TokenType) (s : Parser) (t : Token) (l : List Token)
    (args : List String) (e3 e4 : List Int) :
    expect ty (s.withEval (t :: l) args e3 e4) =
      if t.token_type = ty then .ok (t, s.withEval l args e3 e4) else .error .syntax_error :=
  expect_cons ty _ t l rfl

theorem peek_two_eq (t : Token) (l : List Token) :
    (LexicalAnalyzer.peek (t :: l) 2).token_type = headType l := by
  cases l <;> rfl

theorem errors3_append (tbl : List PolynomialDecl) (xs ys : List CallSite) :
    errors3 tbl (xs ++ ys) = errors3 tbl xs ++ errors3 tbl ys := by
  simp [errors3]

theorem errors3_cons (tbl : List PolynomialDecl) (c : CallSite) (cs : List CallSite) :
    errors3 tbl (c :: cs) = errors3 tbl [c] ++ errors3 tbl cs :=
  errors3_append tbl [c] cs

theorem errors4_append (tbl : List PolynomialDecl) (xs ys : List CallSite) :
    errors4 tbl (xs ++ ys) = errors4 tbl xs ++ errors4 tbl ys := by
  simp [errors4]

theorem check_undeclared_withEval (name : String) (line_no : Int) (s : Parser) (lx : List Token)
    (args : List String) (e3 e4 : List Int) (argc : Int) :
    check_undeclared_polynomial name line_no (s.withEval lx args e3 e4) =
      s.withEval lx args (e3 ++ errors3 s.polynomial_table [⟨name, line_no, argc⟩]) e4 := by
  unfold check_undeclared_polynomial errors3
  by_cases h : s.polynomial_table.any (fun poly => poly.name == name)
  · have h' := h
    simp only [List.any_eq_true, beq_iff_eq] at h'
    simp [h, h', Parser.withEval]
  · have h' := h
    simp only [List.any_eq_true, beq_iff_eq, not_exists, not_and] at h'
    simp [h, List.filter_cons, Parser.withEval]
    rw [if_pos h']
    rfl

theorem check_wrong_number_withEval (name : String) (line_no : Int) (s : Parser)
    (lx : List Token) (args : List String) (e3 e4 : List Int) (argc : Int) :
    check_wrong_number_of_arguments name line_no argc (s.withEval lx args e3 e4) =
      s.withEval lx args e3 (e4 ++ errors4 s.polynomial_table [⟨name, line_no, argc⟩]) := by
  unfold check_wrong_number_of_arguments errors4
  simp only [withEval_table]
  cases h : s.polynomial_table.find? (fun poly => poly.name == name) with
  | none => simp [h, Parser.withEval]
  | some poly =>
    by_cases h2 : (poly.parameters.length : Int) = argc
    · simp [h, h2, Parser.withEval]
    · simp [h, h2, Parser.withEval]

mutual
theorem parse_poly_evaluation_tree : ∀ (e : GEval) (fuel : Nat) (s : Parser) (rest : List Token)
    (args : List String) (e3 e4 : List Int), e.need ≤ fuel →
    parse_poly_evaluation fuel (s.withEval (e.tokens ++ rest) args e3 e4) =
      .ok (s.withEval rest (args ++ e.bare_ids) (e3 ++ errors3 s.polynomial_table e.sites)
        (e4 ++ errors4 s.polynomial_table e.sites_post))
  | .mk name lp al rp, fuel, s, rest, args, e3, e4, hf => by
    simp only [GEval.need] at hf
    obtain ⟨f, rfl⟩ : ∃ f, fuel = f + 1 := ⟨fuel - 1, by omega⟩
    rw [parse_poly_evaluation]
    simp only [GEval.tokens, List.cons_append, List.append_assoc, List.nil_append,
      expect_withEval, tok_type, if_true, bind, Except.bind, tok_lexeme, tok_line]
    rw [check_undeclared_withEval _ _ _ _ _ _ _ al.count]
    simp only [expect_withEval, tok_type, if_true]
    rw [parse_argument_list_tree al f s _ _ _ _ (by omega) (by simp) (by simp)]
    simp only [expect_withEval, tok_type, if_true, pure, Except.pure]
    rw [check_wrong_number_withEval]
    simp only [GEval.bare_ids, GEval.sites, GEval.sites_post, errors4_append, List.append_assoc]
    rw [errors3_cons s.polynomial_table _ al.sites]

theorem parse_argument_list_tree : ∀ (al : GArgList) (fuel : Nat) (s : Parser)
    (rest : List Token) (args : List String) (e3 e4 : List Int), al.need ≤ fuel →
    headType rest ≠ COMMA → headType rest ≠ LPAREN →
    parse_argument_list fuel (s.withEval (al.tokens ++ rest) args e3 e4) =
      .ok (al.count, s.withEval rest (args ++ al.bare_ids)
        (e3 ++ errors3 s.polynomial_table al.sites)
        (e4 ++ errors4 s.polynomial_table al.sites_post))
  | .single a, fuel, s, rest, args, e3, e4, hf, hc, hl => by
    simp only [GArgList.need] at hf
    obtain ⟨f, rfl⟩ : ∃ f, fuel = f + 1 := ⟨fuel - 1, by omega⟩
    rw [parse_argument_list]
    simp only [GArgList.tokens]
    rw [parse_argument_tree a f s rest _ _ _ (by omega) hl]
    have h1 : ¬ (LexicalAnalyzer.peek rest 1).token_type = COMMA := hc
    simp [bind, Except.bind, h1, pure, Except.pure, GArgList.count, GArgList.bare_ids,
      GArgList.sites, GArgList.sites_post]
  | .cons a comma r, fuel, s, rest, args, e3, e4, hf, hc, hl => by
    simp only [GArgList.need] at hf
    obtain ⟨f, rfl⟩ : ∃ f, fuel = f + 1 := ⟨fuel - 1, by omega⟩
    rw [parse_argument_list]
    simp only [GArgList.tokens, List.append_assoc, List.cons_append]
    rw [parse_argument_tree a f s _ _ _ _ (by omega) (by simp)]
    simp only [bind, Except.bind, withEval_lexer, peek_cons, tok_type, if_true, expect_withEval]
    rw [parse_argument_list_tree r f s rest _ _ _ (by omega) hc hl]
    simp [pure, Except.pure, GArgList.count, GArgList.bare_ids, GArgList.sites,
      GArgList.sites_post, errors3_append, errors4_append]

theorem parse_argument_tree : ∀ (a : GArg) (fuel : Nat) (s : Parser) (rest : List Token)
    (args : List String) (e3 e4 : List Int), a.need ≤ fuel → headType rest ≠ LPAREN →
    parse_argument fuel (s.withEval (a.tokens ++ rest) args e3 e4) =
      .ok (s.withEval rest (args ++ a.bare_ids) (e3 ++ errors3 s.polynomial_table a.sites)
        (e4 ++ errors4 s.polynomial_table a.sites_post))
  | .id x, fuel, s, rest, args, e3, e4, hf, hl => by
    simp only [GArg.need] at hf
    obtain ⟨f, rfl⟩ : ∃ f, fuel = f + 1 := ⟨fuel - 1, by omega⟩
    rw [parse_argument]
    simp only [GArg.tokens, List.cons_append, List.nil_append, withEval_lexer, peek_cons,
      tok_type, if_true, peek_two_eq, hl, if_false, expect_withEval, bind, Except.bind]
    simp [pure, Except.pure, GArg.bare_ids, GArg.sites, GArg.sites_post, errors3, errors4,
      Parser.withEval]
  | .num n, fuel, s, rest, args, e3, e4, hf, _ => by
    simp only [GArg.need] at hf
    obtain ⟨f, rfl⟩ : ∃ f, fuel = f + 1 := ⟨fuel - 1, by omega⟩
    rw [parse_argument]
    have hne : ¬ (NUM = ID) := by decide
    simp only [GArg.tokens, List.cons_append, List.nil_append, withEval_lexer, peek_cons,
      tok_type, hne, if_true, if_false, expect_withEval, bind, Except.bind]
    simp [pure, Except.pure, GArg.bare_ids, GArg.sites, GArg.sites_post, errors3, errors4]
  | .call e, fuel, s, rest, args, e3, e4, hf, _ => by
    simp only [GArg.need] at hf
    obtain ⟨f, rfl⟩ : ∃ f, fuel = f + 1 := ⟨fuel - 1, by omega⟩
    rw [parse_argument]
    have h1 : (LexicalAnalyzer.peek (e.tokens ++ rest) 1).token_type = ID := by
      cases e
      simp [GEval.tokens]
    have h2 : (LexicalAnalyzer.peek (e.tokens ++ rest) 2).token_type = LPAREN := by
      cases e
      simp [GEval.tokens]
    simp only [GArg.tokens, withEval_lexer, h1, h2, if_true]
    rw [parse_poly_evaluation_tree e f s rest _ _ _ (by omega)]
    simp [GArg.bare_ids, GArg.sites, GArg.sites_post]
end

theorem parse_poly_evaluation_state (e : GEval) (fuel : Nat) (s : Parser) (rest : List Token)
    (hf : e.need ≤ fuel) (h : s.lexer = e.tokens ++ rest) :
    parse_poly_evaluation fuel s =
      .ok (s.withEval rest (s.current_args ++ e.bare_ids)
        (s.semantic_error3.lines ++ errors3 s.polynomial_table e.sites)
        (s.semantic_error4.lines ++ errors4 s.polynomial_table e.sites_post)) := by
  have key := parse_poly_evaluation_tree e fuel s rest s.current_args s.semantic_error3.lines
    s.semantic_error4.lines hf
  have e' : s.withEval (e.tokens ++ rest) s.current_args s.semantic_error3.lines
      s.semantic_error4.lines = s := by
    rw [← h]
    rfl
  rwa [e'] at key

theorem allocate_variable_eq (name : String) (s : Parser) :
    (allocate_variable name s).2 =
      { s with
        symbol_table := (alloc name s.symbol_table s.next_available).1
        next_available := (alloc name s.symbol_table s.next_available).2 } := by
  unfold allocate_variable alloc
  cases s.symbol_table.find? (fun var => var.name == name) <;> rfl

theorem apply_stmt_lexer (st : GStmt) (s : Parser) (l : List Token) :
    apply_stmt st { s with lexer := l } = { apply_stmt st s with lexer := l } := by
  cases st <;> rfl

theorem parse_statement_tree (st : GStmt) (fuel : Nat) (s : Parser) (rest : List Token)
    (hf : st.need ≤ fuel) (h : s.lexer = st.tokens ++ rest) :
    parse_statement fuel s = .ok { apply_stmt st s with lexer := rest } := by
  have hs : s = { s with lexer := st.tokens ++ rest } := by
    rw [← h]
  rw [hs, apply_stmt_lexer]
  unfold parse_statement
  cases st with
  | input kw x semi =>
    simp only [GStmt.tokens, List.cons_append, List.nil_append, peek_cons, tok_type, if_true]
    unfold parse_input_statement
    rw [expect_cons INPUT _ (kw.tok INPUT) _ rfl]
    simp only [tok_type, if_true, bind, Except.bind]
    rw [expect_cons ID _ (x.tok ID) _ rfl]
    simp only [tok_type, if_true]
    rw [expect_cons SEMICOLON _ (semi.tok SEMICOLON) _ rfl]
    simp only [tok_type, if_true, tok_lexeme, pure, Except.pure, apply_stmt,
      allocate_variable_eq]
  | output kw x semi =>
    have hne : ¬ (OUTPUT = INPUT) := by decide
    simp only [GStmt.tokens, List.cons_append, List.nil_append, peek_cons, tok_type, hne,
      if_true, if_false]
    unfold parse_output_statement
    rw [expect_cons OUTPUT _ (kw.tok OUTPUT) _ rfl]
    simp only [tok_type, if_true, bind, Except.bind]
    rw [expect_cons ID _ (x.tok ID) _ rfl]
    simp only [tok_type, if_true]
    rw [expect_cons SEMICOLON _ (semi.tok SEMICOLON) _ rfl]
    simp only [tok_type, if_true, tok_lexeme, pure, Except.pure, apply_stmt]
  | assign target eq e semi =>
    simp only [GStmt.need] at hf
    have hne : ¬ (ID = INPUT) := by decide
    have hne2 : ¬ (ID = OUTPUT) := by decide
    simp only [GStmt.tokens, List.cons_append, List.append_assoc, List.nil_append, peek_cons,
      tok_type, hne, hne2, if_true, if_false]
    unfold parse_assign_statement
    rw [expect_cons ID _ (target.tok ID) _ rfl]
    simp only [tok_type, if_true, bind, Except.bind]
    rw [expect_cons EQUAL _ (eq.tok EQUAL) _ rfl]
    simp only [tok_type, if_true]
    rw [parse_poly_evaluation_state e fuel _ (semi.tok SEMICOLON :: rest) hf rfl]
    have hname : (LexicalAnalyzer.peek (e.tokens ++ semi.tok SEMICOLON :: rest) 1).lexeme
        = e.name.lexeme := by
      cases e
      simp [GEval.tokens, GEval.name]
    simp only [expect_withEval, tok_type, if_true, tok_lexeme, pure, Except.pure, apply_stmt,
      allocate_variable_eq, hname]
    rfl

theorem apply_stmts_lexer : ∀ (sts : List GStmt) (s : Parser) (l : List Token),
    apply_stmts sts { s with lexer := l } = { apply_stmts sts s with lexer := l }
  | [], _, _ => rfl
  | st :: sts, s, l => by
    simp only [apply_stmts]
    rw [apply_stmt_lexer, apply_stmts_lexer sts]

theorem headType_stmt (st : GStmt) (rest : List Token) :
    headType (st.tokens ++ rest) = INPUT ∨ headType (st.tokens ++ rest) = OUTPUT ∨
      headType (st.tokens ++ rest) = ID := by
  cases st <;> simp [GStmt.tokens]

theorem parse_statement_list_tree : ∀ (sts : List GStmt) (st : GStmt) (fuel : Nat)
    (s : Parser) (rest : List Token), stmts_need (st :: sts) ≤ fuel → FollowStmts rest →
    s.lexer = stmts_tokens (st :: sts) ++ rest →
    parse_statement_list fuel s = .ok { apply_stmts (st :: sts) s with lexer := rest }
  | [], st, fuel, s, rest, hf, hr, h => by
    simp only [stmts_need] at hf
    obtain ⟨f, rfl⟩ : ∃ f, fuel = f + 1 := ⟨fuel - 1, by omega⟩
    rw [parse_statement_list]
    simp only [stmts_tokens, List.append_nil] at h
    rw [parse_statement_tree st f s rest (by omega) h]
    have h1 : ¬ ((LexicalAnalyzer.peek rest 1).token_type = INPUT ∨
        (LexicalAnalyzer.peek rest 1).token_type = OUTPUT ∨
        (LexicalAnalyzer.peek rest 1).token_type = ID) := by
      intro h
      rcases h with h | h | h
      · exact hr.1 h
      · exact hr.2.1 h
      · exact hr.2.2 h
    simp [bind, Except.bind, h1, apply_stmts, pure, Except.pure]
  | st' :: sts, st, fuel, s, rest, hf, hr, h => by
    simp only [stmts_need] at hf
    obtain ⟨f, rfl⟩ : ∃ f, fuel = f + 1 := ⟨fuel - 1, by omega⟩
    rw [parse_statement_list]
    have h' : s.lexer = st.tokens ++ (stmts_tokens (st' :: sts) ++ rest) := by
      rw [h]
      simp [stmts_tokens]
    rw [parse_statement_tree st f s _ (by omega) h']
    have h1 : (LexicalAnalyzer.peek (stmts_tokens (st' :: sts) ++ rest) 1).token_type = INPUT ∨
        (LexicalAnalyzer.peek (stmts_tokens (st' :: sts) ++ rest) 1).token_type = OUTPUT ∨
        (LexicalAnalyzer.peek (stmts_tokens (st' :: sts) ++ rest) 1).token_type = ID := by
      have := headType_stmt st' (stmts_tokens sts ++ rest)
      simpa [stmts_tokens, headType] using this
    simp only [bind, Except.bind, h1, if_true]
    rw [parse_statement_list_tree sts st' f _ rest (by simp only [stmts_need]; omega) hr rfl]
    have e := apply_stmts_lexer (st' :: sts) (apply_stmt st s) (stmts_tokens (st' :: sts) ++ rest)
    rw [e]
    rfl

theorem parse_num_list_tree : ∀ (ns : List Lex) (n : Lex) (fuel : Nat) (s : Parser)
    (rest : List Token), ns.length + 1 ≤ fuel → headType rest ≠ NUM →
    s.lexer = nums_tokens (n :: ns) ++ rest →
    parse_num_list fuel s =
      .ok { s with
        lexer := rest
        input_values :=
          if s.in_inputs_section then s.input_values ++ (n :: ns).map (fun n => atoi n.lexeme)
          else s.input_values }
  | [], n, fuel, s, rest, hf, hr, h => by
    obtain ⟨f, rfl⟩ : ∃ f, fuel = f + 1 := ⟨fuel - 1, by simp at hf; omega⟩
    rw [parse_num_list]
    rw [expect_cons NUM s (n.tok NUM) rest (by simpa [nums_tokens] using h)]
    have h1 : ¬ (LexicalAnalyzer.peek rest 1).token_type = NUM := hr
    cases hb : s.in_inputs_section <;>
      simp [bind, Except.bind, h1, hb, store_input_value, pure, Except.pure]
  | n' :: ns, n, fuel, s, rest, hf, hr, h => by
    obtain ⟨f, rfl⟩ : ∃ f, fuel = f + 1 := ⟨fuel - 1, by simp at hf; omega⟩
    rw [parse_num_list]
    rw [expect_cons NUM s (n.tok NUM) (nums_tokens (n' :: ns) ++ rest)
      (by simpa [nums_tokens] using h)]
    simp only [tok_type, if_true, bind, Except.bind, tok_lexeme]
    have h1 : (LexicalAnalyzer.peek (nums_tokens (n' :: ns) ++ rest) 1).token_type = NUM := by
      simp [nums_tokens]
    cases hb : s.in_inputs_section
    · simp only [Bool.false_eq_true, if_false, h1, if_true]
      rw [parse_num_list_tree ns n' f _ rest (by simp at hf ⊢; omega) hr rfl]
      simp [hb]
    · simp only [if_true, store_input_value, h1]
      rw [parse_num_list_tree ns n' f _ rest (by simp at hf ⊢; omega) hr rfl]
      simp

/-! ### Parsing a whole program -/

theorem apply_decls_frame : ∀ (ds : List GPolyDecl) (s : Parser),
    (apply_decls ds s).lexer = s.lexer ∧ (apply_decls ds s).input_values = s.input_values ∧
      (apply_decls ds s).in_inputs_section = s.in_inputs_section
  | [], _ => ⟨rfl, rfl, rfl⟩
  | d :: ds, s => by
    simp only [apply_decls]
    exact apply_decls_frame ds (apply_decl d s)

theorem apply_stmt_frame (st : GStmt) (s : Parser) :
    (apply_stmt st s).lexer = s.lexer ∧ (apply_stmt st s).input_values = s.input_values ∧
      (apply_stmt st s).in_inputs_section = s.in_inputs_section ∧
      (apply_stmt st s).polynomial_table = s.polynomial_table ∧
      (apply_stmt st s).semantic_error = s.semantic_error ∧
      (apply_stmt st s).semantic_error2 = s.semantic_error2 := by
  cases st <;> exact ⟨rfl, rfl, rfl, rfl, rfl, rfl⟩

theorem apply_stmts_frame : ∀ (sts : List GStmt) (s : Parser),
    (apply_stmts sts s).lexer = s.lexer ∧ (apply_stmts sts s).input_values = s.input_values ∧
      (apply_stmts sts s).in_inputs_section = s.in_inputs_section ∧
      (apply_stmts sts s).polynomial_table = s.polynomial_table ∧
      (apply_stmts sts s).semantic_error = s.semantic_error ∧
      (apply_stmts sts s).semantic_error2 = s.semantic_error2
  | [], _ => ⟨rfl, rfl, rfl, rfl, rfl, rfl⟩
  | st :: sts, s => by
    simp only [apply_stmts]
    obtain ⟨h1, h2, h3, h4, h5, h6⟩ := apply_stmts_frame sts (apply_stmt st s)
    obtain ⟨g1, g2, g3, g4, g5, g6⟩ := apply_stmt_frame st s
    exact ⟨h1.trans g1, h2.trans g2, h3.trans g3, h4.trans g4, h5.trans g5, h6.trans g6⟩

theorem parse_tasks_section_tree (kw n : Lex) (ns : List Lex) (fuel : Nat) (s : Parser)
    (rest : List Token) (hf : ns.length + 1 ≤ fuel) (hr : headType rest ≠ NUM)
    (hs : s.in_inputs_section = false) :
    parse_tasks_section fuel { s with lexer := kw.tok TASKS :: (nums_tokens (n :: ns) ++ rest) } =
      .ok { s with lexer := rest } := by
  unfold parse_tasks_section
  rw [expect_cons TASKS _ (kw.tok TASKS) _ rfl]
  simp only [tok_type, if_true, bind, Except.bind]
  rw [parse_num_list_tree ns n fuel _ rest hf hr rfl]
  simp [hs]

theorem parse_poly_section_tree (kw : Lex) (d : GPolyDecl) (ds : List GPolyDecl) (fuel : Nat)
    (s : Parser) (rest : List Token) (hf : decls_need (d :: ds) ≤ fuel) (hr : headType rest ≠ ID) :
    parse_poly_section fuel { s with lexer := kw.tok POLY :: (decls_tokens (d :: ds) ++ rest) } =
      .ok { apply_decls (d :: ds) s with lexer := rest } := by
  unfold parse_poly_section
  rw [expect_cons POLY _ (kw.tok POLY) _ rfl]
  simp only [tok_type, if_true, bind, Except.bind]
  rw [parse_poly_decl_list_tree ds d fuel _ rest hf hr rfl]
  have e := apply_decls_lexer (d :: ds) s (decls_tokens (d :: ds) ++ rest)
  exact congrArg (fun x : Parser => Except.ok { x with lexer := rest }) e

theorem parse_execute_section_tree (kw : Lex) (st : GStmt) (sts : List GStmt) (fuel : Nat)
    (s : Parser) (rest : List Token) (hf : stmts_need (st :: sts) ≤ fuel) (hr : FollowStmts rest) :
    parse_execute_section fuel
        { s with lexer := kw.tok EXECUTE :: (stmts_tokens (st :: sts) ++ rest) } =
      .ok { apply_stmts (st :: sts) s with lexer := rest } := by
  unfold parse_execute_section
  rw [expect_cons EXECUTE _ (kw.tok EXECUTE) _ rfl]
  simp only [tok_type, if_true, bind, Except.bind]
  rw [parse_statement_list_tree sts st fuel _ rest hf hr rfl]
  have e := apply_stmts_lexer (st :: sts) s (stmts_tokens (st :: sts) ++ rest)
  exact congrArg (fun x : Parser => Except.ok { x with lexer := rest }) e

theorem parse_inputs_section_tree (kw n : Lex) (ns : List Lex) (fuel : Nat) (s : Parser)
    (rest : List Token) (hf : ns.length + 1 ≤ fuel) (hr : headType rest ≠ NUM) :
    parse_inputs_section fuel
        { s with lexer := kw.tok INPUTS :: (nums_tokens (n :: ns) ++ rest) } =
      .ok { s with
        lexer := rest
        input_values := s.input_values ++ (n :: ns).map (fun n => atoi n.lexeme)
        in_inputs_section := false } := by
  unfold parse_inputs_section
  rw [expect_cons INPUTS _ (kw.tok INPUTS) _ rfl]
  simp only [tok_type, if_true, bind, Except.bind]
  rw [parse_num_list_tree ns n fuel _ rest hf hr rfl]
  simp [pure, Except.pure]

theorem expect_eof_nil (s : Parser) (h : s.lexer = []) :
    expect END_OF_FILE s = .ok (eofToken, { s with lexer := [] }) := by
  unfold expect
  simp [LexicalAnalyzer.GetToken, h, eofToken]

theorem parse_phase_tree (p : GProgram) (fuel : Nat) (hf : p.need ≤ fuel) :
    parse_phase fuel (Parser.new p.tokens) = .ok p.final := by
  simp only [GProgram.need, GProgram.all_decls, GProgram.all_stmts] at hf
  unfold parse_phase GProgram.final
  have e1 := parse_tasks_section_tree p.tasks_kw p.task0 p.tasks fuel (Parser.new [])
    (p.poly_kw.tok POLY :: (decls_tokens p.all_decls ++
      p.execute_kw.tok EXECUTE :: (stmts_tokens p.all_stmts ++
        p.inputs_kw.tok INPUTS :: nums_tokens p.all_inputs))) (by omega) (by simp) rfl
  have h0 : Parser.new p.tokens = { Parser.new [] with lexer := p.tokens } := rfl
  rw [h0, GProgram.tokens, e1]
  simp only [bind, Except.bind]
  rw [GProgram.all_decls, parse_poly_section_tree p.poly_kw p.decl0 p.decls fuel _
    (p.execute_kw.tok EXECUTE :: (stmts_tokens p.all_stmts ++
        p.inputs_kw.tok INPUTS :: nums_tokens p.all_inputs)) (by omega) (by simp)]
  obtain ⟨hd1, hd2, hd3⟩ := apply_decls_frame (p.decl0 :: p.decls) (Parser.new [])
  generalize apply_decls (p.decl0 :: p.decls) (Parser.new []) = D at hd1 hd2 hd3 ⊢
  simp only []
  rw [GProgram.all_stmts, parse_execute_section_tree p.execute_kw p.stmt0 p.stmts fuel D
    (p.inputs_kw.tok INPUTS :: nums_tokens p.all_inputs) (by omega) (by simp [FollowStmts])]
  obtain ⟨he1, he2, he3, _⟩ := apply_stmts_frame (p.stmt0 :: p.stmts) D
  rw [hd1] at he1
  rw [hd2] at he2
  rw [hd3] at he3
  generalize apply_stmts (p.stmt0 :: p.stmts) D = E at he1 he2 he3 ⊢
  simp only []
  have e4 := parse_inputs_section_tree p.inputs_kw p.input0 p.inputs fuel E [] (by omega)
    (by simp [headType, eofToken])
  rw [List.append_nil] at e4
  rw [GProgram.all_inputs, e4]
  simp only []
  rw [expect_eof_nil _ rfl]
  obtain ⟨l, a1, a2, iv, a4, a5, a6, a7, a8, a9, iis, a11, a12, a13, a14, a15, a16⟩ := E
  simp only [Parser.new] at he1 he2 he3
  subst he1 he2 he3
  rfl

/-! ### The semantic records after parsing -/

theorem any_name_mem {α : Type} (l : List α) (f : α → String) (n : String) :
    l.any (fun a => f a == n) = decide (n ∈ l.map f) := by
  induction l with
  | nil => simp
  | cons a l ih =>
    simp only [List.any_cons, ih, List.map_cons, List.mem_cons]
    by_cases h : f a = n
    · simp [h]
    · have h' : ¬ n = f a := fun e => h e.symm
      simp [h, h']

theorem any_name_eq {α β : Type} (l : List α) (l' : List β) (f : α → String) (g : β → String)
    (n : String) (h : l.map f = l'.map g) :
    l.any (fun a => f a == n) = l'.any (fun b => g b == n) := by
  rw [any_name_mem l f n, any_name_mem l' g n, h]

theorem apply_decl_fields (d : GPolyDecl) (s : Parser) :
    (apply_decl d s).polynomial_table = s.polynomial_table ++ [d.entry] ∧
    (apply_decl d s).semantic_error.lines = s.semantic_error.lines ++
      (if s.polynomial_table.any (fun poly => poly.name == d.name.lexeme) then [d.name.line_no]
       else []) ∧
    (apply_decl d s).semantic_error2.lines = s.semantic_error2.lines ++ d.errors2 ∧
    (apply_decl d s).semantic_error3 = s.semantic_error3 ∧
    (apply_decl d s).semantic_error4 = s.semantic_error4 ∧
    (apply_decl d s).parsed_polynomials = s.parsed_polynomials ++ [d.parsed] :=
  ⟨rfl, rfl, rfl, rfl, rfl, rfl⟩

theorem apply_decls_table : ∀ (ds : List GPolyDecl) (s : Parser),
    (apply_decls ds s).polynomial_table = s.polynomial_table ++ ds.map GPolyDecl.entry
  | [], s => by simp [apply_decls]
  | d :: ds, s => by
    simp only [apply_decls]
    rw [apply_decls_table ds, (apply_decl_fields d s).1]
    simp

theorem apply_decls_errors2 : ∀ (ds : List GPolyDecl) (s : Parser),
    (apply_decls ds s).semantic_error2.lines =
      s.semantic_error2.lines ++ ds.flatMap GPolyDecl.errors2
  | [], s => by simp [apply_decls]
  | d :: ds, s => by
    simp only [apply_decls]
    rw [apply_decls_errors2 ds, (apply_decl_fields d s).2.2.1]
    simp

theorem apply_decls_errors34 : ∀ (ds : List GPolyDecl) (s : Parser),
    (apply_decls ds s).semantic_error3 = s.semantic_error3 ∧
      (apply_decls ds s).semantic_error4 = s.semantic_error4
  | [], _ => ⟨rfl, rfl⟩
  | d :: ds, s => by
    simp only [apply_decls]
    exact apply_decls_errors34 ds (apply_decl d s)

theorem apply_decls_errors1 : ∀ (ds pre : List GPolyDecl) (s : Parser),
    s.polynomial_table.map (·.name) = pre.map (·.name.lexeme) →
    (apply_decls ds s).semantic_error.lines =
      s.semantic_error.lines ++
        (((ds.inits.map (pre ++ ·)).zip ds).filter
          (fun ed => ed.1.any (fun d' => d'.name.lexeme == ed.2.name.lexeme))).map
          (fun ed => ed.2.name.line_no)
  | [], _, s, _ => by simp [apply_decls]
  | d :: ds, pre, s, h => by
    simp only [apply_decls]
    have h' : (apply_decl d s).polynomial_table.map (·.name) =
        (pre ++ [d]).map (·.name.lexeme) := by
      rw [(apply_decl_fields d s).1]
      simp [h, GPolyDecl.entry]
    rw [apply_decls_errors1 ds (pre ++ [d]) (apply_decl d s) h', (apply_decl_fields d s).2.1]
    have hany : s.polynomial_table.any (fun poly => poly.name == d.name.lexeme) =
        pre.any (fun d' => d'.name.lexeme == d.name.lexeme) :=
      any_name_eq _ _ _ _ _ h
    rw [hany]
    simp only [List.inits_cons, List.map_cons, List.append_nil, List.map_map, List.zip_cons_cons,
      List.filter_cons]
    have hmap : (List.map ((fun x => pre ++ x) ∘ fun t => d :: t) ds.inits) =
        List.map (fun x => pre ++ [d] ++ x) ds.inits := by
      apply List.map_congr_left
      intro t _
      simp
    rw [hmap]
    by_cases hp : pre.any (fun d' => d'.name.lexeme == d.name.lexeme) = true
    · simp [hp]
    · simp [hp]

theorem errors2_eq_invalid_use_lines (d : GPolyDecl) : d.errors2 = invalid_use_lines d := by
  unfold GPolyDecl.errors2 invalid_use_lines
  congr 1
  apply List.filter_congr
  intro x _
  obtain ⟨name, params, eq, body, semi⟩ := d
  cases params with
  | none => simp [is_valid_monomial, valid_use, GPolyDecl.entry]
  | some ps =>
    obtain ⟨lp, ids, rp⟩ := ps
    simp [is_valid_monomial, valid_use, GPolyDecl.entry, GPolyDecl.parameters]

theorem apply_stmt_errors (st : GStmt) (s : Parser) :
    (apply_stmt st s).semantic_error3.lines =
        s.semantic_error3.lines ++ errors3 s.polynomial_table st.sites ∧
      (apply_stmt st s).semantic_error4.lines =
        s.semantic_error4.lines ++ errors4 s.polynomial_table st.sites_post := by
  cases st <;> simp [apply_stmt, GStmt.sites, GStmt.sites_post, errors3, errors4]

theorem apply_stmts_errors : ∀ (sts : List GStmt) (s : Parser),
    (apply_stmts sts s).semantic_error3.lines =
        s.semantic_error3.lines ++ errors3 s.polynomial_table (sts.flatMap GStmt.sites) ∧
      (apply_stmts sts s).semantic_error4.lines =
        s.semantic_error4.lines ++ errors4 s.polynomial_table (sts.flatMap GStmt.sites_post)
  | [], s => by simp [apply_stmts, errors3, errors4]
  | st :: sts, s => by
    simp only [apply_stmts, List.flatMap_cons, errors3_append, errors4_append]
    obtain ⟨h3, h4⟩ := apply_stmts_errors sts (apply_stmt st s)
    obtain ⟨g3, g4⟩ := apply_stmt_errors st s
    rw [h3, h4, g3, g4, (apply_stmt_frame st s).2.2.2.1]
    simp

theorem final_record1 (p : GProgram) :
    p.final.semantic_error.lines = redeclaration_lines p.all_decls := by
  have h1 := (apply_stmts_frame p.all_stmts (apply_decls p.all_decls (Parser.new []))).2.2.2.2.1
  have h2 := apply_decls_errors1 p.all_decls [] (Parser.new []) rfl
  show (apply_stmts p.all_stmts (apply_decls p.all_decls (Parser.new []))).semantic_error.lines = _
  rw [h1, h2]
  have e : (List.map (fun x => [] ++ x) p.all_decls.inits) = p.all_decls.inits := by simp
  rw [e]
  simp only [redeclaration_lines, with_earlier, Parser.new, List.nil_append]

theorem final_record2 (p : GProgram) :
    p.final.semantic_error2.lines = p.all_decls.flatMap invalid_use_lines := by
  have h1 := (apply_stmts_frame p.all_stmts (apply_decls p.all_decls (Parser.new []))).2.2.2.2.2
  have h2 := apply_decls_errors2 p.all_decls (Parser.new [])
  show (apply_stmts p.all_stmts (apply_decls p.all_decls (Parser.new []))).semantic_error2.lines = _
  rw [h1, h2]
  have e : GPolyDecl.errors2 = invalid_use_lines := funext errors2_eq_invalid_use_lines
  simp [Parser.new, e]

theorem final_table (p : GProgram) :
    (apply_decls p.all_decls (Parser.new [])).polynomial_table =
      p.all_decls.map GPolyDecl.entry := by
  rw [apply_decls_table]
  simp [Parser.new]

theorem final_record3 (p : GProgram) :
    p.final.semantic_error3.lines = undeclared_call_lines p := by
  have h1 := (apply_stmts_errors p.all_stmts (apply_decls p.all_decls (Parser.new []))).1
  show (apply_stmts p.all_stmts (apply_decls p.all_decls (Parser.new []))).semantic_error3.lines = _
  rw [h1, (apply_decls_errors34 p.all_decls (Parser.new [])).1, final_table]
  simp only [Parser.new, List.nil_append, errors3, undeclared_call_lines, GProgram.sites]
  congr 1
  apply List.filter_congr
  intro c _
  rw [any_name_mem (p.all_decls.map GPolyDecl.entry) (fun poly => poly.name) c.name]
  simp [GProgram.declared, GPolyDecl.entry]

theorem final_record4 (p : GProgram) :
    p.final.semantic_error4.lines = wrong_count_lines p := by
  have h1 := (apply_stmts_errors p.all_stmts (apply_decls p.all_decls (Parser.new []))).2
  show (apply_stmts p.all_stmts (apply_decls p.all_decls (Parser.new []))).semantic_error4.lines = _
  rw [h1, (apply_decls_errors34 p.all_decls (Parser.new [])).2, final_table]
  simp only [Parser.new, List.nil_append, errors4, wrong_count_lines, GProgram.sites_post]
  congr 1
  apply List.filter_congr
  intro c _
  rw [List.find?_map, GProgram.arity]
  cases h : p.all_decls.find? (fun d => d.name.lexeme == c.name) with
  | none =>
    have h' : List.find? ((fun poly => poly.name == c.name) ∘ GPolyDecl.entry) p.all_decls
        = none := h
    simp [h']
  | some d =>
    have h' : List.find? ((fun poly => poly.name == c.name) ∘ GPolyDecl.entry) p.all_decls
        = some d := h
    obtain ⟨name, params, eq, body, semi⟩ := d
    cases params with
    | none => simp [h', GPolyDecl.entry, GPolyDecl.parameters]
    | some ps =>
      obtain ⟨lp, ids, rp⟩ := ps
      simp [h', GPolyDecl.entry, GPolyDecl.parameters]

/-- C5: after a program has been parsed, the category-1 record holds exactly
one entry for every declaration whose name an earlier declaration of the POLY
section has, and that entry is the line of the re-declaration. -/
theorem C5_duplicate_declarations (p : GProgram) (fuel : Nat) (hf : p.need ≤ fuel) :
    ∃ s, parse_phase fuel (Parser.new p.tokens) = .ok s ∧
      s.semantic_error.lines = redeclaration_lines p.all_decls :=
  ⟨p.final, parse_phase_tree p fuel hf, final_record1 p⟩

/-- C5 at the sample program: `p` is declared on lines 3 and 5, the record is
`[5]`. -/
theorem C5_duplicate_declarations_witness :
    (∃ s, parse_phase 100 (Parser.new sample_program.tokens) = .ok s ∧
      s.semantic_error.lines = redeclaration_lines sample_program.all_decls) ∧
    redeclaration_lines sample_program.all_decls = [5] :=
  ⟨C5_duplicate_declarations sample_program 100 (by decide), by decide!⟩

/-- C6: after a program has been parsed, the category-2 record holds, for
every declaration in turn, the lines of exactly those identifier occurrences
of its body that are not a parameter of the declaration (explicit parameter
list) or not `x` (no parameter list); valid occurrences add nothing. -/
theorem C6_invalid_monomials (p : GProgram) (fuel : Nat) (hf : p.need ≤ fuel) :
    ∃ s, parse_phase fuel (Parser.new p.tokens) = .ok s ∧
      s.semantic_error2.lines = p.all_decls.flatMap invalid_use_lines :=
  ⟨p.final, parse_phase_tree p fuel hf, final_record2 p⟩

/-- C6 at the sample program: `y` on line 4 is no parameter of `q(a,b)`, the
record is `[4]`. -/
theorem C6_invalid_monomials_witness :
    (∃ s, parse_phase 100 (Parser.new sample_program.tokens) = .ok s ∧
      s.semantic_error2.lines = sample_program.all_decls.flatMap invalid_use_lines) ∧
    sample_program.all_decls.flatMap invalid_use_lines = [4] :=
  ⟨C6_invalid_monomials sample_program 100 (by decide), by decide!⟩

/-- C7: after a program has been parsed, the category-3 record holds the lines
of exactly those call sites of the EXECUTE section, nested ones included,
whose name no declaration of the POLY section has. -/
theorem C7_undeclared_calls (p : GProgram) (fuel : Nat) (hf : p.need ≤ fuel) :
    ∃ s, parse_phase fuel (Parser.new p.tokens) = .ok s ∧
      s.semantic_error3.lines = undeclared_call_lines p :=
  ⟨p.final, parse_phase_tree p fuel hf, final_record3 p⟩

/-- C7 at the sample program: the nested call of `r` on line 8 is the only
call of an undeclared name, the record is `[8]`. -/
theorem C7_undeclared_calls_witness :
    (∃ s, parse_phase 100 (Parser.new sample_program.tokens) = .ok s ∧
      s.semantic_error3.lines = undeclared_call_lines sample_program) ∧
    undeclared_call_lines sample_program = [8] :=
  ⟨C7_undeclared_calls sample_program 100 (by decide), by decide!⟩

/-- C8: after a program has been parsed, the category-4 record holds the lines
of exactly those call sites whose name is declared and whose number of
written arguments (identifiers, numbers and nested evaluations alike) differs
from the declared parameter count, 1 for a declaration without a parameter
list; a call of an undeclared name adds nothing. -/
theorem C8_wrong_argument_counts (p : GProgram) (fuel : Nat) (hf : p.need ≤ fuel) :
    ∃ s, parse_phase fuel (Parser.new p.tokens) = .ok s ∧
      s.semantic_error4.lines = wrong_count_lines p :=
  ⟨p.final, parse_phase_tree p fuel hf, final_record4 p⟩

/-- C8 at the sample program: `p(v, v)` on line 9 has two arguments for one
parameter and `q(v, r(1), p(v, v))` on line 8 three for two; the call of the
undeclared `r` adds nothing; the record is `[9, 8]`. -/
theorem C8_wrong_argument_counts_witness :
    (∃ s, parse_phase 100 (Parser.new sample_program.tokens) = .ok s ∧
      s.semantic_error4.lines = wrong_count_lines sample_program) ∧
    wrong_count_lines sample_program = [9, 8] :=
  ⟨C8_wrong_argument_counts sample_program 100 (by decide), by decide!⟩

/-! ### Single-variable polynomials (C1) -/

theorem wrap32_of_range (z : Int) (h1 : -2147483648 ≤ z) (h2 : z < 2147483648) :
    wrap32 z = z := by
  unfold wrap32
  omega

theorem wrap32_add_left (a b : Int) : wrap32 (wrap32 a + b) = wrap32 (a + b) := by
  unfold wrap32
  omega

theorem wrap32_add_mul (x m : Int) : wrap32 (x + m * 4294967296) = wrap32 x := by
  unfold wrap32
  have e : x + m * 4294967296 + 2147483648 = (x + 2147483648) + m * 4294967296 := by ring
  rw [e, Int.add_mul_emod_self]

theorem wrap32_eq_add_mul (b : Int) : ∃ k : Int, wrap32 b = b + k * 4294967296 := by
  refine ⟨-((b + 2147483648) / 4294967296), ?_⟩
  unfold wrap32
  rw [Int.emod_def]
  ring

theorem wrap32_mul_right (a b : Int) : wrap32 (a * wrap32 b) = wrap32 (a * b) := by
  obtain ⟨k, hk⟩ := wrap32_eq_add_mul b
  rw [hk]
  have e : a * (b + k * 4294967296) = a * b + (a * k) * 4294967296 := by ring
  rw [e, wrap32_add_mul]

theorem wrap32_mul_left (a b : Int) : wrap32 (wrap32 a * b) = wrap32 (a * b) := by
  rw [mul_comm, wrap32_mul_right, mul_comm]

theorem wrap32_pow_loop (v : Int) : ∀ (n : Nat) (r : Int),
    wrap32 (pow_loop v n r) = wrap32 (r * v ^ n)
  | 0, r => by simp [pow_loop]
  | n + 1, r => by
    rw [pow_loop, wrap32_pow_loop v n, wrap32_mul_left]
    congr 1
    ring

theorem digit_char_isDigit : ∀ d : Fin 10, (digit_char d).isDigit = true := by decide

theorem digit_char_toNat : ∀ d : Fin 10, ((digit_char d).toNat : Int) - 48 = d.val := by decide

theorem digit_char_not_space : ∀ d : Fin 10, (digit_char d).isWhitespace = false := by decide

theorem digit_char_ne_sign : ∀ d : Fin 10, digit_char d ≠ '-' ∧ digit_char d ≠ '+' := by decide

theorem atoiDigits_digits : ∀ (ds : List (Fin 10)) (acc : Nat),
    atoiDigits (ds.map digit_char) acc = ((ds.foldl (fun a d => 10 * a + d.val) acc : Nat) : Int)
  | [], acc => by simp [atoiDigits]
  | d :: ds, acc => by
    simp only [List.map_cons, atoiDigits, digit_char_isDigit, if_true, digit_char_toNat,
      List.foldl_cons]
    have e : (acc : Int) * 10 + (d.val : Int) = ((10 * acc + d.val : Nat) : Int) := by
      push_cast
      ring
    rw [e, atoiDigits_digits ds]

theorem atoi_literal (n : NumLit) : atoi n.lexeme = wrap32 (clamp64 n.value) := by
  obtain ⟨ds, line⟩ := n
  have key := atoiDigits_digits ds 0
  simp only [Nat.cast_zero] at key
  cases ds with
  | nil => rfl
  | cons d ds =>
    unfold atoi
    have h1 : (NumLit.lexeme ⟨d :: ds, line⟩).toList = digit_char d :: ds.map digit_char := rfl
    rw [h1, List.dropWhile_cons_of_neg (by simp [digit_char_not_space])]
    split
    · rename_i r heq
      exact absurd (List.cons.inj heq).1 (digit_char_ne_sign d).1
    · rename_i r heq
      exact absurd (List.cons.inj heq).1 (digit_char_ne_sign d).2
    · rw [← List.map_cons, key]
      rfl

theorem atoi_literal_of_range (n : NumLit) (h : n.value < 2147483648) :
    atoi n.lexeme = n.value := by
  have hc : clamp64 (n.value : Int) = n.value := by
    unfold clamp64
    rw [if_neg (by omega), if_neg (by omega)]
  rw [atoi_literal, hc]
  exact wrap32_of_range _ (by omega) (by omega)

theorem simple_term_eff (t : SimpleTerm) (cc : Int) (acc : List Term) :
    (t.tree.eff (cc, acc)).2 = acc ++ [t.stored] := by
  cases t <;>
    simp [SimpleTerm.tree, SimpleTerm.stored, GTerm.eff, GMonomialList.eff, GMonomial.eff,
      GPrimary.eff, NumLit.lex, modify_back_append, Term.set_exponent]

theorem simple_body_eff : ∀ (ts : List (Lex × SimpleTerm)) (t0 : SimpleTerm) (cc : Int)
    (acc : List Term),
    ((simple_body t0 ts).eff (cc, acc)).2 = acc ++ (t0 :: ts.map Prod.snd).map SimpleTerm.stored
  | [], t0, cc, acc => by
    simp [simple_body, GTermList.eff, simple_term_eff]
  | (plus, t1) :: ts, t0, cc, acc => by
    simp only [simple_body, GTermList.eff, Bool.false_eq_true, false_and, if_false]
    rw [simple_body_eff ts t1, simple_term_eff]
    simp

theorem evaluate_stored (t : SimpleTerm) (v : Int) (h : t.in_range) :
    wrap32 (evaluate_term t.stored ["x"] [v]) =
      wrap32 ((t.coefficient : Int) * v ^ t.exponent) ∧
    evaluate_term t.stored ["x"] [v] = wrap32 (evaluate_term t.stored ["x"] [v]) := by
  have hx : ("x" : String) ≠ "" := by decide
  have hw : ∀ z : Int, wrap32 (wrap32 z) = wrap32 z := by
    intro z
    unfold wrap32
    omega
  have hpow : ∀ (c : Int) (n : Nat),
      wrap32 (c * pow_loop v n 1) = wrap32 (c * v ^ n) := by
    intro c n
    rw [← wrap32_mul_right, wrap32_pow_loop, wrap32_mul_right, one_mul]
  have hpow1 : ∀ n : Nat, wrap32 (pow_loop v n 1) = wrap32 (v ^ n) := by
    intro n
    rw [wrap32_pow_loop, one_mul]
  obtain ⟨hc, he⟩ := h
  cases t with
  | const c =>
    simp only [SimpleTerm.coefficient] at hc
    have hcw : wrap32 (c.value : Int) = c.value := wrap32_of_range _ (by omega) (by omega)
    simp only [SimpleTerm.stored, evaluate_term, if_true, SimpleTerm.coefficient,
      SimpleTerm.exponent, pow_zero, mul_one, atoi_literal_of_range c hc, hcw, and_self]
  | cx c l =>
    simp only [SimpleTerm.coefficient] at hc
    simp [SimpleTerm.stored, evaluate_term, hx, SimpleTerm.coefficient, SimpleTerm.exponent,
      atoi_literal_of_range c hc, hw, hpow]
  | cxe c l hat e =>
    simp only [SimpleTerm.coefficient] at hc
    simp only [SimpleTerm.exponent] at he
    simp [SimpleTerm.stored, evaluate_term, hx, SimpleTerm.coefficient, SimpleTerm.exponent,
      atoi_literal_of_range c hc, atoi_literal_of_range e he, hw, hpow]
  | x l =>
    simp [SimpleTerm.stored, evaluate_term, hx, SimpleTerm.coefficient, SimpleTerm.exponent,
      hw, hpow1]
  | xe l hat e =>
    simp only [SimpleTerm.exponent] at he
    simp [SimpleTerm.stored, evaluate_term, hx, SimpleTerm.coefficient, SimpleTerm.exponent,
      atoi_literal_of_range e he, hw, hpow1]

theorem fold_stored (v : Int) : ∀ (ts : List SimpleTerm) (acc : Int),
    (∀ t ∈ ts, t.in_range) →
    wrap32 ((ts.map SimpleTerm.stored).foldl
        (fun result term => wrap32 (result + evaluate_term term ["x"] [v])) acc) =
      wrap32 (acc + simple_sum ts v) ∧
    (ts ≠ [] → (ts.map SimpleTerm.stored).foldl
        (fun result term => wrap32 (result + evaluate_term term ["x"] [v])) acc =
      wrap32 (acc + simple_sum ts v))
  | [], acc, _ => by simp [simple_sum]
  | t :: ts, acc, h => by
    have ht := h t (List.mem_cons_self _ _)
    have hts : ∀ t' ∈ ts, t'.in_range := fun t' ht' => h t' (List.mem_cons_of_mem _ ht')
    obtain ⟨ih1, ih2⟩ := fold_stored v ts (wrap32 (acc + evaluate_term t.stored ["x"] [v])) hts
    have hval : wrap32 (wrap32 (acc + evaluate_term t.stored ["x"] [v]) + simple_sum ts v) =
        wrap32 (acc + simple_sum (t :: ts) v) := by
      rw [wrap32_add_left]
      have e1 : acc + evaluate_term t.stored ["x"] [v] + simple_sum ts v =
          wrap32 (evaluate_term t.stored ["x"] [v]) + (acc + simple_sum ts v) := by
        rw [← (evaluate_stored t v ht).2]
        ring
      rw [e1, (evaluate_stored t v ht).1, wrap32_add_left]
      congr 1
      simp only [simple_sum, List.map_cons, List.sum_cons]
      ring
    simp only [List.map_cons, List.foldl_cons]
    refine ⟨by rw [ih1, hval], fun _ => ?_⟩
    by_cases hnil : ts = []
    · subst hnil
      simp only [List.map_nil, List.foldl_nil]
      have := hval
      simp only [simple_sum, List.map_nil, List.sum_nil, add_zero] at this
      have hw : wrap32 (wrap32 (acc + evaluate_term t.stored ["x"] [v])) =
          wrap32 (acc + evaluate_term t.stored ["x"] [v]) := by
        unfold wrap32
        omega
      rw [← hw, this]
      simp [simple_sum]
    · rw [ih2 hnil, hval]

/-- C1 (amended): for a declaration `name = t0 + ... + tn;` without a parameter list
whose terms have the forms `c`, `c x`, `c x^e`, `x`, `x^e` with literals that
fit an `int`, parsed in a state that stores no polynomial of that name yet,
and for every integer `v`, `parse_poly_decl` succeeds and
`evaluate_polynomial` on the argument vector `[v]` returns the sum over the
terms of `c * v^e` (missing `c` and `e` are 1, a bare number contributes `c`)
reduced to 32 bits. -/
theorem C1_single_variable_polynomial (name eq semi : Lex) (t0 : SimpleTerm)
    (ts : List (Lex × SimpleTerm)) (v : Int) (fuel : Nat) (s : Parser) (rest : List Token)
    (hr : ∀ t ∈ t0 :: ts.map Prod.snd, t.in_range)
    (hf : (simple_decl name eq semi t0 ts).need ≤ fuel)
    (hl : s.lexer = (simple_decl name eq semi t0 ts).tokens ++ rest)
    (hn : ∀ q ∈ s.parsed_polynomials, q.name ≠ name.lexeme) :
    ∃ s', parse_poly_decl fuel s = .ok s' ∧
      evaluate_polynomial s' name.lexeme [v] =
        wrap32 (simple_sum (t0 :: ts.map Prod.snd) v) := by
  refine ⟨_, parse_poly_decl_tree _ fuel s rest hf hl, ?_⟩
  unfold evaluate_polynomial
  have hpp : ({ apply_decl (simple_decl name eq semi t0 ts) s with lexer := rest } :
      Parser).parsed_polynomials =
      s.parsed_polynomials ++ [(simple_decl name eq semi t0 ts).parsed] := rfl
  have hnone : s.parsed_polynomials.find? (fun p => p.name == name.lexeme) = none := by
    rw [List.find?_eq_none]
    intro q hq
    simpa using hn q hq
  have hfind : (s.parsed_polynomials ++ [(simple_decl name eq semi t0 ts).parsed]).find?
      (fun p => p.name == name.lexeme) = some (simple_decl name eq semi t0 ts).parsed := by
    rw [List.find?_append, hnone]
    simp [GPolyDecl.parsed, simple_decl]
  rw [hpp, hfind]
  simp only [GPolyDecl.parsed, simple_decl, GPolyDecl.parameters, simple_body_eff,
    List.nil_append]
  have key := (fold_stored v (t0 :: ts.map Prod.snd) 0 hr).2 (List.cons_ne_nil _ _)
  rw [zero_add] at key
  exact key

/-- C1 at the body `2x^2 + 3x + 1` and `v = 5`: the result is 66. -/
theorem C1_single_variable_polynomial_witness :
    ∃ s', parse_poly_decl 20
        (Parser.new ((simple_decl ⟨"p", 1⟩ ⟨"=", 1⟩ ⟨";", 1⟩ sample_terms.1 sample_terms.2).tokens
          ++ [])) = .ok s' ∧
      evaluate_polynomial s' "p" [5] = 66 := by
  obtain ⟨s', h1, h2⟩ := C1_single_variable_polynomial ⟨"p", 1⟩ ⟨"=", 1⟩ ⟨";", 1⟩
    sample_terms.1 sample_terms.2 5 20
    (Parser.new ((simple_decl ⟨"p", 1⟩ ⟨"=", 1⟩ ⟨";", 1⟩ sample_terms.1 sample_terms.2).tokens
      ++ [])) [] (by decide) (by decide) rfl (by simp [Parser.new])
  refine ⟨s', h1, ?_⟩
  rw [h2]
  decide!

theorem wrap32_two_pow (k : Nat) : wrap32 ((2 : Int) ^ (32 + k)) = 0 := by
  have h32 : (2 : Int) ^ 32 = 4294967296 := by norm_num
  have e : (2 : Int) ^ (32 + k) = 0 + 2 ^ k * 4294967296 := by
    rw [pow_add, h32]
    ring
  rw [e, wrap32_add_mul]
  rfl

theorem simple_sum_power_of_two (l : Int) (hat : Lex) (e : NumLit) (k : Nat)
    (h : e.value = 32 + k) : wrap32 (simple_sum [.xe l hat e] 2) = 0 := by
  have hs : simple_sum [.xe l hat e] 2 = (2 : Int) ^ e.value := by
    simp only [simple_sum, List.map_cons, List.map_nil, List.sum_cons, List.sum_nil,
      SimpleTerm.coefficient, SimpleTerm.exponent, Nat.cast_one, one_mul, add_zero]
  rw [hs, h, wrap32_two_pow]

/-- C1 as stated fails in two ways.  A literal outside the type `int`: for
`p = x^4294967296;` the exponent is stored as 0 and the value at 2 is 1, while
the sum `2^4294967296` reduced to 32 bits is 0.  A name that is declared
already: after `p = x;`, the declaration `p = 2x;` is parsed, but the value of
`p` at 5 is still 5, that of the first body, and not 10. -/
theorem C1_fails_on_large_literal_and_redeclaration :
    ((parse_poly_decl 20 (Parser.new (decl_huge_exponent.tokens ++ []))).map
        (fun s => evaluate_polynomial s "p" [2]) = .ok 1 ∧
      wrap32 (simple_sum [.xe 1 ⟨"^", 1⟩ lit_two_pow_32] 2) = 0) ∧
    ((parse_poly_decl_list 20 (Parser.new (decl_p_x_first.tokens ++ decl_p_2x.tokens))).map
        (fun s => (s.lexer, evaluate_polynomial s "p" [5])) = .ok ([], 5) ∧
      wrap32 (simple_sum [.cx ⟨[2], 2⟩ 2] 5) = 10) :=
  ⟨⟨by decide!, simple_sum_power_of_two 1 ⟨"^", 1⟩ lit_two_pow_32 4294967264 (by decide)⟩,
    ⟨by decide!, by decide!⟩⟩

/-! ### Execution defects (C11, C13, C18) -/

/-- C11 (code evaluated at the failing input): with two input statements and
one number in the INPUTS section the run does not end with the
input-exhaustion fault; the second input statement reads `input_values[1]`
outside the vector, which is undefined behaviour. -/
theorem C11_second_input_reads_outside :
    observed (main 100 prog_inputs_exhausted.tokens) = .error .undefined ∧
    observed (main 100 prog_inputs_exhausted.tokens) ≠ .error .not_enough_input := by
  decide!

/-- C13 (code evaluated at the failing input): the program has two output
statements, `OUTPUT b` and `OUTPUT a`, and prints the single line `7`; nothing
is printed for `b`, which has no symbol-table entry. -/
theorem C13_output_of_unallocated_variable :
    observed (main 100 prog_output_unallocated.tokens) = .ok [7] := by
  decide!

/-- C18 (code evaluated at the failing input): for `a = p(b, c)` with `b`
never written and `c = 9` the argument vector built at execution is `[9]`, of
length 1 for two written arguments, so `p(x,y) = x` evaluates to 9 and not to
the value 0 of `b`. -/
theorem C18_unwritten_argument_is_skipped :
    (parse_phase 100 (Parser.new prog_arg_unallocated.tokens)).bind
      (fun s => collect_arg_values
        { s with mem := (resize s.mem 1000 0).set 0 9 } ["b", "c"]) = .ok [9] ∧
    observed (main 100 prog_arg_unallocated.tokens) = .ok [9] := by
  decide!

/-! ### The power loops (C20) -/

theorem pow_loop_wrapped (v : Int) : ∀ (n : Nat) (r : Int),
    pow_loop v n (wrap32 r) = wrap32 (pow_loop v n (wrap32 r))
  | 0, r => by
    simp only [pow_loop]
    unfold wrap32
    omega
  | n + 1, r => by
    simp only [pow_loop]
    exact pow_loop_wrapped v n _

theorem pow_loop_eq (v : Int) (n : Nat) (h : 0 < n) : pow_loop v n 1 = wrap32 (v ^ n) := by
  obtain ⟨m, rfl⟩ : ∃ m, n = m + 1 := ⟨n - 1, by omega⟩
  have h1 : pow_loop v (m + 1) 1 = pow_loop v m (wrap32 (1 * v)) := rfl
  rw [h1, pow_loop_wrapped, ← h1, wrap32_pow_loop, one_mul]

/-- C20: for every base `b` and exponent `e` the power loop gives `b^e`
reduced to 32 bits when `e > 0` and 1 when `e = 0` (also for `b = 0`) or
`e < 0`; `evaluate_monomial` returns the result of that loop on the value of
its primary, and `evaluate_term` multiplies the coefficient of a
single-variable term by the result of that loop on the argument bound to its
variable. -/
theorem C20_power_loops (b e : Int) :
    (pow_loop b e.toNat 1 = if 0 < e then wrap32 (b ^ e.toNat) else 1) ∧
    (∀ (kind : PrimaryKind) (var : Int) (t_list : term_list) (params : List String)
        (args : List Int),
      evaluate_primary (.node kind var t_list) params args = b →
      evaluate_monomial (.mk (.node kind var t_list) e) params args = pow_loop b e.toNat 1) ∧
    (∀ (c : Int) (var : String) (ml : monomial_list) (params : List String) (args : List Int),
      var ≠ "" → params.indexOf var < params.length → params.indexOf var < args.length →
      args.getD (params.indexOf var) 0 = b →
      evaluate_term (.mk c false var e ml) params args = wrap32 (c * pow_loop b e.toNat 1)) := by
  refine ⟨?_, ?_, ?_⟩
  · by_cases h : 0 < e
    · rw [if_pos h, pow_loop_eq b e.toNat (by omega)]
    · rw [if_neg h]
      have h0 : e.toNat = 0 := by omega
      rw [h0]
      rfl
  · intro kind var t_list params args hb
    rw [evaluate_monomial, hb]
  · intro c var ml params args hv h1 h2 hb
    rw [evaluate_term.eq_def]
    simp only [Bool.false_eq_true, if_false, hv, ne_eq, not_false_eq_true, if_true, h1, h2, hb]

/-- C20 at concrete values: `3^4 = 81`, `0^0 = 1`, a negative exponent gives
1, and `2^31` wraps to `-2147483648`. -/
theorem C20_power_loops_values :
    evaluate_monomial (.mk (.node .VAR 0 .null) 4) ["x"] [3] = 81 ∧
    evaluate_monomial (.mk (.node .VAR 0 .null) 0) ["x"] [0] = 1 ∧
    evaluate_monomial (.mk (.node .VAR 0 .null) (-2)) ["x"] [3] = 1 ∧
    evaluate_term (.mk 1 false "x" 31 .null) ["x"] [2] = -2147483648 ∧
    evaluate_term (.mk 5 false "x" 0 .null) ["x"] [0] = 5 := by
  decide!

/-- C20 at base 3 and exponent 4: the loop gives 81, and the term `2 x^4`
evaluates to 162 at `x = 3`. -/
theorem C20_power_loops_witness :
    pow_loop 3 (4 : Int).toNat 1 = 81 ∧
    evaluate_term (.mk 2 false "x" 4 .null) ["x"] [3] = 162 :=
  ⟨(C20_power_loops 3 4).1.trans (by decide!),
    ((C20_power_loops 3 4).2.2 2 "x" .null ["x"] [3] (by decide!) (by decide!) (by decide!)
      (by decide!)).trans (by decide!)⟩

/-! ### The implicit parameter (C16) -/

/-- C16: for a header without a parameter list (the name is not followed by
`(`), `parse_poly_header` leaves the last entry of the declaration table with
the parameter list `["x"]` and marked as having no explicit parameters; and
for a whole declaration without a parameter list `parse_poly_decl` leaves that
same entry and stores a polynomial whose parameter list is `["x"]`. -/
theorem C16_implicit_parameter (fuel : Nat) (s : Parser) (rest : List Token) :
    (∀ name : Lex, s.lexer = name.tok ID :: rest → headType rest ≠ LPAREN →
      s.polynomial_table ≠ [] →
      ∃ s1, parse_poly_header fuel s = .ok s1 ∧ s1.lexer = rest ∧
        (back s1.polynomial_table).parameters = ["x"] ∧
        (back s1.polynomial_table).has_explicit_params = false) ∧
    (∀ d : GPolyDecl, d.params = none → d.need ≤ fuel → s.lexer = d.tokens ++ rest →
      ∃ s2, parse_poly_decl fuel s = .ok s2 ∧ s2.lexer = rest ∧
        (back s2.polynomial_table).name = d.name.lexeme ∧
        (back s2.polynomial_table).parameters = ["x"] ∧
        (back s2.polynomial_table).has_explicit_params = false ∧
        (back s2.parsed_polynomials).name = d.name.lexeme ∧
        (back s2.parsed_polynomials).params = ["x"]) := by
  constructor
  · intro name hl hr ht
    unfold parse_poly_header parse_poly_name
    rw [expect_cons ID s (name.tok ID) rest hl]
    have hr' : ¬ (LexicalAnalyzer.peek rest 1).token_type = LPAREN := hr
    simp only [tok_type, if_true, bind, Except.bind, pure, Except.pure, hr', if_false]
    obtain ⟨tbl, e, hte⟩ : ∃ tbl e, s.polynomial_table = tbl ++ [e] :=
      ⟨s.polynomial_table.dropLast, s.polynomial_table.getLast ht,
        (List.dropLast_append_getLast ht).symm⟩
    refine ⟨_, rfl, rfl, ?_, ?_⟩
    · simp [hte, modify_back_append, back_append]
    · simp [hte, modify_back_append, back_append]
  · intro d hd hf hl
    refine ⟨_, parse_poly_decl_tree d fuel s rest hf hl, rfl, ?_, ?_, ?_, ?_, ?_⟩
    · simp [apply_decl, back_append, GPolyDecl.entry]
    · simp [apply_decl, back_append, GPolyDecl.entry, GPolyDecl.parameters, hd]
    · simp [apply_decl, back_append, GPolyDecl.entry, hd]
    · simp [apply_decl, back_append, GPolyDecl.parsed]
    · simp [apply_decl, back_append, GPolyDecl.parsed, GPolyDecl.parameters, hd]

/-- C16 at the declaration `p = x;` in a fresh parser: the table entry and the
stored polynomial both have the parameter list `["x"]`. -/
theorem C16_implicit_parameter_witness :
    ∃ s2, parse_poly_decl 10 (Parser.new (decl_p_x.tokens ++ [])) = .ok s2 ∧ s2.lexer = [] ∧
      (back s2.polynomial_table).name = "p" ∧
      (back s2.polynomial_table).parameters = ["x"] ∧
      (back s2.polynomial_table).has_explicit_params = false ∧
      (back s2.parsed_polynomials).name = "p" ∧
      (back s2.parsed_polynomials).params = ["x"] :=
  (C16_implicit_parameter 10 (Parser.new (decl_p_x.tokens ++ [])) []).2 decl_p_x rfl
    (by decide) rfl

/-! ### Allocation of variables (C17) -/

theorem table_from_append : ∀ (l1 l2 : List String) (k : Nat),
    table_from k (l1 ++ l2) = table_from k l1 ++ table_from (k + l1.length) l2
  | [], l2, k => by simp [table_from]
  | a :: l1, l2, k => by
    have e : k + 1 + l1.length = k + (l1.length + 1) := by omega
    show _ :: table_from (k + 1) (l1 ++ l2) = _ :: table_from (k + 1) l1 ++ _
    rw [table_from_append l1 l2 (k + 1), e]
    rfl

theorem table_from_length : ∀ (l : List String) (k : Nat), (table_from k l).length = l.length
  | [], _ => rfl
  | _ :: l, k => by simp [table_from, table_from_length l (k + 1)]

theorem find_table_from : ∀ (l : List String) (k : Nat) (n : String),
    (table_from k l).find? (fun var => var.name == n) =
      if n ∈ l then some { location := ((k + l.indexOf n : Nat) : Int), name := n } else none
  | [], k, n => by simp [table_from]
  | a :: l, k, n => by
    simp only [table_from, List.find?_cons]
    by_cases h : a = n
    · subst h
      simp
    · have h' : (a == n) = false := by simpa using h
      have h'' : ¬ n = a := fun e => h e.symm
      simp only [h', find_table_from l (k + 1) n, List.mem_cons, h'', false_or,
        List.indexOf_cons_ne _ h]
      by_cases hm : n ∈ l
      · simp only [hm, if_true]
        have e : k + 1 + List.indexOf n l = k + (List.indexOf n l).succ := by omega
        rw [e]
      · simp [hm]

theorem alloc_table_of (l : List String) (n : String) :
    alloc n (table_of l) (l.length : Int) =
      (table_of (add_name l n), ((add_name l n).length : Int)) := by
  unfold alloc table_of
  rw [find_table_from]
  by_cases h : n ∈ l
  · simp [h, add_name]
  · simp [h, add_name, table_from_append, table_from]

theorem allocate_all_eq : ∀ (ns : List String) (s : Parser) (l : List String),
    s.symbol_table = table_of l → s.next_available = (l.length : Int) →
    allocate_all ns s =
      { s with
        symbol_table := table_of (names_from l ns)
        next_available := ((names_from l ns).length : Int) }
  | [], s, l, h1, h2 => by
    simp only [allocate_all, names_from]
    rw [← h1, ← h2]
  | n :: ns, s, l, h1, h2 => by
    simp only [allocate_all, names_from]
    rw [allocate_variable_eq, h1, h2, alloc_table_of]
    rw [allocate_all_eq ns _ (add_name l n) rfl rfl]

theorem names_from_append : ∀ (ns ms acc : List String),
    names_from acc (ns ++ ms) = names_from (names_from acc ns) ms
  | [], _, _ => rfl
  | n :: ns, ms, acc => by
    simp only [List.cons_append, names_from]
    exact names_from_append ns ms _

theorem names_from_extends : ∀ (ns acc : List String), ∃ ext, names_from acc ns = acc ++ ext
  | [], acc => ⟨[], by simp [names_from]⟩
  | n :: ns, acc => by
    obtain ⟨ext, h⟩ := names_from_extends ns (add_name acc n)
    simp only [names_from, h]
    unfold add_name
    by_cases hm : n ∈ acc
    · exact ⟨ext, by simp [hm]⟩
    · exact ⟨n :: ext, by simp [hm]⟩

theorem mem_names_from : ∀ (ns acc : List String) (x : String),
    x ∈ names_from acc ns ↔ x ∈ acc ∨ x ∈ ns
  | [], acc, x => by simp [names_from]
  | n :: ns, acc, x => by
    simp only [names_from, mem_names_from ns, List.mem_cons]
    unfold add_name
    by_cases hm : n ∈ acc
    · simp only [hm, if_true]
      constructor
      · rintro (h | h)
        · exact Or.inl h
        · exact Or.inr (Or.inr h)
      · rintro (h | h | h)
        · exact Or.inl h
        · exact Or.inl (h ▸ hm)
        · exact Or.inr h
    · simp only [hm, if_false, List.mem_append, List.mem_singleton]
      tauto

theorem nodup_names_from : ∀ (ns acc : List String), acc.Nodup → (names_from acc ns).Nodup
  | [], _, h => h
  | n :: ns, acc, h => by
    simp only [names_from]
    apply nodup_names_from ns
    unfold add_name
    by_cases hm : n ∈ acc
    · simpa [hm] using h
    · simp only [hm, if_false]
      rw [List.nodup_append]
      refine ⟨h, List.nodup_singleton n, ?_⟩
      intro a ha hb
      rw [List.mem_singleton] at hb
      exact hm (hb ▸ ha)

theorem names_from_length (ns : List String) : (names_from [] ns).length = ns.dedup.length := by
  have h1 : (names_from [] ns).Nodup := nodup_names_from ns [] List.nodup_nil
  have h2 : (names_from [] ns).toFinset = ns.toFinset := by
    ext x
    simp [mem_names_from]
  rw [← List.toFinset_card_of_nodup h1, h2, List.card_toFinset]

/-- C17: in the run of `allocate_variable` over a sequence of names from the
freshly constructed parser, the first call with a name returns the number of
distinct names allocated before it, and every later call with that name
returns that same index and leaves the parser state (symbol table and
next-available counter included) unchanged. -/
theorem C17_allocation_is_stable (tokens : List Token) (pre post : List String) (name : String)
    (h : name ∉ pre) :
    (allocate_variable name (allocate_all pre (Parser.new tokens))).1 = (pre.dedup.length : Int) ∧
    allocate_variable name (allocate_all (pre ++ name :: post) (Parser.new tokens)) =
      ((pre.dedup.length : Int), allocate_all (pre ++ name :: post) (Parser.new tokens)) := by
  have hnot : name ∉ names_from [] pre := by
    rw [mem_names_from]
    simp [h]
  constructor
  · rw [allocate_all_eq pre (Parser.new tokens) [] rfl rfl]
    unfold allocate_variable
    simp only [find_table_from, table_of, hnot, if_false, names_from_length]
  · rw [allocate_all_eq (pre ++ name :: post) (Parser.new tokens) [] rfl rfl]
    have e1 : names_from [] (pre ++ name :: post) =
        names_from (names_from [] pre ++ [name]) post := by
      rw [names_from_append]
      simp only [names_from]
      unfold add_name
      simp [hnot]
    obtain ⟨ext, hext⟩ := names_from_extends post (names_from [] pre ++ [name])
    have hmem : name ∈ names_from [] (pre ++ name :: post) := by
      rw [mem_names_from]
      simp
    have hidx : (names_from [] (pre ++ name :: post)).indexOf name = (names_from [] pre).length := by
      rw [e1, hext, List.indexOf_append_of_mem (by simp),
        List.indexOf_append_of_not_mem hnot]
      simp
    unfold allocate_variable
    simp only [find_table_from, table_of, hmem, if_true, hidx, Nat.zero_add, names_from_length]

/-- C17 at the calls `a, b, a, c, b`: the first call with `c` returns 2, the
number of distinct names before it, and a later call with `a` returns 0
and changes nothing. -/
theorem C17_allocation_is_stable_witness :
    ((allocate_variable "c" (allocate_all ["a", "b", "a"] (Parser.new []))).1 = 2 ∧
      allocate_variable "c" (allocate_all (["a", "b", "a"] ++ "c" :: ["b"]) (Parser.new [])) =
        (2, allocate_all (["a", "b", "a"] ++ "c" :: ["b"]) (Parser.new []))) ∧
    (["a", "b", "a"].dedup.length : Int) = 2 :=
  ⟨C17_allocation_is_stable [] ["a", "b", "a"] ["b"] "c" (by decide), by decide⟩

/-! ### The instruction list of a program (C19) -/

theorem apply_decls_exec_frame : ∀ (ds : List GPolyDecl) (s : Parser),
    (apply_decls ds s).symbol_table = s.symbol_table ∧
      (apply_decls ds s).next_available = s.next_available ∧
      (apply_decls ds s).current_args = s.current_args ∧
      (apply_decls ds s).instructions = s.instructions ∧
      (apply_decls ds s).mem = s.mem
  | [], _ => ⟨rfl, rfl, rfl, rfl, rfl⟩
  | d :: ds, s => by
    simp only [apply_decls]
    exact apply_decls_exec_frame ds (apply_decl d s)

theorem apply_stmt_exec (st : GStmt) (s : Parser) (l : List String)
    (h1 : s.symbol_table = table_of l) (h2 : s.next_available = (l.length : Int))
    (h3 : s.current_args = []) :
    (apply_stmt st s).symbol_table = table_of (names_from l st.allocated) ∧
      (apply_stmt st s).next_available = ((names_from l st.allocated).length : Int) ∧
      (apply_stmt st s).current_args = [] ∧
      (apply_stmt st s).instructions = s.instructions ++ [instruction_of st] ∧
      (apply_stmt st s).mem = s.mem := by
  cases st <;>
    simp [apply_stmt, h1, h2, h3, alloc_table_of, GStmt.allocated, names_from, instruction_of]

theorem apply_stmts_exec : ∀ (sts : List GStmt) (s : Parser) (l : List String),
    s.symbol_table = table_of l → s.next_available = (l.length : Int) → s.current_args = [] →
    (apply_stmts sts s).symbol_table = table_of (names_from l (sts.flatMap GStmt.allocated)) ∧
      (apply_stmts sts s).next_available =
        ((names_from l (sts.flatMap GStmt.allocated)).length : Int) ∧
      (apply_stmts sts s).current_args = [] ∧
      (apply_stmts sts s).instructions = s.instructions ++ sts.map instruction_of ∧
      (apply_stmts sts s).mem = s.mem
  | [], s, l, h1, h2, h3 => by simp [apply_stmts, names_from, h1, h2, h3]
  | st :: sts, s, l, h1, h2, h3 => by
    obtain ⟨g1, g2, g3, g4, g5⟩ := apply_stmt_exec st s l h1 h2 h3
    obtain ⟨k1, k2, k3, k4, k5⟩ := apply_stmts_exec sts (apply_stmt st s) _ g1 g2 g3
    simp only [apply_stmts, List.flatMap_cons, names_from_append, List.map_cons]
    refine ⟨k1, k2, k3, ?_, k5.trans g5⟩
    rw [k4, g4]
    simp

theorem final_exec (p : GProgram) :
    p.final.symbol_table = table_of (names_from [] (p.all_stmts.flatMap GStmt.allocated)) ∧
      p.final.instructions = p.all_stmts.map instruction_of ∧
      p.final.mem = [] ∧
      p.final.input_values = p.all_inputs.map (fun n => atoi n.lexeme) := by
  obtain ⟨f1, f2, f3, f4, f5⟩ := apply_decls_exec_frame p.all_decls (Parser.new [])
  obtain ⟨k1, _, _, k4, k5⟩ := apply_stmts_exec p.all_stmts (apply_decls p.all_decls (Parser.new []))
    [] (by rw [f1]; rfl) (by rw [f2]; rfl) (by rw [f3]; rfl)
  refine ⟨k1, ?_, ?_, rfl⟩
  · show (apply_stmts p.all_stmts (apply_decls p.all_decls (Parser.new []))).instructions = _
    rw [k4, f4]
    rfl
  · show (apply_stmts p.all_stmts (apply_decls p.all_decls (Parser.new []))).mem = _
    rw [k5, f5]
    rfl

/-- C19: the parser ends on the instruction list that has, for each statement
in order, the instruction of that statement, where the argument list of an
assignment is exactly the bare identifier arguments of its call in source
order, those of nested evaluations included, with no entry for a literal or
for the result of a nested evaluation, and with nothing from an earlier
statement. -/
theorem C19_argument_lists (p : GProgram) (fuel : Nat) (hf : p.need ≤ fuel) :
    ∃ s, parse_phase fuel (Parser.new p.tokens) = .ok s ∧
      s.instructions = p.all_stmts.map instruction_of ∧
      ∀ (i : Nat) (target eq : Lex) (e : GEval) (semi : Lex),
        p.all_stmts[i]? = some (.assign target eq e semi) →
        ∃ inst, s.instructions[i]? = some inst ∧ inst.type = .EVAL ∧
          inst.eval.target_var = target.lexeme ∧ inst.eval.arg_vars = e.bare_ids := by
  refine ⟨p.final, parse_phase_tree p fuel hf, (final_exec p).2.1, ?_⟩
  intro i target eq e semi h
  refine ⟨instruction_of (.assign target eq e semi), ?_, rfl, rfl, rfl⟩
  rw [(final_exec p).2.1, List.getElem?_map, h]
  rfl

/-- C19 at the statements `INPUT c; a = p(b, q(3, c), 4, c); d = q(a);`: the
argument lists stored are `b, c, c` and `a`. -/
theorem C19_argument_lists_witness :
    prog_nested_arguments.need ≤ 100 ∧
    ∃ s, parse_phase 100 (Parser.new prog_nested_arguments.tokens) = .ok s ∧
      s.instructions = prog_nested_arguments.all_stmts.map instruction_of ∧
      ∀ (i : Nat) (target eq : Lex) (e : GEval) (semi : Lex),
        prog_nested_arguments.all_stmts[i]? = some (.assign target eq e semi) →
        ∃ inst, s.instructions[i]? = some inst ∧ inst.type = .EVAL ∧
          inst.eval.target_var = target.lexeme ∧ inst.eval.arg_vars = e.bare_ids :=
  ⟨by decide!, C19_argument_lists prog_nested_arguments 100 (by decide!)⟩

theorem nested_arguments_instructions :
    (parse_phase 100 (Parser.new prog_nested_arguments.tokens)).map
        (fun s => s.instructions.map (fun inst => inst.eval.arg_vars)) =
      .ok [[], ["b", "c", "c"], ["a"]] := by decide!

/-! ### Execution of input statements (C12) -/

theorem vec_read_nat (v : List Int) (i : Nat) (h : i < v.length) :
    vec_read v (i : Int) = .ok (v.getD i 0) := by
  unfold vec_read
  have h1 : (0 : Int) ≤ (i : Int) ∧ (i : Int) < (v.length : Int) := ⟨by omega, by omega⟩
  simp only [h1, and_self, if_true, Int.toNat_ofNat]

theorem vec_write_nat (v : List Int) (i : Nat) (x : Int) (h : i < v.length) :
    vec_write v (i : Int) x = .ok (v.set i x) := by
  unfold vec_write
  have h1 : (0 : Int) ≤ (i : Int) ∧ (i : Int) < (v.length : Int) := ⟨by omega, by omega⟩
  simp only [h1, and_self, if_true, Int.toNat_ofNat]

theorem vec_write_outside (v : List Int) (i : Nat) (x : Int) (h : v.length ≤ i) :
    vec_write v (i : Int) x = .error .undefined := by
  unfold vec_write
  have h1 : ¬ ((0 : Int) ≤ (i : Int) ∧ (i : Int) < (v.length : Int)) := by omega
  simp only [h1, if_false]

theorem lookup_table_of (s : Parser) (l : List String) (x : String)
    (h : s.symbol_table = table_of l) :
    lookup_var s x =
      if x ∈ l then some { location := ((l.indexOf x : Nat) : Int), name := x } else none := by
  unfold lookup_var
  rw [h, table_of, find_table_from]
  simp only [Nat.zero_add]

theorem resize_length (v : List Int) (n : Nat) (x : Int) : (resize v n x).length = n := by
  unfold resize
  simp only [List.length_append, List.length_take, List.length_replicate]
  omega

theorem execute_input_ok (σ : Parser × List Int) (l : List String) (values : List Int) (c : Nat)
    (x : String) (h : Ready (table_of l) values c σ.1) (hx : x ∈ l) (hi : l.indexOf x < 1000)
    (hc : c < values.length) :
    ∃ s, execute_instruction σ { type := .INPUT, var_name := x } = .ok (s, σ.2) ∧
      Ready (table_of l) values (c + 1) s ∧
      lookup_var s x = some { location := ((l.indexOf x : Nat) : Int), name := x } ∧
      vec_read s.mem ((l.indexOf x : Nat) : Int) = .ok (values.getD c 0) := by
  obtain ⟨h1, h2, h3, h4⟩ := h
  have hl := lookup_table_of σ.1 l x h1
  simp only [hx, if_true] at hl
  have hw := vec_write_nat σ.1.mem (l.indexOf x) (values.getD c 0) (by omega)
  refine ⟨{ σ.1 with current_input_index := σ.1.current_input_index + 1,
                      mem := σ.1.mem.set (l.indexOf x) (values.getD c 0) }, ?_, ?_, ?_, ?_⟩
  · unfold execute_instruction
    simp only [hl, h2, h4, vec_read_nat values c hc, bind, Except.bind, hw, pure, Except.pure]
  · refine ⟨h1, h2, ?_, ?_⟩
    · simp only [List.length_set, h3]
    · simp only [h4]
      push_cast
      rfl
  · exact hl
  · simp only []
    rw [vec_read_nat _ _ (by simp only [List.length_set]; omega)]
    simp only [List.getD_eq_getElem?_getD, List.getElem?_set_self (show l.indexOf x < σ.1.mem.length by omega),
      Option.getD_some]

theorem execute_input_outside (σ : Parser × List Int) (l : List String) (values : List Int)
    (c : Nat) (x : String) (h : Ready (table_of l) values c σ.1) (hx : x ∈ l)
    (hi : 1000 ≤ l.indexOf x) (hc : c < values.length) :
    execute_instruction σ { type := .INPUT, var_name := x } = .error .undefined := by
  obtain ⟨h1, h2, h3, h4⟩ := h
  have hl := lookup_table_of σ.1 l x h1
  simp only [hx, if_true] at hl
  have hw := vec_write_outside σ.1.mem (l.indexOf x) (values.getD c 0) (by omega)
  unfold execute_instruction
  simp only [hl, h2, h4, vec_read_nat values c hc, bind, Except.bind, hw]

theorem collect_arg_values_ok (s : Parser) (l : List String) (hl : l.length ≤ 1000)
    (h1 : s.symbol_table = table_of l) (h3 : s.mem.length = 1000) :
    ∀ args : List String, ∃ vs, collect_arg_values s args = .ok vs
  | [] => ⟨[], rfl⟩
  | a :: args => by
    obtain ⟨vs, hvs⟩ := collect_arg_values_ok s l hl h1 h3 args
    unfold collect_arg_values
    rw [lookup_table_of s l a h1]
    by_cases ha : a ∈ l
    · have hi := List.indexOf_lt_length.mpr ha
      simp only [ha, if_true, vec_read_nat s.mem (l.indexOf a) (by omega), hvs, bind, Except.bind,
        pure, Except.pure]
      exact ⟨_, rfl⟩
    · simp only [ha, if_false, hvs]
      exact ⟨_, rfl⟩

theorem execute_stmt_ok (l : List String) (hl : l.length ≤ 1000) (values : List Int) (st : GStmt)
    (hst : ∀ x ∈ st.allocated, x ∈ l) (σ : Parser × List Int) (c : Nat)
    (h : Ready (table_of l) values c σ.1) (hc : c + count_inputs [st] ≤ values.length) :
    ∃ σ', execute_instruction σ (instruction_of st) = .ok σ' ∧
      Ready (table_of l) values (c + count_inputs [st]) σ'.1 := by
  cases st with
  | input kw x semi =>
    have hx : x.lexeme ∈ l := hst _ (by simp [GStmt.allocated])
    have hi := List.indexOf_lt_length.mpr hx
    simp only [count_inputs] at hc
    obtain ⟨s, e1, e2, _⟩ := execute_input_ok σ l values c x.lexeme h hx (by omega) (by omega)
    exact ⟨(s, σ.2), e1, e2⟩
  | output kw x semi =>
    obtain ⟨h1, h2, h3, h4⟩ := h
    simp only [count_inputs, instruction_of, Nat.add_zero]
    unfold execute_instruction
    simp only []
    rw [lookup_table_of σ.1 l x.lexeme h1]
    by_cases hx : x.lexeme ∈ l
    · have hi := List.indexOf_lt_length.mpr hx
      simp only [hx, if_true, vec_read_nat σ.1.mem (l.indexOf x.lexeme) (by omega), bind,
        Except.bind, pure, Except.pure]
      exact ⟨_, rfl, h1, h2, h3, h4⟩
    · simp only [hx, if_false, pure, Except.pure]
      exact ⟨_, rfl, h1, h2, h3, h4⟩
  | assign target eq e semi =>
    obtain ⟨h1, h2, h3, h4⟩ := h
    obtain ⟨vs, hvs⟩ := collect_arg_values_ok σ.1 l hl h1 h3 e.bare_ids
    simp only [count_inputs, instruction_of, Nat.add_zero]
    unfold execute_instruction
    simp only [hvs, bind, Except.bind]
    rw [lookup_table_of σ.1 l target.lexeme h1]
    by_cases hx : target.lexeme ∈ l
    · have hi := List.indexOf_lt_length.mpr hx
      simp only [hx, if_true, vec_write_nat σ.1.mem (l.indexOf target.lexeme) _ (by omega), pure,
        Except.pure]
      refine ⟨_, rfl, h1, h2, ?_, h4⟩
      simp only [List.length_set, h3]
    · simp only [hx, if_false, pure, Except.pure]
      exact ⟨_, rfl, h1, h2, h3, h4⟩

theorem count_inputs_cons (st : GStmt) (sts : List GStmt) :
    count_inputs (st :: sts) = count_inputs [st] + count_inputs sts := by
  cases st <;> simp [count_inputs, Nat.add_comm]

theorem count_inputs_append : ∀ (a b : List GStmt),
    count_inputs (a ++ b) = count_inputs a + count_inputs b
  | [], b => by simp [count_inputs]
  | st :: a, b => by
    rw [List.cons_append, count_inputs_cons, count_inputs_append a b, count_inputs_cons st a]
    omega

theorem run_stmts_ok (l : List String) (hl : l.length ≤ 1000) (values : List Int) :
    ∀ (sts : List GStmt) (σ : Parser × List Int) (c : Nat),
      (∀ x ∈ sts.flatMap GStmt.allocated, x ∈ l) → Ready (table_of l) values c σ.1 →
      c + count_inputs sts ≤ values.length →
      ∃ σ', (sts.map instruction_of).foldlM execute_instruction σ = .ok σ' ∧
        Ready (table_of l) values (c + count_inputs sts) σ'.1
  | [], σ, c, _, h, _ => ⟨σ, rfl, h⟩
  | st :: sts, σ, c, hm, h, hc => by
    rw [count_inputs_cons] at hc
    obtain ⟨σ1, e1, r1⟩ := execute_stmt_ok l hl values st
      (fun x hx => hm x (by simp only [List.flatMap_cons, List.mem_append]; exact Or.inl hx))
      σ c h (by omega)
    obtain ⟨σ2, e2, r2⟩ := run_stmts_ok l hl values sts σ1 (c + count_inputs [st])
      (fun x hx => hm x (by simp only [List.flatMap_cons, List.mem_append]; exact Or.inr hx))
      r1 (by omega)
    refine ⟨σ2, ?_, ?_⟩
    · simp only [List.map_cons, List.foldlM_cons, e1, bind, Except.bind, e2]
    · rw [count_inputs_cons, ← Nat.add_assoc]
      exact r2

theorem final_ready (p : GProgram) :
    Ready (table_of (names_from [] (p.all_stmts.flatMap GStmt.allocated)))
      (p.all_inputs.map (fun n => atoi n.lexeme)) 0 (start_state p.final) := by
  obtain ⟨f1, _, _, f4⟩ := final_exec p
  exact ⟨f1, f4, resize_length _ _ _, rfl⟩

theorem execute_first_final (p : GProgram) (k : Nat) :
    execute_first k p.final =
      ((p.all_stmts.take k).map instruction_of).foldlM execute_instruction
        (start_state p.final, []) := by
  rw [List.map_take, ← (final_exec p).2.1]
  rfl

theorem execute_program_final (p : GProgram) :
    execute_program p.final =
      (p.all_stmts.map instruction_of).foldlM execute_instruction
        (start_state p.final, []) := by
  rw [← (final_exec p).2.1]
  rfl

/-- Within the capacity of the memory the input statements behave as C12
says: for every program that allocates at most 1000 distinct variables and
has at least as many INPUTS
numbers as input statements, execution succeeds with the input cursor at the
number of input statements, and right after the k-th input statement has
been executed, the slot of its variable holds the k-th number of the INPUTS
section and the cursor is k. -/
theorem inputs_in_order_within_capacity (p : GProgram) (fuel : Nat) (hf : p.need ≤ fuel)
    (hv : (p.all_stmts.flatMap GStmt.allocated).dedup.length ≤ 1000)
    (hi : count_inputs p.all_stmts ≤ p.all_inputs.length) :
    ∃ s, parse_phase fuel (Parser.new p.tokens) = .ok s ∧
      (∃ r, execute_program s = .ok r ∧
        r.1.current_input_index = (count_inputs p.all_stmts : Int)) ∧
      ∀ (pre : List GStmt) (kw x semi : Lex) (post : List GStmt),
        p.all_stmts = pre ++ .input kw x semi :: post →
        ∃ r var n, execute_first (pre.length + 1) s = .ok r ∧
          lookup_var r.1 x.lexeme = some var ∧
          p.all_inputs[count_inputs pre]? = some n ∧
          vec_read r.1.mem var.location = .ok (atoi n.lexeme) ∧
          r.1.current_input_index = ((count_inputs pre + 1 : Nat) : Int) := by
  have hl : (names_from [] (p.all_stmts.flatMap GStmt.allocated)).length ≤ 1000 := by
    rw [names_from_length]
    exact hv
  have hm : ∀ x ∈ p.all_stmts.flatMap GStmt.allocated,
      x ∈ names_from [] (p.all_stmts.flatMap GStmt.allocated) := by
    intro x hx
    rw [mem_names_from]
    exact Or.inr hx
  have hlen : (p.all_inputs.map (fun n => atoi n.lexeme)).length = p.all_inputs.length :=
    List.length_map _ _
  refine ⟨p.final, parse_phase_tree p fuel hf, ?_, ?_⟩
  · obtain ⟨σ, e, r⟩ := run_stmts_ok _ hl _ p.all_stmts (start_state p.final, []) 0 hm (final_ready p) (by omega)
    refine ⟨σ, ?_, ?_⟩
    · rw [execute_program_final, e]
    · rw [r.2.2.2, Nat.zero_add]
  · intro pre kw x semi post hsplit
    have hcount : count_inputs p.all_stmts = count_inputs pre + (count_inputs post + 1) := by
      rw [hsplit, count_inputs_append]
      rfl
    have hm1 : ∀ y ∈ pre.flatMap GStmt.allocated,
        y ∈ names_from [] (p.all_stmts.flatMap GStmt.allocated) := by
      intro y hy
      apply hm
      rw [hsplit, List.flatMap_append]
      exact List.mem_append_left _ hy
    have hx : x.lexeme ∈ names_from [] (p.all_stmts.flatMap GStmt.allocated) := by
      apply hm
      rw [hsplit, List.flatMap_append, List.flatMap_cons]
      simp [GStmt.allocated]
    have hidx := List.indexOf_lt_length.mpr hx
    obtain ⟨σ1, e1, r1⟩ := run_stmts_ok _ hl _ pre (start_state p.final, []) 0 hm1 (final_ready p) (by omega)
    obtain ⟨s2, e2, r2, hlook, hread⟩ := execute_input_ok σ1 _ _ _ x.lexeme r1 hx (by omega)
      (by omega)
    have hlt : count_inputs pre < p.all_inputs.length := by omega
    refine ⟨(s2, σ1.2), _, p.all_inputs[count_inputs pre], ?_, hlook, ?_, ?_, ?_⟩
    · have htake : List.take (pre.length + 1) p.all_stmts = pre ++ [.input kw x semi] := by
        rw [hsplit, List.take_append_eq_append_take]
        simp
      rw [execute_first_final, htake, List.map_append, List.foldlM_append, e1]
      simp only [List.map_cons, List.map_nil, instruction_of, List.foldlM_cons, List.foldlM_nil,
        bind, Except.bind, e2, pure, Except.pure]
    · exact List.getElem?_eq_getElem hlt
    · rw [hread]
      simp only [Nat.zero_add, List.getD_eq_getElem?_getD, List.getElem?_map,
        List.getElem?_eq_getElem hlt, Option.map_some', Option.getD_some]
    · rw [r2.2.2.2, Nat.zero_add]

/-- The program `INPUT a; INPUT b; a = p(b); OUTPUT a; INPUTS 7 8` as an example
within the capacity of the memory. -/
theorem inputs_in_order_within_capacity_example :
    (prog_two_inputs.need ≤ 100 ∧
      (prog_two_inputs.all_stmts.flatMap GStmt.allocated).dedup.length ≤ 1000 ∧
      count_inputs prog_two_inputs.all_stmts ≤ prog_two_inputs.all_inputs.length) ∧
    ∃ s, parse_phase 100 (Parser.new prog_two_inputs.tokens) = .ok s ∧
      (∃ r, execute_program s = .ok r ∧
        r.1.current_input_index = (count_inputs prog_two_inputs.all_stmts : Int)) ∧
      ∀ (pre : List GStmt) (kw x semi : Lex) (post : List GStmt),
        prog_two_inputs.all_stmts = pre ++ .input kw x semi :: post →
        ∃ r var n, execute_first (pre.length + 1) s = .ok r ∧
          lookup_var r.1 x.lexeme = some var ∧
          prog_two_inputs.all_inputs[count_inputs pre]? = some n ∧
          vec_read r.1.mem var.location = .ok (atoi n.lexeme) ∧
          r.1.current_input_index = ((count_inputs pre + 1 : Nat) : Int) :=
  ⟨⟨by decide!, by decide!, by decide!⟩,
    inputs_in_order_within_capacity prog_two_inputs 100 (by decide!) (by decide!) (by decide!)⟩

theorem two_inputs_run :
    (parse_phase 100 (Parser.new prog_two_inputs.tokens)).bind
        (fun s => (execute_first 2 s).map (fun r => (r.1.mem.take 2, r.1.current_input_index))) =
      .ok ([7, 8], 2) ∧
    observed (main 100 prog_two_inputs.tokens) = .ok [8] := by decide!

/-! ### A program with more than 1000 variables -/

theorem names_from_nodup : ∀ (ns acc : List String), (acc ++ ns).Nodup →
    names_from acc ns = acc ++ ns
  | [], acc, _ => by simp [names_from]
  | n :: ns, acc, h => by
    have hn : n ∉ acc := by
      intro hm
      have := (List.nodup_append.mp h).2.2
      exact this hm (List.mem_cons_self n ns)
    have e : add_name acc n = acc ++ [n] := by simp [add_name, hn]
    simp only [names_from, e]
    rw [names_from_nodup ns (acc ++ [n]) (by simpa using h)]
    simp

theorem run_inputs_ok (l : List String) (values : List Int) :
    ∀ (xs : List String) (σ : Parser × List Int) (c : Nat),
      (∀ x ∈ xs, x ∈ l ∧ l.indexOf x < 1000) → Ready (table_of l) values c σ.1 →
      c + xs.length ≤ values.length →
      ∃ σ', (xs.map (fun x => ({ type := .INPUT, var_name := x } : Instruction))).foldlM
          execute_instruction σ = .ok σ' ∧
        Ready (table_of l) values (c + xs.length) σ'.1
  | [], σ, c, _, h, _ => ⟨σ, rfl, h⟩
  | x :: xs, σ, c, hm, h, hc => by
    simp only [List.length_cons] at hc
    obtain ⟨hx, hi⟩ := hm x (List.mem_cons_self x xs)
    obtain ⟨s1, e1, r1, _⟩ := execute_input_ok σ l values c x h hx hi (by omega)
    obtain ⟨σ2, e2, r2⟩ := run_inputs_ok l values xs (s1, σ.2) (c + 1)
      (fun y hy => hm y (List.mem_cons_of_mem x hy)) r1 (by omega)
    refine ⟨σ2, ?_, ?_⟩
    · simp only [List.map_cons, List.foldlM_cons, e1, bind, Except.bind, e2]
    · have e : c + (x :: xs).length = c + 1 + xs.length := by
        simp only [List.length_cons]
        omega
      rw [e]
      exact r2

theorem execute_program_outside (s : Parser) (front : List String) (z : String)
    (hlen : front.length = 1000) (hz : z ∉ front)
    (h1 : s.symbol_table = table_of (front ++ [z]))
    (h2 : s.instructions =
      (front ++ [z]).map (fun x => ({ type := .INPUT, var_name := x } : Instruction)))
    (h3 : 1001 ≤ s.input_values.length) :
    execute_program s = .error .undefined := by
  have hr : Ready (table_of (front ++ [z])) s.input_values 0 (start_state s) :=
    ⟨h1, rfl, resize_length _ _ _, rfl⟩
  have hfront : ∀ x ∈ front, x ∈ front ++ [z] ∧ (front ++ [z]).indexOf x < 1000 := by
    intro x hx
    refine ⟨List.mem_append_left _ hx, ?_⟩
    rw [List.indexOf_append_of_mem hx, ← hlen]
    exact List.indexOf_lt_length.mpr hx
  have hzi : (front ++ [z]).indexOf z = 1000 := by
    rw [List.indexOf_append_of_not_mem hz, hlen]
    simp
  obtain ⟨σ1, e1, r1⟩ := run_inputs_ok (front ++ [z]) s.input_values front (start_state s, []) 0
    hfront hr (by omega)
  have e2 := execute_input_outside σ1 (front ++ [z]) s.input_values (0 + front.length) z r1
    (by simp) (by omega) (by omega)
  show List.foldlM execute_instruction (start_state s, []) s.instructions = _
  rw [h2, List.map_append, List.foldlM_append, e1]
  simp only [List.map_cons, List.map_nil, List.foldlM_cons, bind, Except.bind, e2]

theorem unary_name_injective : Function.Injective unary_name := by
  intro i j h
  have h1 : List.replicate (i + 1) 'a' = List.replicate (j + 1) 'a' := congrArg String.data h
  have h2 := congrArg List.length h1
  simp only [List.length_replicate] at h2
  omega

theorem many_inputs_stmts (n : Nat) :
    (prog_many_inputs n).all_stmts = (List.range (n + 1)).map input_stmt := by
  simp only [GProgram.all_stmts, prog_many_inputs, List.range_succ_eq_map, List.map_cons,
    List.map_map]
  rfl

theorem input_stmts_allocated : ∀ (is : List Nat),
    (is.map input_stmt).flatMap GStmt.allocated = is.map unary_name
  | [] => rfl
  | i :: is => by
    simp only [List.map_cons, List.flatMap_cons, input_stmts_allocated is]
    rfl

theorem input_stmts_instructions : ∀ (is : List Nat),
    (is.map input_stmt).map instruction_of =
      (is.map unary_name).map (fun x => ({ type := .INPUT, var_name := x } : Instruction))
  | [] => rfl
  | i :: is => by
    simp only [List.map_cons, input_stmts_instructions is]
    rfl

theorem input_stmts_count : ∀ (is : List Nat), count_inputs (is.map input_stmt) = is.length
  | [] => rfl
  | i :: is => by
    simp only [List.map_cons, List.length_cons, ← input_stmts_count is]
    rfl

theorem many_inputs_undefined (n : Nat) (hn : n = 1000) :
    execute_program (prog_many_inputs n).final = .error .undefined := by
  obtain ⟨f1, f2, _, f4⟩ := final_exec (prog_many_inputs n)
  have hnd : ((List.range (n + 1)).map unary_name).Nodup :=
    (List.nodup_range (n + 1)).map unary_name_injective
  have hsplit : (List.range (n + 1)).map unary_name =
      (List.range n).map unary_name ++ [unary_name n] := by
    rw [List.range_succ, List.map_append]
    rfl
  rw [many_inputs_stmts, input_stmts_allocated, names_from_nodup _ [] (by simpa using hnd),
    List.nil_append, hsplit] at f1
  rw [many_inputs_stmts, input_stmts_instructions, hsplit] at f2
  have hz : unary_name n ∉ (List.range n).map unary_name := by
    intro hm
    obtain ⟨i, hi, e⟩ := List.mem_map.mp hm
    have := unary_name_injective e
    rw [List.mem_range] at hi
    omega
  refine execute_program_outside _ _ _ ?_ hz f1 f2 ?_
  · rw [List.length_map, List.length_range, hn]
  · rw [f4, List.length_map]
    simp only [GProgram.all_inputs, prog_many_inputs, List.length_cons, List.length_replicate]
    omega

theorem many_inputs_last_slot (n : Nat) (hn : n = 1000) :
    (lookup_var (prog_many_inputs n).final (unary_name n)).map (fun var => var.location) =
      some 1000 := by
  obtain ⟨f1, _, _, _⟩ := final_exec (prog_many_inputs n)
  have hnd : ((List.range (n + 1)).map unary_name).Nodup :=
    (List.nodup_range (n + 1)).map unary_name_injective
  have hsplit : (List.range (n + 1)).map unary_name =
      (List.range n).map unary_name ++ [unary_name n] := by
    rw [List.range_succ, List.map_append]
    rfl
  rw [many_inputs_stmts, input_stmts_allocated, names_from_nodup _ [] (by simpa using hnd),
    List.nil_append, hsplit] at f1
  have hz : unary_name n ∉ (List.range n).map unary_name := by
    intro hm
    obtain ⟨i, hi, e⟩ := List.mem_map.mp hm
    have := unary_name_injective e
    rw [List.mem_range] at hi
    omega
  have hidx : ((List.range n).map unary_name ++ [unary_name n]).indexOf (unary_name n) = n := by
    rw [List.indexOf_append_of_not_mem hz, List.length_map, List.length_range]
    simp
  have hmem : unary_name n ∈ (List.range n).map unary_name ++ [unary_name n] := by simp
  rw [lookup_table_of _ _ _ f1, if_pos hmem, hidx, Option.map_some']
  have e : ((n : Nat) : Int) = 1000 := by omega
  rw [e]

/-- C12 (code evaluated at the failing input): the program with 1001 input
statements, each on a variable of its own, and 1001 numbers in the INPUTS
section parses; the variable of the 1001st input statement has slot 1000,
the memory has 1000 slots, and the 1001st input statement writes `mem[1000]`,
outside the vector, which is undefined behaviour. -/
theorem C12_thousand_and_one_variables :
    count_inputs (prog_many_inputs 1000).all_stmts = 1001 ∧
    (prog_many_inputs 1000).all_inputs.length = 1001 ∧
    ∃ s, parse_phase (prog_many_inputs 1000).need (Parser.new (prog_many_inputs 1000).tokens) =
        .ok s ∧
      (lookup_var s (unary_name 1000)).map (fun var => var.location) = some 1000 ∧
      (start_state s).mem.length = 1000 ∧
      execute_program s = .error .undefined := by
  refine ⟨?_, ?_, (prog_many_inputs 1000).final,
    parse_phase_tree (prog_many_inputs 1000) _ (Nat.le_refl _), many_inputs_last_slot 1000 rfl,
    resize_length _ _ _, many_inputs_undefined 1000 rfl⟩
  · rw [many_inputs_stmts, input_stmts_count, List.length_range]
  · simp only [GProgram.all_inputs, prog_many_inputs, List.length_cons, List.length_replicate]

/-! ### The parser accepts exactly the language of the grammar (C14, C15) -/

theorem expect_elim (ty : TokenType) (hty : ty ≠ END_OF_FILE) (s : Parser) :
    expect ty s = .error .syntax_error ∨
      ∃ (x : Lex) (rest : List Token), s.lexer = x.tok ty :: rest ∧
        expect ty s = .ok (x.tok ty, { s with lexer := rest }) := by
  cases hl : s.lexer with
  | nil =>
    left
    unfold expect
    have : END_OF_FILE ≠ ty := fun e => hty e.symm
    simp [LexicalAnalyzer.GetToken, LexicalAnalyzer.peek, hl, eofToken, syntax_error, this]
  | cons t rest =>
    rw [expect_cons ty s t rest hl]
    by_cases ht : t.token_type = ty
    · right
      subst ht
      exact ⟨⟨t.lexeme, t.line_no⟩, rest, rfl, by simp [Lex.tok]⟩
    · left
      simp [ht]

theorem Recognised.of_ok {lang : List Token → Prop} {short : Prop} {before : List Token}
    {r : Res Parser} {s' : Parser} (h : Recognised lang short before r) (hr : r = .ok s') :
    ∃ ts, lang ts ∧ before = ts ++ s'.lexer := by
  subst hr
  exact h

theorem Recognised.of_error {lang : List Token → Prop} {short : Prop} {before : List Token}
    {r : Res Parser} {e : Exit} (h : Recognised lang short before r) (hr : r = .error e) :
    e = .syntax_error ∨ (e = .out_of_fuel ∧ short) := by
  subst hr
  exact h

theorem expect_ok_inv (ty : TokenType) (hty : ty ≠ END_OF_FILE) {s : Parser} {v : Token × Parser}
    (h : expect ty s = .ok v) : ∃ x : Lex, s.lexer = x.tok ty :: v.2.lexer := by
  rcases expect_elim ty hty s with he | ⟨x, rest, hl, he⟩
  · rw [he] at h
    cases h
  · rw [he] at h
    cases h
    exact ⟨x, hl⟩

theorem expect_error_inv {ty : TokenType} {s : Parser} {e : Exit}
    (h : expect ty s = .error e) : e = .syntax_error := by
  unfold expect at h
  simp only [] at h
  split at h
  · cases h
    rfl
  · cases h

theorem check_invalid_monomial_lexer (a : String) (d : PolynomialDecl) (n : Int) (s : Parser) :
    (check_invalid_monomial a d n s).lexer = s.lexer := by
  unfold check_invalid_monomial
  split <;> rfl

theorem recognised_syntax_error (lang : List Token → Prop) (short : Prop) (before : List Token) :
    Recognised lang short before (.error .syntax_error) := Or.inl rfl

theorem parse_coefficient_elim (s : Parser) :
    parse_coefficient s = .error .syntax_error ∨
      ∃ (x : Lex) (s' : Parser), s.lexer = x.tok NUM :: s'.lexer ∧ parse_coefficient s = .ok s' := by
  unfold parse_coefficient
  rcases expect_elim NUM (by decide) s with he | ⟨x, rest, hl, he⟩
  · left
    simp only [he, bind, Except.bind]
  · right
    simp only [he, bind, Except.bind, pure, Except.pure]
    split
    · exact ⟨x, _, hl, rfl⟩
    · exact ⟨x, _, hl, rfl⟩

theorem parse_exponent_elim (s : Parser) :
    parse_exponent s = .error .syntax_error ∨
      ∃ (x y : Lex) (s' : Parser), s.lexer = x.tok POWER :: y.tok NUM :: s'.lexer ∧
        parse_exponent s = .ok s' := by
  unfold parse_exponent
  rcases expect_elim POWER (by decide) s with he | ⟨x, rest, hl, he⟩
  · left
    simp only [he, bind, Except.bind]
  · simp only [he, bind, Except.bind, pure, Except.pure]
    rcases expect_elim NUM (by decide) { s with lexer := rest } with he2 | ⟨y, rest2, hl2, he2⟩
    · left
      simp only [he2]
    · right
      simp only [he2]
      simp only [] at hl2
      split
      · exact ⟨x, y, _, by rw [hl, hl2], rfl⟩
      · exact ⟨x, y, _, by rw [hl, hl2], rfl⟩

theorem parse_add_operator_elim (s : Parser) :
    parse_add_operator s = .error .syntax_error ∨
      ∃ (minus : Bool) (x : Lex) (s' : Parser),
        s.lexer = x.tok (if minus then MINUS else PLUS) :: s'.lexer ∧
        parse_add_operator s = .ok s' := by
  unfold parse_add_operator
  cases hl : s.lexer with
  | nil =>
    left
    simp [LexicalAnalyzer.GetToken, LexicalAnalyzer.peek, eofToken, syntax_error]
  | cons t rest =>
    simp only [LexicalAnalyzer.GetToken, peek_cons, List.tail_cons]
    by_cases h1 : t.token_type = PLUS
    · right
      have h2 : ¬ t.token_type = MINUS := by rw [h1]; decide
      refine ⟨false, ⟨t.lexeme, t.line_no⟩, { s with lexer := rest }, ?_, ?_⟩
      · simp [Lex.tok, ← h1]
      · simp [h1, pure, Except.pure]
    · by_cases h2 : t.token_type = MINUS
      · right
        have h3 : ¬ (t.token_type ≠ PLUS ∧ t.token_type ≠ MINUS) := fun h => h.2 h2
        simp only [h3, if_false, h2, true_and, pure, Except.pure]
        by_cases h4 : s.current_poly.terms.length > 0
        · simp only [h4, if_true]
          exact ⟨true, ⟨t.lexeme, t.line_no⟩, _, by simp [Lex.tok, ← h2], rfl⟩
        · simp only [h4, if_false]
          exact ⟨true, ⟨t.lexeme, t.line_no⟩, _, by simp [Lex.tok, ← h2], rfl⟩
      · left
        simp [h1, h2, syntax_error]


mutual
theorem need_le_term_list : ∀ tl : GTermList, tl.need ≤ 5 * tl.tokens.length
  | .single t => by
    have := need_le_term t
    simp only [GTermList.need, GTermList.tokens]
    omega
  | .cons t _ _ rest => by
    have := need_le_term t
    have := need_le_term_list rest
    simp only [GTermList.need, GTermList.tokens, List.length_append, List.length_cons]
    omega
theorem need_le_term : ∀ t : GTerm, t.need + 1 ≤ 5 * t.tokens.length
  | .num _ => by simp [GTerm.need, GTerm.tokens]
  | .numMon _ ml => by
    have := need_le_monomial_list ml
    simp only [GTerm.need, GTerm.tokens, List.length_cons]
    omega
  | .mon ml => by
    have := need_le_monomial_list ml
    simp only [GTerm.need, GTerm.tokens]
    omega
theorem need_le_monomial_list : ∀ ml : GMonomialList, ml.need + 2 ≤ 5 * ml.tokens.length
  | .single m => by
    have := need_le_monomial m
    simp only [GMonomialList.need, GMonomialList.tokens]
    omega
  | .cons m rest => by
    have := need_le_monomial m
    have := need_le_monomial_list rest
    simp only [GMonomialList.need, GMonomialList.tokens, List.length_append]
    omega
theorem need_le_monomial : ∀ m : GMonomial, m.need + 3 ≤ 5 * m.tokens.length
  | .plain p => by
    have := need_le_primary p
    simp only [GMonomial.need, GMonomial.tokens]
    omega
  | .pow p _ _ => by
    have := need_le_primary p
    simp only [GMonomial.need, GMonomial.tokens, List.length_append, List.length_cons,
      List.length_nil]
    omega
theorem need_le_primary : ∀ p : GPrimary, p.need + 4 ≤ 5 * p.tokens.length
  | .id _ => by simp [GPrimary.need, GPrimary.tokens]
  | .paren _ tl _ => by
    have := need_le_term_list tl
    simp only [GPrimary.need, GPrimary.tokens, List.length_append, List.length_cons,
      List.length_nil]
    omega
end

theorem body_sound (fuel : Nat) :
    (∀ s, Recognised (fun ts => ∃ t : GTermList, ts = t.tokens)
      (fuel < 5 * s.lexer.length + 5) s.lexer (parse_term_list fuel s)) ∧
    (∀ s, Recognised (fun ts => ∃ t : GTerm, ts = t.tokens)
      (fuel < 5 * s.lexer.length + 4) s.lexer (parse_term fuel s)) ∧
    (∀ s, Recognised (fun ts => ∃ t : GMonomialList, ts = t.tokens)
      (fuel < 5 * s.lexer.length + 3) s.lexer (parse_monomial_list fuel s)) ∧
    (∀ s, Recognised (fun ts => ∃ t : GMonomial, ts = t.tokens)
      (fuel < 5 * s.lexer.length + 2) s.lexer (parse_monomial fuel s)) ∧
    (∀ s, Recognised (fun ts => ∃ t : GPrimary, ts = t.tokens)
      (fuel < 5 * s.lexer.length + 1) s.lexer (parse_primary fuel s)) := by
  induction fuel with
  | zero =>
    refine ⟨?_, ?_, ?_, ?_, ?_⟩ <;> intro s
    · rw [parse_term_list]
      exact Or.inr ⟨rfl, by omega⟩
    · rw [parse_term]
      exact Or.inr ⟨rfl, by omega⟩
    · rw [parse_monomial_list]
      exact Or.inr ⟨rfl, by omega⟩
    · rw [parse_monomial]
      exact Or.inr ⟨rfl, by omega⟩
    · rw [parse_primary]
      exact Or.inr ⟨rfl, by omega⟩
  | succ f ih =>
    obtain ⟨ihTL, ihT, ihML, ihM, ihP⟩ := ih
    refine ⟨?_, ?_, ?_, ?_, ?_⟩ <;> intro s
    · rw [parse_term_list]
      have h := ihT s
      cases hr : parse_term f s with
      | error e =>
        rw [hr] at h
        simp only [bind, Except.bind]
        rcases h with h | ⟨h, hb⟩
        · exact Or.inl h
        · exact Or.inr ⟨h, by omega⟩
      | ok s1 =>
        rw [hr] at h
        obtain ⟨ts, ⟨t, rfl⟩, hl⟩ := h
        have e1 := congrArg List.length hl
        simp only [List.length_append] at e1
        simp only [bind, Except.bind]
        split
        · rcases parse_add_operator_elim s1 with he | ⟨minus, x, s2, hl2, he⟩
          · simp only [he]
            exact Or.inl rfl
          · simp only [he]
            have e2 := congrArg List.length hl2
            simp only [List.length_cons] at e2
            have h2 := ihTL s2
            cases hr2 : parse_term_list f s2 with
            | error e =>
              rw [hr2] at h2
              rcases h2 with h2 | ⟨h2, hb⟩
              · exact Or.inl h2
              · exact Or.inr ⟨h2, by omega⟩
            | ok s3 =>
              rw [hr2] at h2
              obtain ⟨ts2, ⟨t2, rfl⟩, hl3⟩ := h2
              exact ⟨_, ⟨.cons t minus x t2, rfl⟩, by
                rw [hl, hl2, hl3]
                simp [GTermList.tokens]⟩
        · exact ⟨_, ⟨.single t, rfl⟩, hl⟩
    · rw [parse_term]
      simp only []
      split
      · rcases parse_coefficient_elim s with he | ⟨x, s1, hl, he⟩
        · simp only [he, bind, Except.bind]
          exact Or.inl rfl
        · simp only [he, bind, Except.bind]
          have e1 := congrArg List.length hl
          simp only [List.length_cons] at e1
          split
          · have h2 := ihML s1
            cases hr2 : parse_monomial_list f s1 with
            | error e =>
              rw [hr2] at h2
              rcases h2 with h2 | ⟨h2, hb⟩
              · exact Or.inl h2
              · exact Or.inr ⟨h2, by omega⟩
            | ok s3 =>
              rw [hr2] at h2
              obtain ⟨ts2, ⟨t2, rfl⟩, hl3⟩ := h2
              exact ⟨_, ⟨.numMon x t2, rfl⟩, by
                rw [hl, hl3]
                simp [GTerm.tokens]⟩
          · exact ⟨_, ⟨.num x, rfl⟩, hl⟩
      · have h2 := ihML { s with current_coefficient := 1 }
        cases hr2 : parse_monomial_list f { s with current_coefficient := 1 } with
        | error e =>
          rw [hr2] at h2
          rcases h2 with h2 | ⟨h2, hb⟩
          · exact Or.inl h2
          · exact Or.inr ⟨h2, by
              simp only [] at hb
              omega⟩
        | ok s3 =>
          rw [hr2] at h2
          obtain ⟨ts2, ⟨t2, rfl⟩, hl3⟩ := h2
          exact ⟨_, ⟨.mon t2, rfl⟩, hl3⟩
    · rw [parse_monomial_list]
      have h := ihM s
      cases hr : parse_monomial f s with
      | error e =>
        rw [hr] at h
        simp only [bind, Except.bind]
        rcases h with h | ⟨h, hb⟩
        · exact Or.inl h
        · exact Or.inr ⟨h, by omega⟩
      | ok s1 =>
        rw [hr] at h
        obtain ⟨ts, ⟨t, rfl⟩, hl⟩ := h
        have e1 := congrArg List.length hl
        simp only [List.length_append] at e1
        have e0 := need_le_monomial t
        simp only [bind, Except.bind]
        split
        · have h2 := ihML s1
          cases hr2 : parse_monomial_list f s1 with
          | error e =>
            rw [hr2] at h2
            rcases h2 with h2 | ⟨h2, hb⟩
            · exact Or.inl h2
            · exact Or.inr ⟨h2, by omega⟩
          | ok s3 =>
            rw [hr2] at h2
            obtain ⟨ts2, ⟨t2, rfl⟩, hl3⟩ := h2
            exact ⟨_, ⟨.cons t t2, rfl⟩, by
              rw [hl, hl3]
              simp [GMonomialList.tokens]⟩
        · exact ⟨_, ⟨.single t, rfl⟩, hl⟩
    · rw [parse_monomial]
      have h := ihP s
      cases hr : parse_primary f s with
      | error e =>
        rw [hr] at h
        simp only [bind, Except.bind]
        rcases h with h | ⟨h, hb⟩
        · exact Or.inl h
        · exact Or.inr ⟨h, by omega⟩
      | ok s1 =>
        rw [hr] at h
        obtain ⟨ts, ⟨t, rfl⟩, hl⟩ := h
        simp only [bind, Except.bind]
        split
        · rcases parse_exponent_elim s1 with he | ⟨x, y, s2, hl2, he⟩
          · simp only [he]
            exact Or.inl rfl
          · simp only [he]
            exact ⟨_, ⟨.pow t x y, rfl⟩, by
              rw [hl, hl2]
              simp [GMonomial.tokens]⟩
        · exact ⟨_, ⟨.plain t, rfl⟩, hl⟩
    · rw [parse_primary]
      simp only []
      split
      · rcases expect_elim ID (by decide) s with he | ⟨x, rest, hl, he⟩
        · simp only [he, bind, Except.bind]
          exact Or.inl rfl
        · simp only [he, bind, Except.bind, pure, Except.pure]
          refine ⟨_, ⟨.id x, rfl⟩, ?_⟩
          rw [hl]
          simp only [GPrimary.tokens, List.singleton_append, List.cons.injEq, true_and]
          split <;> simp [check_invalid_monomial_lexer]
      · split
        · rcases expect_elim LPAREN (by decide) s with he | ⟨x, rest, hl, he⟩
          · simp only [he, bind, Except.bind]
            exact Or.inl rfl
          · simp only [he, bind, Except.bind, pure, Except.pure]
            have e1 := congrArg List.length hl
            simp only [List.length_cons] at e1
            have h2 := ihTL { s with lexer := rest }
            cases hr2 : parse_term_list f { s with lexer := rest } with
            | error e =>
              rw [hr2] at h2
              rcases h2 with h2 | ⟨h2, hb⟩
              · exact Or.inl h2
              · exact Or.inr ⟨h2, by
                  simp only [] at hb
                  omega⟩
            | ok s3 =>
              rw [hr2] at h2
              obtain ⟨ts2, ⟨t2, rfl⟩, hl3⟩ := h2
              simp only [] at hl3
              rcases expect_elim RPAREN (by decide) s3 with he3 | ⟨y, rest3, hl4, he3⟩
              · simp only [he3]
                exact Or.inl rfl
              · simp only [he3]
                exact ⟨_, ⟨.paren x t2 y, rfl⟩, by
                  rw [hl, hl3, hl4]
                  simp [GPrimary.tokens]⟩
        · exact Or.inl rfl


theorem need_le_id_list : ∀ ids : GIdList, ids.need ≤ ids.tokens.length
  | .single _ => by simp [GIdList.need, GIdList.tokens]
  | .cons _ _ rest => by
    have := need_le_id_list rest
    simp only [GIdList.need, GIdList.tokens, List.length_cons]
    omega

theorem parse_id_list_sound : ∀ (fuel : Nat) (s : Parser),
    Recognised (fun ts => ∃ t : GIdList, ts = t.tokens) (fuel < 5 * s.lexer.length + 1) s.lexer
      (parse_id_list fuel s)
  | 0, s => by
    rw [parse_id_list]
    exact Or.inr ⟨rfl, by omega⟩
  | f + 1, s => by
    rw [parse_id_list]
    simp only [bind, Except.bind]
    split
    · next e he => exact Or.inl (expect_error_inv he)
    · next v he =>
      obtain ⟨x, hl⟩ := expect_ok_inv ID (by decide) he
      obtain ⟨t, s1⟩ := v
      simp only [] at hl ⊢
      split
      · split
        · next e he2 => exact Or.inl (expect_error_inv he2)
        · next v2 he2 =>
          obtain ⟨y, hl2⟩ := expect_ok_inv COMMA (by decide) he2
          obtain ⟨t2, s2⟩ := v2
          simp only [] at hl2 ⊢
          have e1 := congrArg List.length hl
          have e2 := congrArg List.length hl2
          simp only [List.length_cons] at e1 e2
          have ih := parse_id_list_sound f s2
          cases hr : parse_id_list f s2 with
          | error e =>
            rcases ih.of_error hr with h | ⟨h, hb⟩
            · exact Or.inl h
            · exact Or.inr ⟨h, by omega⟩
          | ok s3 =>
            obtain ⟨ts, ⟨ids, rfl⟩, hl3⟩ := ih.of_ok hr
            exact ⟨_, ⟨.cons x y ids, rfl⟩, by
              rw [hl, hl2, hl3]
              simp [GIdList.tokens]⟩
      · split
        · exact Or.inl rfl
        · exact ⟨_, ⟨.single x, rfl⟩, by
            rw [hl]
            simp [GIdList.tokens, pure, Except.pure]⟩

theorem check_duplicate_polynomial_lexer (a : String) (n : Int) (s : Parser) :
    (check_duplicate_polynomial a n s).lexer = s.lexer := by
  unfold check_duplicate_polynomial
  split <;> rfl

theorem check_undeclared_polynomial_lexer (a : String) (n : Int) (s : Parser) :
    (check_undeclared_polynomial a n s).lexer = s.lexer := by
  unfold check_undeclared_polynomial
  simp only []
  split <;> rfl

theorem check_wrong_number_of_arguments_lexer (a : String) (n k : Int) (s : Parser) :
    (check_wrong_number_of_arguments a n k s).lexer = s.lexer := by
  unfold check_wrong_number_of_arguments
  split
  · split <;> rfl
  · rfl

theorem allocate_variable_lexer (a : String) (s : Parser) :
    (allocate_variable a s).2.lexer = s.lexer := by
  rw [allocate_variable_eq]

theorem parse_poly_header_sound (f : Nat) (s : Parser) :
    Recognised
      (fun ts => ∃ (name : Lex) (params : Option (Lex × GIdList × Lex)),
        ts = name.tok ID :: (match params with
          | none => []
          | some (lp, ids, rp) => lp.tok LPAREN :: (ids.tokens ++ [rp.tok RPAREN])))
      (f < 5 * s.lexer.length) s.lexer (parse_poly_header f s) := by
  unfold parse_poly_header parse_poly_name
  simp only [bind, Except.bind, pure, Except.pure]
  split
  · next e he =>
    split at he
    · next e2 he2 =>
      cases he
      exact Or.inl (expect_error_inv he2)
    · cases he
  · next s1 he =>
    split at he
    · cases he
    · next v he2 =>
      obtain ⟨x, hl⟩ := expect_ok_inv ID (by decide) he2
      obtain ⟨t, s0⟩ := v
      simp only [] at hl he
      cases he
      have e1 := congrArg List.length hl
      simp only [List.length_cons] at e1
      split
      · split
        · next e he3 => exact Or.inl (expect_error_inv he3)
        · next v3 he3 =>
          obtain ⟨lp, hl3⟩ := expect_ok_inv LPAREN (by decide) he3
          obtain ⟨t3, s3⟩ := v3
          simp only [] at hl3 ⊢
          have e3 := congrArg List.length hl3
          simp only [List.length_cons] at e3
          split
          · next e he4 =>
            rcases (parse_id_list_sound f s3).of_error he4 with h | ⟨h, hb⟩
            · exact Or.inl h
            · exact Or.inr ⟨h, by omega⟩
          · next s4 he4 =>
            obtain ⟨ts, ⟨ids, rfl⟩, hl4⟩ := (parse_id_list_sound f s3).of_ok he4
            split
            · next e he5 => exact Or.inl (expect_error_inv he5)
            · next v5 he5 =>
              obtain ⟨rp, hl5⟩ := expect_ok_inv RPAREN (by decide) he5
              obtain ⟨t5, s5⟩ := v5
              simp only [] at hl5 ⊢
              exact ⟨_, ⟨x, some (lp, ids, rp), rfl⟩, by
                rw [hl, hl3, hl4, hl5]
                simp⟩
      · exact ⟨_, ⟨x, none, rfl⟩, by
          rw [hl]
          simp⟩

theorem need_le_decl (d : GPolyDecl) : d.need + 1 ≤ 5 * d.tokens.length := by
  have h1 := need_le_term_list d.body
  unfold GPolyDecl.need GPolyDecl.tokens GPolyDecl.header_tokens
  cases hp : d.params with
  | none =>
    simp only [List.length_append, List.length_cons, List.length_nil]
    omega
  | some v =>
    obtain ⟨lp, ids, rp⟩ := v
    have h2 := need_le_id_list ids
    simp only [List.length_append, List.length_cons, List.length_nil]
    omega

theorem parse_poly_decl_sound (f : Nat) (s : Parser) :
    Recognised (fun ts => ∃ d : GPolyDecl, ts = d.tokens) (f < 5 * s.lexer.length) s.lexer
      (parse_poly_decl f s) := by
  unfold parse_poly_decl parse_poly_body
  simp only [bind, Except.bind, pure, Except.pure]
  split
  · next e he =>
    rcases (parse_poly_header_sound f _).of_error he with h | ⟨h, hb⟩
    · exact Or.inl h
    · exact Or.inr ⟨h, by simpa [check_duplicate_polynomial_lexer] using hb⟩
  · next s1 he =>
    obtain ⟨ts, ⟨name, params, rfl⟩, hl⟩ := (parse_poly_header_sound f _).of_ok he
    simp only [check_duplicate_polynomial_lexer] at hl
    have e1 := congrArg List.length hl
    simp only [List.length_append, List.length_cons] at e1
    split
    · next e he2 => exact Or.inl (expect_error_inv he2)
    · next v2 he2 =>
      obtain ⟨eq, hl2⟩ := expect_ok_inv EQUAL (by decide) he2
      obtain ⟨t2, s2⟩ := v2
      simp only [] at hl2 ⊢
      have e2 := congrArg List.length hl2
      simp only [List.length_cons] at e2
      split
      · next e he3 =>
        rcases (body_sound f).1 s2 |>.of_error he3 with h | ⟨h, hb⟩
        · exact Or.inl h
        · exact Or.inr ⟨h, by omega⟩
      · next s3 he3 =>
        obtain ⟨ts3, ⟨body, rfl⟩, hl3⟩ := ((body_sound f).1 s2).of_ok he3
        split
        · next e he4 => exact Or.inl (expect_error_inv he4)
        · next v4 he4 =>
          obtain ⟨semi, hl4⟩ := expect_ok_inv SEMICOLON (by decide) he4
          obtain ⟨t4, s4⟩ := v4
          simp only [] at hl4 ⊢
          exact ⟨_, ⟨⟨name, params, eq, body, semi⟩, rfl⟩, by
            rw [hl, hl2, hl3, hl4]
            rcases params with _ | ⟨lp, ids, rp⟩ <;>
              simp [GPolyDecl.tokens, GPolyDecl.header_tokens]⟩

theorem decls_need_le : ∀ ds : List GPolyDecl, decls_need ds ≤ 5 * (decls_tokens ds).length
  | [] => by simp [decls_need]
  | d :: ds => by
    have := need_le_decl d
    have := decls_need_le ds
    simp only [decls_need, decls_tokens, List.length_append]
    omega

theorem parse_poly_decl_list_sound : ∀ (fuel : Nat) (s : Parser),
    Recognised (fun ts => ∃ (d : GPolyDecl) (ds : List GPolyDecl), ts = decls_tokens (d :: ds))
      (fuel < 5 * s.lexer.length + 1) s.lexer (parse_poly_decl_list fuel s)
  | 0, s => by
    rw [parse_poly_decl_list]
    exact Or.inr ⟨rfl, by omega⟩
  | f + 1, s => by
    rw [parse_poly_decl_list]
    simp only [bind, Except.bind, pure, Except.pure]
    split
    · next e he =>
      rcases (parse_poly_decl_sound f s).of_error he with h | ⟨h, hb⟩
      · exact Or.inl h
      · exact Or.inr ⟨h, by omega⟩
    · next s1 he =>
      obtain ⟨ts, ⟨d, rfl⟩, hl⟩ := (parse_poly_decl_sound f s).of_ok he
      have e1 := congrArg List.length hl
      simp only [List.length_append] at e1
      have e0 := need_le_decl d
      split
      · have ih := parse_poly_decl_list_sound f s1
        cases hr : parse_poly_decl_list f s1 with
        | error e =>
          rcases ih.of_error hr with h | ⟨h, hb⟩
          · exact Or.inl h
          · exact Or.inr ⟨h, by omega⟩
        | ok s2 =>
          obtain ⟨ts2, ⟨d2, ds2, rfl⟩, hl2⟩ := ih.of_ok hr
          exact ⟨_, ⟨d, d2 :: ds2, rfl⟩, by
            rw [hl, hl2]
            simp [decls_tokens]⟩
      · exact ⟨_, ⟨d, [], rfl⟩, by
          rw [hl]
          simp [decls_tokens]⟩

theorem parse_poly_section_sound (f : Nat) (s : Parser) :
    Recognised
      (fun ts => ∃ (kw : Lex) (d : GPolyDecl) (ds : List GPolyDecl),
        ts = kw.tok POLY :: decls_tokens (d :: ds))
      (f < 5 * s.lexer.length) s.lexer (parse_poly_section f s) := by
  unfold parse_poly_section
  simp only [bind, Except.bind]
  split
  · next e he => exact Or.inl (expect_error_inv he)
  · next v he =>
    obtain ⟨kw, hl⟩ := expect_ok_inv POLY (by decide) he
    obtain ⟨t, s1⟩ := v
    simp only [] at hl ⊢
    have e1 := congrArg List.length hl
    simp only [List.length_cons] at e1
    have ih := parse_poly_decl_list_sound f s1
    cases hr : parse_poly_decl_list f s1 with
    | error e =>
      rcases ih.of_error hr with h | ⟨h, hb⟩
      · exact Or.inl h
      · exact Or.inr ⟨h, by omega⟩
    | ok s2 =>
      obtain ⟨ts2, ⟨d, ds, rfl⟩, hl2⟩ := ih.of_ok hr
      exact ⟨_, ⟨kw, d, ds, rfl⟩, by
        rw [hl, hl2]
        simp⟩

theorem Recognised.extend {lang lang' : List Token → Prop} {short short' : Prop}
    {before before' : List Token} {r : Res Parser} (h : Recognised lang' short' before' r)
    (pre : List Token) (hb : before = pre ++ before') (hl : ∀ ts, lang' ts → lang (pre ++ ts))
    (hs : short' → short) : Recognised lang short before r := by
  cases r with
  | error e =>
    rcases h with h | ⟨h, h'⟩
    · exact Or.inl h
    · exact Or.inr ⟨h, hs h'⟩
  | ok s' =>
    obtain ⟨ts, h1, h2⟩ := h
    exact ⟨pre ++ ts, hl ts h1, by rw [hb, h2, List.append_assoc]⟩

theorem store_input_value_lexer (a : String) (s : Parser) :
    (store_input_value a s).lexer = s.lexer := rfl

theorem parse_num_list_sound : ∀ (fuel : Nat) (s : Parser),
    Recognised (fun ts => ∃ (n : Lex) (ns : List Lex), ts = nums_tokens (n :: ns))
      (fuel < 5 * s.lexer.length + 1) s.lexer (parse_num_list fuel s)
  | 0, s => by
    rw [parse_num_list]
    exact Or.inr ⟨rfl, by omega⟩
  | f + 1, s => by
    rw [parse_num_list]
    simp only [bind, Except.bind, pure, Except.pure]
    split
    · next e he => exact Or.inl (expect_error_inv he)
    · next v he =>
      obtain ⟨n, hl⟩ := expect_ok_inv NUM (by decide) he
      obtain ⟨t, s1⟩ := v
      simp only [] at hl ⊢
      have e1 := congrArg List.length hl
      simp only [List.length_cons] at e1
      split <;>
      · split
        · exact (parse_num_list_sound f _).extend [n.tok NUM] (by rw [hl]; rfl)
            (by
              rintro ts ⟨n2, ns2, rfl⟩
              exact ⟨n, n2 :: ns2, by simp [nums_tokens]⟩)
            (by
              intro hb
              try simp only [store_input_value_lexer] at hb
              omega)
        · exact ⟨_, ⟨n, [], rfl⟩, by
            rw [hl]
            simp [nums_tokens, store_input_value_lexer]⟩

theorem parse_tasks_section_sound (f : Nat) (s : Parser) :
    Recognised
      (fun ts => ∃ (kw n : Lex) (ns : List Lex), ts = kw.tok TASKS :: nums_tokens (n :: ns))
      (f < 5 * s.lexer.length) s.lexer (parse_tasks_section f s) := by
  unfold parse_tasks_section
  simp only [bind, Except.bind]
  split
  · next e he => exact Or.inl (expect_error_inv he)
  · next v he =>
    obtain ⟨kw, hl⟩ := expect_ok_inv TASKS (by decide) he
    obtain ⟨t, s1⟩ := v
    simp only [] at hl ⊢
    have e1 := congrArg List.length hl
    simp only [List.length_cons] at e1
    have ih := parse_num_list_sound f s1
    cases hr : parse_num_list f s1 with
    | error e =>
      rcases ih.of_error hr with h | ⟨h, hb⟩
      · exact Or.inl h
      · exact Or.inr ⟨h, by omega⟩
    | ok s2 =>
      obtain ⟨ts2, ⟨n, ns, rfl⟩, hl2⟩ := ih.of_ok hr
      exact ⟨_, ⟨kw, n, ns, rfl⟩, by
        rw [hl, hl2]
        simp⟩

theorem parse_inputs_section_sound (f : Nat) (s : Parser) :
    Recognised
      (fun ts => ∃ (kw n : Lex) (ns : List Lex), ts = kw.tok INPUTS :: nums_tokens (n :: ns))
      (f < 5 * s.lexer.length) s.lexer (parse_inputs_section f s) := by
  unfold parse_inputs_section
  simp only [bind, Except.bind, pure, Except.pure]
  split
  · next e he => exact Or.inl (expect_error_inv he)
  · next v he =>
    obtain ⟨kw, hl⟩ := expect_ok_inv INPUTS (by decide) he
    obtain ⟨t, s1⟩ := v
    simp only [] at hl ⊢
    have e1 := congrArg List.length hl
    simp only [List.length_cons] at e1
    split
    · next e he2 =>
      rcases (parse_num_list_sound f _).of_error he2 with h | ⟨h, hb⟩
      · exact Or.inl h
      · exact Or.inr ⟨h, by
          simp only [] at hb
          omega⟩
    · next s2 he2 =>
      obtain ⟨ts2, ⟨n, ns, rfl⟩, hl2⟩ := (parse_num_list_sound f _).of_ok he2
      simp only [] at hl2
      exact ⟨_, ⟨kw, n, ns, rfl⟩, by
        rw [hl, hl2]
        simp⟩


theorem map_snd_ok {r : Res (Int × Parser)} {v : Int × Parser} (h : r = .ok v) :
    Except.map Prod.snd r = .ok v.2 := by
  subst h
  rfl

theorem map_snd_error {r : Res (Int × Parser)} {e : Exit} (h : r = .error e) :
    Except.map Prod.snd r = .error e := by
  subst h
  rfl

mutual
theorem need_le_arg : ∀ a : GArg, a.need + 2 ≤ 5 * a.tokens.length
  | .id _ => by simp [GArg.need, GArg.tokens]
  | .num _ => by simp [GArg.need, GArg.tokens]
  | .call e => by
    have := need_le_eval e
    simp only [GArg.need, GArg.tokens]
    omega
theorem need_le_arg_list : ∀ al : GArgList, al.need ≤ 5 * al.tokens.length
  | .single a => by
    have := need_le_arg a
    simp only [GArgList.need, GArgList.tokens]
    omega
  | .cons a _ rest => by
    have := need_le_arg a
    have := need_le_arg_list rest
    simp only [GArgList.need, GArgList.tokens, List.length_append, List.length_cons]
    omega
theorem need_le_eval : ∀ e : GEval, e.need + 3 ≤ 5 * e.tokens.length
  | .mk _ _ args _ => by
    have := need_le_arg_list args
    simp only [GEval.need, GEval.tokens, List.length_append, List.length_cons, List.length_nil]
    omega
end

theorem eval_sound (fuel : Nat) :
    (∀ s, Recognised (fun ts => ∃ t : GEval, ts = t.tokens)
      (fuel < 5 * s.lexer.length + 1) s.lexer (parse_poly_evaluation fuel s)) ∧
    (∀ s, Recognised (fun ts => ∃ t : GArgList, ts = t.tokens)
      (fuel < 5 * s.lexer.length + 3) s.lexer ((parse_argument_list fuel s).map Prod.snd)) ∧
    (∀ s, Recognised (fun ts => ∃ t : GArg, ts = t.tokens)
      (fuel < 5 * s.lexer.length + 2) s.lexer (parse_argument fuel s)) := by
  induction fuel with
  | zero =>
    refine ⟨?_, ?_, ?_⟩ <;> intro s
    · rw [parse_poly_evaluation]
      exact Or.inr ⟨rfl, by omega⟩
    · rw [parse_argument_list]
      exact Or.inr ⟨rfl, by omega⟩
    · rw [parse_argument]
      exact Or.inr ⟨rfl, by omega⟩
  | succ f ih =>
    obtain ⟨ihE, ihAL, ihA⟩ := ih
    refine ⟨?_, ?_, ?_⟩ <;> intro s
    · rw [parse_poly_evaluation]
      simp only [bind, Except.bind, pure, Except.pure]
      split
      · next e he => exact Or.inl (expect_error_inv he)
      · next v he =>
        obtain ⟨name, hl⟩ := expect_ok_inv ID (by decide) he
        obtain ⟨t, s1⟩ := v
        simp only [] at hl ⊢
        have e1 := congrArg List.length hl
        simp only [List.length_cons] at e1
        split
        · next e he2 => exact Or.inl (expect_error_inv he2)
        · next v2 he2 =>
          obtain ⟨lp, hl2⟩ := expect_ok_inv LPAREN (by decide) he2
          obtain ⟨t2, s2⟩ := v2
          simp only [check_undeclared_polynomial_lexer] at hl2 ⊢
          have e2 := congrArg List.length hl2
          simp only [List.length_cons] at e2
          split
          · next e he3 =>
            rcases (ihAL _).of_error (map_snd_error he3) with h | ⟨h, hb⟩
            · exact Or.inl h
            · exact Or.inr ⟨h, by omega⟩
          · next v3 he3 =>
            obtain ⟨ts, ⟨args, rfl⟩, hl3⟩ := (ihAL _).of_ok (map_snd_ok he3)
            obtain ⟨k, s3⟩ := v3
            simp only [] at hl3 ⊢
            split
            · next e he4 => exact Or.inl (expect_error_inv he4)
            · next v4 he4 =>
              obtain ⟨rp, hl4⟩ := expect_ok_inv RPAREN (by decide) he4
              obtain ⟨t4, s4⟩ := v4
              simp only [] at hl4 ⊢
              exact ⟨_, ⟨.mk name lp args rp, rfl⟩, by
                rw [hl, hl2, hl3, hl4]
                simp [GEval.tokens, check_wrong_number_of_arguments_lexer]⟩
    · rw [parse_argument_list]
      simp only [bind, Except.bind, pure, Except.pure]
      split
      · next e he =>
        rcases (ihA _).of_error he with h | ⟨h, hb⟩
        · exact Or.inl h
        · exact Or.inr ⟨h, by omega⟩
      · next s1 he =>
        obtain ⟨ts, ⟨a, rfl⟩, hl⟩ := (ihA _).of_ok he
        have e1 := congrArg List.length hl
        simp only [List.length_append] at e1
        split
        · split
          · next e he2 => exact Or.inl (expect_error_inv he2)
          · next v2 he2 =>
            obtain ⟨comma, hl2⟩ := expect_ok_inv COMMA (by decide) he2
            obtain ⟨t2, s2⟩ := v2
            simp only [] at hl2 ⊢
            have e2 := congrArg List.length hl2
            simp only [List.length_cons] at e2
            split
            · next e he3 =>
              rcases (ihAL _).of_error (map_snd_error he3) with h | ⟨h, hb⟩
              · exact Or.inl h
              · exact Or.inr ⟨h, by omega⟩
            · next v3 he3 =>
              obtain ⟨ts3, ⟨rest, rfl⟩, hl3⟩ := (ihAL _).of_ok (map_snd_ok he3)
              obtain ⟨k, s3⟩ := v3
              simp only [] at hl3 ⊢
              exact ⟨_, ⟨.cons a comma rest, rfl⟩, by
                rw [hl, hl2, hl3]
                simp [GArgList.tokens, Except.map]⟩
        · exact ⟨_, ⟨.single a, rfl⟩, hl⟩
    · rw [parse_argument]
      simp only [bind, Except.bind, pure, Except.pure]
      split
      · split
        · exact (ihE s).extend [] rfl
            (by
              rintro ts ⟨e, rfl⟩
              exact ⟨.call e, rfl⟩)
            (by
              intro hb
              omega)
        · split
          · next e he => exact Or.inl (expect_error_inv he)
          · next v he =>
            obtain ⟨x, hl⟩ := expect_ok_inv ID (by decide) he
            obtain ⟨t, s1⟩ := v
            simp only [] at hl ⊢
            exact ⟨_, ⟨.id x, rfl⟩, hl⟩
      · split
        · split
          · next e he => exact Or.inl (expect_error_inv he)
          · next v he =>
            obtain ⟨x, hl⟩ := expect_ok_inv NUM (by decide) he
            obtain ⟨t, s1⟩ := v
            simp only [] at hl ⊢
            exact ⟨_, ⟨.num x, rfl⟩, hl⟩
        · exact (ihE s).extend [] rfl
            (by
              rintro ts ⟨e, rfl⟩
              exact ⟨.call e, rfl⟩)
            (by
              intro hb
              omega)


theorem need_le_stmt (st : GStmt) : st.need + 1 ≤ 5 * st.tokens.length := by
  cases st with
  | input _ _ _ => simp [GStmt.need, GStmt.tokens]
  | output _ _ _ => simp [GStmt.need, GStmt.tokens]
  | assign _ _ e _ =>
    have := need_le_eval e
    simp only [GStmt.need, GStmt.tokens, List.length_append, List.length_cons, List.length_nil]
    omega

theorem stmts_need_le : ∀ sts : List GStmt, stmts_need sts ≤ 5 * (stmts_tokens sts).length
  | [] => by simp [stmts_need]
  | st :: sts => by
    have := need_le_stmt st
    have := stmts_need_le sts
    simp only [stmts_need, stmts_tokens, List.length_append]
    omega

theorem need_le_program (p : GProgram) : p.need ≤ 5 * p.tokens.length := by
  have h1 := decls_need_le p.all_decls
  have h2 := stmts_need_le p.all_stmts
  simp only [GProgram.need, GProgram.tokens, GProgram.all_inputs, nums_tokens, List.length_cons,
    List.length_append, List.length_map]
  omega

theorem parse_statement_sound (f : Nat) (s : Parser) :
    Recognised (fun ts => ∃ st : GStmt, ts = st.tokens) (f < 5 * s.lexer.length) s.lexer
      (parse_statement f s) := by
  unfold parse_statement
  simp only []
  split
  · unfold parse_input_statement
    simp only [bind, Except.bind, pure, Except.pure]
    split
    · next e he => exact Or.inl (expect_error_inv he)
    · next v he =>
      obtain ⟨kw, hl⟩ := expect_ok_inv INPUT (by decide) he
      obtain ⟨t, s1⟩ := v
      simp only [] at hl ⊢
      split
      · next e he2 => exact Or.inl (expect_error_inv he2)
      · next v2 he2 =>
        obtain ⟨x, hl2⟩ := expect_ok_inv ID (by decide) he2
        obtain ⟨t2, s2⟩ := v2
        simp only [] at hl2 ⊢
        split
        · next e he3 => exact Or.inl (expect_error_inv he3)
        · next v3 he3 =>
          obtain ⟨semi, hl3⟩ := expect_ok_inv SEMICOLON (by decide) he3
          obtain ⟨t3, s3⟩ := v3
          simp only [] at hl3 ⊢
          exact ⟨_, ⟨.input kw x semi, rfl⟩, by
            rw [hl, hl2, hl3]
            simp [GStmt.tokens, allocate_variable_lexer]⟩
  · split
    · unfold parse_output_statement
      simp only [bind, Except.bind, pure, Except.pure]
      split
      · next e he => exact Or.inl (expect_error_inv he)
      · next v he =>
        obtain ⟨kw, hl⟩ := expect_ok_inv OUTPUT (by decide) he
        obtain ⟨t, s1⟩ := v
        simp only [] at hl ⊢
        split
        · next e he2 => exact Or.inl (expect_error_inv he2)
        · next v2 he2 =>
          obtain ⟨x, hl2⟩ := expect_ok_inv ID (by decide) he2
          obtain ⟨t2, s2⟩ := v2
          simp only [] at hl2 ⊢
          split
          · next e he3 => exact Or.inl (expect_error_inv he3)
          · next v3 he3 =>
            obtain ⟨semi, hl3⟩ := expect_ok_inv SEMICOLON (by decide) he3
            obtain ⟨t3, s3⟩ := v3
            simp only [] at hl3 ⊢
            exact ⟨_, ⟨.output kw x semi, rfl⟩, by
              rw [hl, hl2, hl3]
              simp [GStmt.tokens]⟩
    · split
      · unfold parse_assign_statement
        simp only [bind, Except.bind, pure, Except.pure]
        split
        · next e he => exact Or.inl (expect_error_inv he)
        · next v he =>
          obtain ⟨target, hl⟩ := expect_ok_inv ID (by decide) he
          obtain ⟨t, s1⟩ := v
          simp only [] at hl ⊢
          have e1 := congrArg List.length hl
          simp only [List.length_cons] at e1
          split
          · next e he2 => exact Or.inl (expect_error_inv he2)
          · next v2 he2 =>
            obtain ⟨eq, hl2⟩ := expect_ok_inv EQUAL (by decide) he2
            obtain ⟨t2, s2⟩ := v2
            simp only [] at hl2 ⊢
            have e2 := congrArg List.length hl2
            simp only [List.length_cons] at e2
            split
            · next e he3 =>
              rcases ((eval_sound f).1 _).of_error he3 with h | ⟨h, hb⟩
              · exact Or.inl h
              · exact Or.inr ⟨h, by omega⟩
            · next s3 he3 =>
              obtain ⟨ts, ⟨e, rfl⟩, hl3⟩ := ((eval_sound f).1 _).of_ok he3
              split
              · next e he4 => exact Or.inl (expect_error_inv he4)
              · next v4 he4 =>
                obtain ⟨semi, hl4⟩ := expect_ok_inv SEMICOLON (by decide) he4
                obtain ⟨t4, s4⟩ := v4
                simp only [] at hl4 ⊢
                exact ⟨_, ⟨.assign target eq e semi, rfl⟩, by
                  rw [hl, hl2, hl3, hl4]
                  simp [GStmt.tokens, allocate_variable_lexer]⟩
      · exact Or.inl rfl

theorem parse_statement_list_sound : ∀ (fuel : Nat) (s : Parser),
    Recognised (fun ts => ∃ (st : GStmt) (sts : List GStmt), ts = stmts_tokens (st :: sts))
      (fuel < 5 * s.lexer.length + 1) s.lexer (parse_statement_list fuel s)
  | 0, s => by
    rw [parse_statement_list]
    exact Or.inr ⟨rfl, by omega⟩
  | f + 1, s => by
    rw [parse_statement_list]
    simp only [bind, Except.bind, pure, Except.pure]
    split
    · next e he =>
      rcases (parse_statement_sound f s).of_error he with h | ⟨h, hb⟩
      · exact Or.inl h
      · exact Or.inr ⟨h, by omega⟩
    · next s1 he =>
      obtain ⟨ts, ⟨st, rfl⟩, hl⟩ := (parse_statement_sound f s).of_ok he
      have e1 := congrArg List.length hl
      simp only [List.length_append] at e1
      have e0 := need_le_stmt st
      split
      · exact (parse_statement_list_sound f s1).extend st.tokens hl
          (by
            rintro ts ⟨st2, sts2, rfl⟩
            exact ⟨st, st2 :: sts2, by simp [stmts_tokens]⟩)
          (by
            intro hb
            omega)
      · exact ⟨_, ⟨st, [], rfl⟩, by
          rw [hl]
          simp [stmts_tokens]⟩

theorem parse_execute_section_sound (f : Nat) (s : Parser) :
    Recognised
      (fun ts => ∃ (kw : Lex) (st : GStmt) (sts : List GStmt),
        ts = kw.tok EXECUTE :: stmts_tokens (st :: sts))
      (f < 5 * s.lexer.length) s.lexer (parse_execute_section f s) := by
  unfold parse_execute_section
  simp only [bind, Except.bind]
  split
  · next e he => exact Or.inl (expect_error_inv he)
  · next v he =>
    obtain ⟨kw, hl⟩ := expect_ok_inv EXECUTE (by decide) he
    obtain ⟨t, s1⟩ := v
    simp only [] at hl ⊢
    have e1 := congrArg List.length hl
    simp only [List.length_cons] at e1
    exact (parse_statement_list_sound f s1).extend [kw.tok EXECUTE] (by rw [hl]; rfl)
      (by
        rintro ts ⟨st, sts, rfl⟩
        exact ⟨kw, st, sts, rfl⟩)
      (by
        intro hb
        omega)

theorem expect_eof_inv {s : Parser} {v : Token × Parser}
    (h : expect END_OF_FILE s = .ok v) :
    s.lexer = [] ∨ ∃ t ∈ s.lexer, t.token_type = END_OF_FILE := by
  cases hl : s.lexer with
  | nil => exact Or.inl rfl
  | cons t rest =>
    right
    rw [expect_cons END_OF_FILE s t rest hl] at h
    by_cases ht : t.token_type = END_OF_FILE
    · exact ⟨t, List.mem_cons_self t rest, ht⟩
    · simp [ht] at h

/-- The outcome of the parsing phase on tokens without an end-of-file token
inside, with fuel for five calls per token: the tokens are a program of the
grammar, or the parse ends in the syntax fault. -/
theorem parse_phase_sound (tokens : List Token) (fuel : Nat) (hf : 5 * tokens.length ≤ fuel)
    (heof : ∀ t ∈ tokens, t.token_type ≠ END_OF_FILE) :
    (∃ s, parse_phase fuel (Parser.new tokens) = .ok s ∧ ∃ p : GProgram, tokens = p.tokens) ∨
      parse_phase fuel (Parser.new tokens) = .error .syntax_error := by
  have h0 : (Parser.new tokens).lexer = tokens := rfl
  unfold parse_phase
  simp only [bind, Except.bind, pure, Except.pure]
  split
  · next e he =>
    right
    rcases (parse_tasks_section_sound fuel _).of_error he with h | ⟨h, hb⟩
    · rw [h]
    · rw [h0] at hb
      omega
  · next s1 he =>
    obtain ⟨ts1, ⟨kw1, n1, ns1, rfl⟩, hl1⟩ := (parse_tasks_section_sound fuel _).of_ok he
    rw [h0] at hl1
    have e1 := congrArg List.length hl1
    simp only [List.length_append] at e1
    split
    · next e he2 =>
      right
      rcases (parse_poly_section_sound fuel _).of_error he2 with h | ⟨h, hb⟩
      · rw [h]
      · omega
    · next s2 he2 =>
      obtain ⟨ts2, ⟨kw2, d, ds, rfl⟩, hl2⟩ := (parse_poly_section_sound fuel _).of_ok he2
      have e2 := congrArg List.length hl2
      simp only [List.length_append] at e2
      split
      · next e he3 =>
        right
        rcases (parse_execute_section_sound fuel _).of_error he3 with h | ⟨h, hb⟩
        · rw [h]
        · omega
      · next s3 he3 =>
        obtain ⟨ts3, ⟨kw3, st, sts, rfl⟩, hl3⟩ := (parse_execute_section_sound fuel _).of_ok he3
        have e3 := congrArg List.length hl3
        simp only [List.length_append] at e3
        split
        · next e he4 =>
          right
          rcases (parse_inputs_section_sound fuel _).of_error he4 with h | ⟨h, hb⟩
          · rw [h]
          · omega
        · next s4 he4 =>
          obtain ⟨ts4, ⟨kw4, n4, ns4, rfl⟩, hl4⟩ := (parse_inputs_section_sound fuel _).of_ok he4
          split
          · next e he5 =>
            right
            rw [expect_error_inv he5]
          · next v5 he5 =>
            left
            refine ⟨_, rfl, ?_⟩
            have htok : tokens = (kw1.tok TASKS :: nums_tokens (n1 :: ns1)) ++
                ((kw2.tok POLY :: decls_tokens (d :: ds)) ++
                  ((kw3.tok EXECUTE :: stmts_tokens (st :: sts)) ++
                    ((kw4.tok INPUTS :: nums_tokens (n4 :: ns4)) ++ s4.lexer))) := by
              rw [hl1, hl2, hl3, hl4]
            rcases expect_eof_inv he5 with hnil | ⟨t, ht, hty⟩
            · rw [hnil] at htok
              refine ⟨⟨kw1, n1, ns1, kw2, d, ds, kw3, st, sts, kw4, n4, ns4⟩, ?_⟩
              rw [htok]
              simp [GProgram.tokens, GProgram.all_decls, GProgram.all_stmts,
                GProgram.all_inputs]
            · exfalso
              refine heof t ?_ hty
              rw [htok]
              simp only [List.mem_append]
              exact Or.inr (Or.inr (Or.inr (Or.inr ht)))


theorem error_of_fault {α : Type} {r : Res α} {e : Exit} (h : fault r = some e) :
    r = .error e := by
  cases r with
  | ok a => cases h
  | error e' =>
    simp only [fault, Option.some.injEq] at h
    rw [h]

theorem not_derivable_of_syntax_error (tokens : List Token) (fuel : Nat)
    (hf : 5 * tokens.length ≤ fuel)
    (h : parse_phase fuel (Parser.new tokens) = .error .syntax_error) :
    ¬ ∃ p : GProgram, tokens = p.tokens := by
  rintro ⟨p, rfl⟩
  rw [parse_phase_tree p fuel (Nat.le_trans (need_le_program p) hf)] at h
  cases h

/-- C14: on a finite token sequence (the end of the input being signalled by
the exhaustion of the tokens) and with fuel for five calls per token, the
parsing phase of `ConsumeAllInput` returns if and only if the sequence is
derivable from
`program ::= TASKS num_list POLY poly_decl+ EXECUTE stmt+ INPUTS num_list EOF`,
and on every sequence that is not derivable it ends in the syntax fault. -/
theorem C14_accepts_exactly_the_grammar (tokens : List Token) (fuel : Nat)
    (hf : 5 * tokens.length ≤ fuel) (heof : ∀ t ∈ tokens, t.token_type ≠ END_OF_FILE) :
    ((∃ s, parse_phase fuel (Parser.new tokens) = .ok s) ↔ ∃ p : GProgram, tokens = p.tokens) ∧
    ((¬ ∃ p : GProgram, tokens = p.tokens) →
      parse_phase fuel (Parser.new tokens) = .error .syntax_error) := by
  constructor
  · constructor
    · rintro ⟨s, hs⟩
      rcases parse_phase_sound tokens fuel hf heof with ⟨_, _, hp⟩ | he
      · exact hp
      · rw [he] at hs
        cases hs
    · rintro ⟨p, rfl⟩
      exact ⟨p.final, parse_phase_tree p fuel (Nat.le_trans (need_le_program p) hf)⟩
  · intro hnot
    rcases parse_phase_sound tokens fuel hf heof with ⟨_, _, hp⟩ | he
    · exact absurd hp hnot
    · exact he

/-- C14 at the tokens of `INPUT a; INPUT b; a = p(b); OUTPUT a;` with its sections:
the tokens are accepted and derivable. -/
theorem C14_accepts_exactly_the_grammar_witness :
    (5 * prog_two_inputs.tokens.length ≤ 200 ∧
      ∀ t ∈ prog_two_inputs.tokens, t.token_type ≠ END_OF_FILE) ∧
    ((∃ s, parse_phase 200 (Parser.new prog_two_inputs.tokens) = .ok s) ↔
      ∃ p : GProgram, prog_two_inputs.tokens = p.tokens) ∧
    ((¬ ∃ p : GProgram, prog_two_inputs.tokens = p.tokens) →
      parse_phase 200 (Parser.new prog_two_inputs.tokens) = .error .syntax_error) :=
  ⟨⟨by decide!, by decide!⟩,
    C14_accepts_exactly_the_grammar prog_two_inputs.tokens 200 (by decide!) (by decide!)⟩

theorem missing_body_rejected :
    parse_phase 200 (Parser.new prog_missing_body) = .error .syntax_error ∧
    ¬ ∃ p : GProgram, prog_missing_body = p.tokens :=
  ⟨error_of_fault (by decide!),
    not_derivable_of_syntax_error prog_missing_body 200 (by decide!)
      (error_of_fault (by decide!))⟩

/-- C15: on every token sequence that is not derivable from the grammar, the
outcome of `ConsumeAllInput` (and of the whole run) is the syntax fault: none
of the four semantic reports is produced, whatever was recorded before the
fault. -/
theorem C15_syntax_fault_wins (tokens : List Token) (fuel : Nat)
    (hf : 5 * tokens.length ≤ fuel) (heof : ∀ t ∈ tokens, t.token_type ≠ END_OF_FILE)
    (hnot : ¬ ∃ p : GProgram, tokens = p.tokens) :
    ConsumeAllInput fuel (Parser.new tokens) = .error .syntax_error ∧
    main fuel tokens = .error .syntax_error := by
  have he : parse_phase fuel (Parser.new tokens) = .error .syntax_error := by
    rcases parse_phase_sound tokens fuel hf heof with ⟨_, _, hp⟩ | he
    · exact absurd hp hnot
    · exact he
  have hc : ConsumeAllInput fuel (Parser.new tokens) = .error .syntax_error := by
    unfold ConsumeAllInput
    rw [he]
    rfl
  refine ⟨hc, ?_⟩
  unfold main
  rw [hc]
  rfl

/-- C15 at a program with an invalid monomial on line 3 and an undeclared call
on line 5, followed by a stray `;` on line 6: without the stray token the
outcome is the report of category 2, with it the outcome is the syntax
fault. -/
theorem C15_syntax_fault_wins_witness :
    (5 * prog_fault_after_violations.length ≤ 200 ∧
      (∀ t ∈ prog_fault_after_violations, t.token_type ≠ END_OF_FILE) ∧
      (¬ ∃ p : GProgram, prog_fault_after_violations = p.tokens) ∧
      ConsumeAllInput 200 (Parser.new prog_two_categories) =
        .error (.semantic_error 2 [3])) ∧
    ConsumeAllInput 200 (Parser.new prog_fault_after_violations) = .error .syntax_error ∧
    main 200 prog_fault_after_violations = .error .syntax_error :=
  ⟨⟨by decide!, by decide!,
      not_derivable_of_syntax_error prog_fault_after_violations 200 (by decide!)
        (error_of_fault (by decide!)),
      error_of_fault (by decide!)⟩,
    C15_syntax_fault_wins prog_fault_after_violations 200 (by decide!) (by decide!)
      (not_derivable_of_syntax_error prog_fault_after_violations 200 (by decide!)
        (error_of_fault (by decide!)))⟩

/-! ### The evaluation of a term list (C21) -/

/-- C22: when the next token is `-` and the term sequence of the current
polynomial ends in a term, `parse_add_operator` consumes the token and
replaces the coefficient `c` of that last term by `c * -1` (in 32 bits, which is
`-c` unless `c` is the least 32-bit integer), leaving the other terms, the
other members of that term and the rest of the state as they were; when the
next token is `+` it only consumes the token. -/
theorem C22_minus_negates_last_term (s : Parser) (x : Lex) (rest : List Token) :
    (∀ (ts : List Term) (c : Int) (b : Bool) (v : String) (e : Int) (m : monomial_list),
      s.lexer = x.tok MINUS :: rest → s.current_poly.terms = ts ++ [.mk c b v e m] →
      parse_add_operator s =
        .ok { s with
          lexer := rest
          current_poly := { s.current_poly with
            terms := ts ++ [.mk (wrap32 (c * (-1))) b v e m] } } ∧
      (-2147483648 < c → c ≤ 2147483647 → wrap32 (c * (-1)) = -c)) ∧
    (s.lexer = x.tok PLUS :: rest → parse_add_operator s = .ok { s with lexer := rest }) := by
  constructor
  · intro ts c b v e m hl ht
    constructor
    · unfold parse_add_operator
      have h1 : ¬ ((x.tok MINUS).token_type ≠ PLUS ∧ (x.tok MINUS).token_type ≠ MINUS) := by
        simp [tok_type]
      have h2 : (x.tok MINUS).token_type = MINUS ∧ (ts ++ [Term.mk c b v e m]).length > 0 := by
        simp [tok_type]
      have h3 : ¬ (MINUS ≠ PLUS ∧ MINUS ≠ MINUS) := by decide
      simp only [LexicalAnalyzer.GetToken, hl, peek_cons, List.tail_cons, h1, if_false, ht, h2,
        and_self, if_true, modify_back_append, Term.set_coefficient, Term.coefficient, pure,
        Except.pure, tok_type, h3]
    · intro h1 h2
      have e : c * (-1) = -c := by ring
      rw [e]
      exact wrap32_of_range _ (by omega) (by omega)
  · intro hl
    unfold parse_add_operator
    have h1 : ¬ ((x.tok PLUS).token_type ≠ PLUS ∧ (x.tok PLUS).token_type ≠ MINUS) := by
      simp [tok_type]
    have h2 : ¬ ((x.tok PLUS).token_type = MINUS ∧ s.current_poly.terms.length > 0) := by
      simp [tok_type]
    simp only [LexicalAnalyzer.GetToken, hl, peek_cons, List.tail_cons, h1, if_false, h2, pure,
      Except.pure]

/-- C22 at the stored terms `5`, `2x^3`: a `-` turns the sequence into `5`,
`-2x^3`, a `+` leaves it as it is. -/
theorem C22_minus_negates_last_term_witness :
    (parse_add_operator (state_before_operator ⟨MINUS, "-", 3⟩)).map
        (fun s => (s.lexer, s.current_poly.terms)) =
      .ok ([⟨NUM, "1", 3⟩, ⟨SEMICOLON, ";", 3⟩],
        [.mk 5 true "" 0 .null, .mk (-2) false "x" 3 .null]) ∧
    (parse_add_operator (state_before_operator ⟨PLUS, "+", 3⟩)).map
        (fun s => (s.lexer, s.current_poly.terms)) =
      .ok ([⟨NUM, "1", 3⟩, ⟨SEMICOLON, ";", 3⟩],
        [.mk 5 true "" 0 .null, .mk 2 false "x" 3 .null]) := by
  constructor
  · rw [((C22_minus_negates_last_term (state_before_operator ⟨MINUS, "-", 3⟩) ⟨"-", 3⟩
      [⟨NUM, "1", 3⟩, ⟨SEMICOLON, ";", 3⟩]).1 [.mk 5 true "" 0 .null] 2 false "x" 3 .null
      rfl rfl).1]
    rfl
  · rw [(C22_minus_negates_last_term (state_before_operator ⟨PLUS, "+", 3⟩) ⟨"+", 3⟩
      [⟨NUM, "1", 3⟩, ⟨SEMICOLON, ";", 3⟩]).2 rfl]
    rfl

/-! ### The stored input values (C23) -/

/-- The conversion of numbers outside the type `int`, as the C library does
it: `INPUTS 2147483648 4294967296 9223372036854775808 99999999999999999999` is
stored as `-2147483648, 0, -1, -1`. -/
theorem input_queue_of_large_numbers :
    (parse_phase 100 (Parser.new prog_large_inputs)).map (fun s => s.input_values) =
      .ok [-2147483648, 0, -1, -1] := by
  decide!

/-! ### The symbol-table invariant (C24) -/

theorem table_from_get : ∀ (l : List String) (k i : Nat),
    (table_from k l)[i]? = (l[i]?).map (fun n => ({ location := ((k + i : Nat) : Int), name := n } : VariableInfo))
  | [], k, i => by simp [table_from]
  | a :: l, k, 0 => by simp [table_from]
  | a :: l, k, i + 1 => by
    simp only [table_from, List.getElem?_cons_succ, table_from_get l (k + 1) i]
    have e : k + 1 + i = k + (i + 1) := by omega
    rw [e]

theorem table_from_names : ∀ (l : List String) (k : Nat),
    (table_from k l).map (fun var => var.name) = l
  | [], _ => rfl
  | a :: l, k => by simp [table_from, table_from_names l (k + 1)]

/-- C24: in the state reached from the freshly constructed parser by any
sequence of `allocate_variable` calls, the entry at index `i` of the symbol
table has location `i`, the names of the entries are pairwise distinct,
`next_available` is the number of entries, and two entries with the same
location have the same name. -/
theorem C24_symbol_table_invariant (tokens : List Token) (names : List String) :
    (∀ (i : Nat) (var : VariableInfo),
      (allocate_all names (Parser.new tokens)).symbol_table[i]? = some var →
      var.location = (i : Int)) ∧
    ((allocate_all names (Parser.new tokens)).symbol_table.map (fun var => var.name)).Nodup ∧
    (allocate_all names (Parser.new tokens)).next_available =
      ((allocate_all names (Parser.new tokens)).symbol_table.length : Int) ∧
    (∀ v ∈ (allocate_all names (Parser.new tokens)).symbol_table,
      ∀ w ∈ (allocate_all names (Parser.new tokens)).symbol_table,
      v.location = w.location → v.name = w.name) := by
  rw [allocate_all_eq names (Parser.new tokens) [] rfl rfl]
  simp only []
  have hloc : ∀ (i : Nat) (var : VariableInfo),
      (table_of (names_from [] names))[i]? = some var → var.location = (i : Int) := by
    intro i var h
    rw [table_of, table_from_get] at h
    cases hn : (names_from [] names)[i]? with
    | none => rw [hn] at h; cases h
    | some n =>
      rw [hn] at h
      simp only [Option.map_some', Option.some.injEq] at h
      rw [← h]
      simp
  have hname : ∀ (i : Nat) (var : VariableInfo),
      (table_of (names_from [] names))[i]? = some var →
      (names_from [] names)[i]? = some var.name := by
    intro i var h
    rw [table_of, table_from_get] at h
    cases hn : (names_from [] names)[i]? with
    | none => rw [hn] at h; cases h
    | some n =>
      rw [hn] at h
      simp only [Option.map_some', Option.some.injEq] at h
      rw [← h]
  refine ⟨hloc, ?_, ?_, ?_⟩
  · rw [table_of, table_from_names]
    exact nodup_names_from names [] List.nodup_nil
  · rw [table_of, table_from_length]
  · intro v hv w hw hvw
    obtain ⟨i, hi⟩ := List.getElem?_of_mem hv
    obtain ⟨j, hj⟩ := List.getElem?_of_mem hw
    have e1 := hloc i v hi
    have e2 := hloc j w hj
    have hij : i = j := by omega
    subst hij
    rw [hi] at hj
    cases hj
    rfl

/-- C24 at the calls `a, b, a, c, b`: the table is `a ↦ 0, b ↦ 1, c ↦ 2` and the
next free slot is 3. -/
theorem symbol_table_after_five_calls :
    ((allocate_all ["a", "b", "a", "c", "b"] (Parser.new [])).symbol_table.map
        (fun var => (var.name, var.location)) = [("a", 0), ("b", 1), ("c", 2)]) ∧
    (allocate_all ["a", "b", "a", "c", "b"] (Parser.new [])).next_available = 3 := by
  decide!

end PolyLang
